import Mathlib

/-!
Verification of the aureacore dependency-graph engine and validation policy.

The definitions below are a shallow embedding of the Rust sources:
  * `src/schema/validation.rs` — semantic-version compatibility classification,
    service validation with context;
  * `src/registry/dependency.rs` — dependency graph, cycle detection,
    topological sort, subgraph extraction, impact analysis, dependency
    validation;
  * `src/registry/mod.rs` — registry-level catalog validation, ordering,
    impact and deletion operations.

Rust `HashMap`s are modelled as association lists with unique keys (the list
keeps the iteration order abstractly fixed); `HashSet`s as lists used as sets.
Recursive DFS helpers take an explicit fuel argument; the fuel passed by the
top-level entry points is provably sufficient, so the embedded functions agree
with the (always terminating) Rust originals.
-/

namespace AureaCore

/-! ### Semantic versions

`semver::Version::parse` comes from an external crate.
Modelled from the spec: "parse both as semantic versions (major.minor.patch);
unparsable input on either side yields `MajorIncompatible`". Only the numeric
`major.minor.patch` core is modelled; the claims exercise only such versions.
-/

/-- A parsed semantic version (numeric core only). -/
structure SemVer where
  major : Nat
  minor : Nat
  patch : Nat
deriving DecidableEq, Repr

/-- Split a character list at `'.'` separators. -/
def splitDots : List Char → List Char → List (List Char)
  | [], cur => [cur.reverse]
  | c :: rest, cur =>
    if c = '.' then cur.reverse :: splitDots rest [] else splitDots rest (c :: cur)

/-- Interpret a nonempty list of decimal digits as a number. -/
def digitsToNat : List Char → Nat → Option Nat
  | [], acc => some acc
  | c :: rest, acc => if c.isDigit then digitsToNat rest (acc * 10 + (c.toNat - 48)) else none

/-- Parse a component of a version string: a nonempty all-digit chunk. -/
def parseComponent (cs : List Char) : Option Nat :=
  match cs with
  | [] => none
  | _ => digitsToNat cs 0

/-- Modelled from the spec: `semver::Version::parse` (external crate) on the
numeric `major.minor.patch` core: three dot-separated nonempty digit chunks. -/
def SemVer.parse (s : String) : Option SemVer :=
  match splitDots s.toList [] with
  | [a, b, c] =>
    match parseComponent a, parseComponent b, parseComponent c with
    | some x, some y, some z => some ⟨x, y, z⟩
    | _, _, _ => none
  | _ => none

/-- Result of version compatibility check (`validation.rs`). -/
inductive VersionCompatibility where
  | Compatible
  | MinorIncompatible
  | MajorIncompatible
deriving DecidableEq, Repr

/-- `check_version_compatibility` (`validation.rs`, lines 37-57; the method at
lines 185-209 is an identical copy). -/
def check_version_compatibility (version current : String) : VersionCompatibility :=
  match SemVer.parse version with
  | none => .MajorIncompatible
  | some v1 =>
    match SemVer.parse current with
    | none => .MajorIncompatible
    | some v2 =>
      if v1.major ≠ v2.major then .MajorIncompatible
      else if v1.minor ≠ v2.minor then .MinorIncompatible
      else .Compatible

/-! ### Association lists

`HashMap<String, V>` is modelled as an association list with unique keys.
`assocFind` is `HashMap::get`, `assocModify` is the in-place mutation through
`HashMap::get_mut` (a no-op when the key is absent).
-/

/-- Lookup in an association list (`HashMap::get`). -/
def assocFind {α : Type} (k : String) : List (String × α) → Option α
  | [] => none
  | (k', v) :: rest => if k = k' then some v else assocFind k rest

/-- Replace the value at the first occurrence of a key (`HashMap::get_mut` +
assignment); a no-op when the key is absent. -/
def assocModify {α : Type} (k : String) (f : α → α) : List (String × α) → List (String × α)
  | [] => []
  | (k', v) :: rest => if k = k' then (k', f v) :: rest else (k', v) :: assocModify k f rest

/-! ### The dependency graph (`dependency.rs`, lines 13-78) -/

/-- Metadata for edges in the dependency graph. -/
structure EdgeMetadata where
  required : Bool
  version_constraint : Option String
deriving DecidableEq, Repr

/-- Information about a detected dependency cycle. -/
structure CycleInfo where
  cycle_path : List String
  description : String
deriving DecidableEq, Repr

/-- Dependency graph: adjacency list over service names. -/
structure DependencyGraph where
  adjacency_list : List (String × List (String × EdgeMetadata))
deriving DecidableEq, Repr

namespace DependencyGraph

/-- The node set: the keys of the adjacency map. -/
def nodes (g : DependencyGraph) : List String :=
  g.adjacency_list.map Prod.fst

/-- `add_node`: `adjacency_list.entry(node).or_default()`. -/
def add_node (g : DependencyGraph) (node : String) : DependencyGraph :=
  if node ∈ g.nodes then g else ⟨g.adjacency_list ++ [(node, [])]⟩

/-- `add_edge`: ensure both endpoints exist, then append the directed edge. -/
def add_edge (g : DependencyGraph) (frm tgt : String) (metadata : EdgeMetadata) :
    DependencyGraph :=
  let g' := (g.add_node frm).add_node tgt
  ⟨assocModify frm (fun edges => edges ++ [(tgt, metadata)]) g'.adjacency_list⟩

/-- The outgoing edge list of a node (empty when the node is absent). -/
def edgeList (g : DependencyGraph) (node : String) : List (String × EdgeMetadata) :=
  (assocFind node g.adjacency_list).getD []

/-- `node_count`. -/
def node_count (g : DependencyGraph) : Nat :=
  g.adjacency_list.length

end DependencyGraph

/-- The edge relation of a graph: `Edge g a b` holds when the adjacency entry
of `a` contains an edge to `b`. -/
def Edge (g : DependencyGraph) (a b : String) : Prop :=
  ∃ m, (b, m) ∈ g.edgeList a

/-- A directed cycle exists: some node reaches itself in at least one step. -/
def hasCycle (g : DependencyGraph) : Prop :=
  ∃ v, Relation.TransGen (Edge g) v v

/-- Reachability along edges (reflexive-transitive closure). -/
def Reaches (g : DependencyGraph) : String → String → Prop :=
  Relation.ReflTransGen (Edge g)

/-! ### Cycle detection (`dependency.rs`, lines 80-141)

`dfs_detect_cycle` is recursive; the embedding threads the mutable state
(`visited`, `path`, `path_set`) explicitly and returns
`(found, path, visited)`.  On a `false` return the path component equals the
input path, matching the source's push/pop discipline.  `fuel` bounds the
recursion depth; each level that descends into a node's edge list consumes one
unit, and since every such node is a fresh graph key the depth is at most
`nodes.length + 1`, the fuel supplied by `detect_cycles`.
-/

/-- Fold of `dfs_detect_cycle` over the edge list of the current node: visit
each neighbour in turn, short-circuiting on a found cycle. -/
def dfsEdgesAux
    (visit : String → List String → List String → List String →
      Bool × List String × List String) :
    List (String × EdgeMetadata) → List String → List String → List String →
      Bool × List String × List String
  | [], vis, path, _ps => (false, path, vis)
  | (tgt, _) :: rest, vis, path, ps =>
    match visit tgt vis path ps with
    | (true, p, v) => (true, p, v)
    | (false, _, v) => dfsEdgesAux visit rest v path ps

/-- `dfs_detect_cycle` (`dependency.rs`, lines 104-141). -/
def dfsVisit (g : DependencyGraph) :
    Nat → String → List String → List String → List String →
      Bool × List String × List String
  | 0, _node, vis, path, _ps => (false, path, vis)
  | fuel + 1, node, vis, path, ps =>
    if node ∈ ps then (true, path ++ [node], vis)
    else if node ∈ vis then (false, path, vis)
    else
      let vis' := node :: vis
      match assocFind node g.adjacency_list with
      | none => (false, path, vis')
      | some edges =>
        match dfsEdgesAux (dfsVisit g fuel) edges vis' (path ++ [node]) (node :: ps) with
        | (true, p, v) => (true, p, v)
        | (false, _, v) => (false, path, v)

/-- The outer loop of `detect_cycles`: run a fresh DFS from every node,
returning the first path that revisits a node on the current path. -/
def detectLoop (g : DependencyGraph) : List String → Option (List String)
  | [] => none
  | k :: rest =>
    match dfsVisit g (g.nodes.length + 1) k [] [] [] with
    | (true, p, _) => some p
    | (false, _, _) => detectLoop g rest

/-- Join a list of strings with a separator (`Vec::join`). -/
def joinSep (sep : String) : List String → String
  | [] => ""
  | [x] => x
  | x :: rest => x ++ sep ++ joinSep sep rest

/-- `detect_cycles` (`dependency.rs`, lines 81-101): DFS from every node; on a
hit, the cycle is the suffix of the path from the first occurrence of the
revisited node. -/
def detect_cycles (g : DependencyGraph) : Option CycleInfo :=
  match detectLoop g g.nodes with
  | none => none
  | some p =>
    let lastN := p.getLast?.getD ""
    let cyc := p.drop (p.indexOf lastN)
    some ⟨cyc, "Circular dependency detected: " ++ joinSep " -> " cyc⟩

/-! ### Errors (`error.rs`)

`AureaCoreError` from `error.rs`, omitting the payload of `Io` (an
`std::io::Error` value).  The variants `CircularDependency`, `Internal` and
`ServiceNotFound` are referenced by `dependency.rs`/`mod.rs` but their
declarations are not part of the provided `error.rs`; they are modelled from
those use sites and from the spec's error taxonomy (§7).
-/

/-- The error type of the crate. -/
inductive AureaCoreError where
  | Git (msg : String)
  | Io
  | Config (msg : String)
  | Service (msg : String)
  | ValidationError (msg : String)
  | SchemaCompilationError (msg : String)
  | IncompatibleVersion (msg : String)
  | NotImplemented (msg : String)
  | CircularDependency (msg : String)
  | Internal (msg : String)
  | ServiceNotFound (name : String)
deriving DecidableEq, Repr

/-! ### Topological sort (`dependency.rs`, lines 143-201)

Kahn's algorithm.  In-degrees live in a `HashMap<String, usize>`; the counter
is modelled as `Int` so that the (unreachable in practice) decrement of a zero
counter does not spuriously compare equal to zero afterwards, matching the
wrap-around of an unsigned machine integer.  The loop takes fuel; one unit is
consumed per iteration, and the supplied fuel strictly exceeds the measure
`queue.length + #{entries with positive degree}`, which decreases by one each
iteration, so the loop always runs to completion exactly as the source does.
-/

/-- In-degree map: service name to (signed) in-degree counter. -/
abbrev DegMap := List (String × Int)

/-- `*in_degree.entry(to).or_insert(0) += 1`. -/
def incEntry (tgt : String) (D : DegMap) : DegMap :=
  match assocFind tgt D with
  | some _ => assocModify tgt (fun d => d + 1) D
  | none => D ++ [(tgt, 1)]

/-- Build the in-degree map: zero for every node, then one increment per edge
(`dependency.rs`, lines 151-161). -/
def buildInDegree (g : DependencyGraph) : DegMap :=
  let D0 : DegMap := g.adjacency_list.map (fun e => (e.1, (0 : Int)))
  g.adjacency_list.foldl (fun D e => e.2.foldl (fun D' p => incEntry p.1 D') D) D0

/-- Process the out-edges of a dequeued node: decrement each present target's
degree and collect the targets whose degree reaches zero, in edge order
(`dependency.rs`, lines 177-187). -/
def processEdges : List (String × EdgeMetadata) → DegMap → DegMap × List String
  | [], D => (D, [])
  | (tgt, _) :: rest, D =>
    match assocFind tgt D with
    | none => processEdges rest D
    | some d =>
      let d' := d - 1
      let D' := assocModify tgt (fun _ => d') D
      let (D'', ps) := processEdges rest D'
      if d' = 0 then (D'', tgt :: ps) else (D'', ps)

/-- The Kahn work loop (`dependency.rs`, lines 173-188): dequeue, append to
the output, decrement neighbours, enqueue newly-zero nodes at the back. -/
def kahnLoop (g : DependencyGraph) :
    Nat → List String → DegMap → List String → List String
  | 0, _, _, sorted => sorted
  | _ + 1, [], _, sorted => sorted
  | fuel + 1, node :: rest, D, sorted =>
    let sorted' := sorted ++ [node]
    match assocFind node g.adjacency_list with
    | none => kahnLoop g fuel rest D sorted'
    | some edges =>
      let step := processEdges edges D
      kahnLoop g fuel (rest ++ step.2) step.1 sorted'

/-- `topological_sort` (`dependency.rs`, lines 145-201): refuse on a detected
cycle, run Kahn's algorithm, check the output covers every node, and reverse
so that dependencies come first. -/
def DependencyGraph.topological_sort (g : DependencyGraph) :
    Except AureaCoreError (List String) :=
  match detect_cycles g with
  | some ci => .error (.CircularDependency ci.description)
  | none =>
    let D := buildInDegree g
    let queue := (D.filter (fun p => p.2 == 0)).map Prod.fst
    let sorted := kahnLoop g (queue.length + D.length + 1) queue D []
    if sorted.length ≠ g.adjacency_list.length then
      .error (.Internal "Topological sort failed despite no detected cycles")
    else .ok sorted.reverse

/-! ### Subgraph extraction (`dependency.rs`, lines 203-238) -/

/-- Fold of `dfs_extract_subgraph` over an edge list: copy each edge into the
subgraph, then recurse into its target. -/
def extractEdgesAux
    (visit : String → DependencyGraph → List String → DependencyGraph × List String)
    (node : String) :
    List (String × EdgeMetadata) → DependencyGraph → List String →
      DependencyGraph × List String
  | [], sub, vis => (sub, vis)
  | (tgt, m) :: rest, sub, vis =>
    let sub' := sub.add_edge node tgt m
    let step := visit tgt sub' vis
    extractEdgesAux visit node rest step.1 step.2

/-- `dfs_extract_subgraph` (`dependency.rs`, lines 217-237). -/
def extractVisit (g : DependencyGraph) :
    Nat → String → DependencyGraph → List String → DependencyGraph × List String
  | 0, _, sub, vis => (sub, vis)
  | fuel + 1, node, sub, vis =>
    if node ∈ vis then (sub, vis)
    else
      let vis' := node :: vis
      let sub' := sub.add_node node
      match assocFind node g.adjacency_list with
      | none => (sub', vis')
      | some edges => extractEdgesAux (extractVisit g fuel) node edges sub' vis'

/-- `get_subgraph` (`dependency.rs`, lines 204-214): DFS-copy everything
reachable from each root into a fresh graph, sharing one visited set. -/
def DependencyGraph.get_subgraph (g : DependencyGraph) (roots : List String) :
    DependencyGraph :=
  (roots.foldl
    (fun acc root => extractVisit g (g.nodes.length + 1) root acc.1 acc.2)
    (⟨[]⟩, [])).1

/-- `DependencyResolver::resolve_order` (`dependency.rs`, lines 256-267):
topologically sort the subgraph reachable from the requested services. -/
def resolve_order (g : DependencyGraph) (service_names : List String) :
    Except AureaCoreError (List String) :=
  (g.get_subgraph service_names).topological_sort

/-! ### Impact analysis (`dependency.rs`, lines 269-302) -/

/-- Innermost loop of `dfs_reverse_deps`: scan one adjacency entry's edges for
edges into `node`; push the unrecorded sources and recurse into them. -/
def impactScanEdges
    (impVisit : String → List String → List String → List String × List String)
    (frm node : String) :
    List (String × EdgeMetadata) → List String → List String →
      List String × List String
  | [], vis, imp => (vis, imp)
  | (tgt, _) :: rest, vis, imp =>
    if tgt = node ∧ frm ∉ imp then
      let step := impVisit frm vis (imp ++ [frm])
      impactScanEdges impVisit frm node rest step.1 step.2
    else impactScanEdges impVisit frm node rest vis imp

/-- Outer loop of `dfs_reverse_deps`: scan every adjacency entry. -/
def impactScanAll
    (impVisit : String → List String → List String → List String × List String)
    (node : String) :
    List (String × List (String × EdgeMetadata)) → List String → List String →
      List String × List String
  | [], vis, imp => (vis, imp)
  | (frm, edges) :: rest, vis, imp =>
    let step := impactScanEdges impVisit frm node edges vis imp
    impactScanAll impVisit node rest step.1 step.2

/-- `dfs_reverse_deps` (`dependency.rs`, lines 281-302). -/
def dfsReverseDeps (g : DependencyGraph) :
    Nat → String → List String → List String → List String × List String
  | 0, _, vis, imp => (vis, imp)
  | fuel + 1, node, vis, imp =>
    if node ∈ vis then (vis, imp)
    else impactScanAll (dfsReverseDeps g fuel) node g.adjacency_list (node :: vis) imp

/-- `find_impact_path` (`dependency.rs`, lines 270-278): all services that
transitively depend on `service_name`. -/
def find_impact_path (g : DependencyGraph) (service_name : String) : List String :=
  (dfsReverseDeps g (g.nodes.length + 2) service_name [] []).2

/-! ### Registry data model (`registry/service.rs`, `schema/service.rs`)

Timestamps (`last_checked`, `last_updated`) come from the system clock and
are omitted.  `schema_data` is a JSON value; only the structure the validation
code inspects is modelled.
-/

/-- State of a service. -/
inductive ServiceState where
  | Active
  | Inactive
  | Validating
  | Error
deriving DecidableEq, Repr

/-- Status of a service (without the wall-clock field). -/
structure ServiceStatus where
  state : ServiceState
  error_message : Option String
  warnings : List String
deriving DecidableEq, Repr

/-- `ServiceStatus::new`. -/
def ServiceStatus.new (state : ServiceState) : ServiceStatus :=
  ⟨state, none, []⟩

/-- `ServiceStatus::with_error`. -/
def ServiceStatus.with_error (st : ServiceStatus) (message : String) : ServiceStatus :=
  { st with state := .Error, error_message := some message }

/-- `ServiceStatus::with_warnings`. -/
def ServiceStatus.with_warnings (st : ServiceStatus) (warnings : List String) :
    ServiceStatus :=
  { st with warnings := warnings }

/-- A declared dependency (`schema/service.rs`, lines 63-71). -/
structure Dependency where
  service : String
  version_constraint : Option String
  required : Bool
deriving DecidableEq, Repr

/-- Service configuration (`registry/service.rs`); the unused `namespace`
field is omitted. -/
structure ServiceConfig where
  config_path : String
  schema_version : String
  dependencies : Option (List Dependency)
deriving DecidableEq, Repr

/-- A JSON value, as far as the validation code inspects it. -/
inductive JsonValue where
  | null
  | bool (b : Bool)
  | num (n : Int)
  | str (s : String)
  | arr (items : List JsonValue)
  | obj (fields : List (String × JsonValue))

/-- `serde_json::Value::get` on an object. -/
def JsonValue.getField : JsonValue → String → Option JsonValue
  | .obj fields, k => assocFind k fields
  | _, _ => none

/-- `serde_json::Value::as_str`. -/
def JsonValue.asStr : JsonValue → Option String
  | .str s => some s
  | _ => none

/-- `serde_json::Value::as_array`. -/
def JsonValue.asArr : JsonValue → Option (List JsonValue)
  | .arr items => some items
  | _ => none

/-- A service record (`registry/service.rs`, timestamps omitted). -/
structure Service where
  name : String
  config : ServiceConfig
  status : ServiceStatus
  schema_data : Option JsonValue

/-- The registry's service map. -/
abbrev RegistryServices := List (String × Service)

/-- `AureaCoreError`'s `Display` implementation (`error.rs`). -/
def AureaCoreError.toMessage : AureaCoreError → String
  | .Git msg => "Git error: " ++ msg
  | .Io => "IO error: "
  | .Config msg => "Configuration error: " ++ msg
  | .Service msg => "Service error: " ++ msg
  | .ValidationError msg => "Validation error: " ++ msg
  | .SchemaCompilationError msg => "Schema compilation error: " ++ msg
  | .IncompatibleVersion msg => "Incompatible version: " ++ msg
  | .NotImplemented msg => "Not implemented: " ++ msg
  | .CircularDependency msg => "Circular dependency error: " ++ msg
  | .Internal msg => "Internal error: " ++ msg
  | .ServiceNotFound name => "Service not found: " ++ name

/-! ### `DependencyManager::validate_dependencies` (`dependency.rs`, 396-526) -/

/-- The loop body of `validate_dependencies`, threading the accumulated
per-service warnings and returning early on the first hard error. -/
def validateDependenciesGo (services : RegistryServices) (service_name : String) :
    List Dependency → List String →
      Except AureaCoreError (List (String × List String))
  | [], ws => .ok (if ws.isEmpty then [] else [(service_name, ws)])
  | dep :: rest, ws =>
    match assocFind dep.service services with
    | none =>
      if dep.required then
        .error (.ValidationError ("Required dependency '" ++ dep.service ++ "' not found"))
      else
        validateDependenciesGo services service_name rest
          (ws ++ ["Optional dependency '" ++ dep.service ++ "' not found"])
    | some dep_service =>
      match dep.version_constraint with
      | none => validateDependenciesGo services service_name rest ws
      | some version_constraint =>
        match dep_service.schema_data with
        | none =>
          if dep.required then
            .error (.ValidationError
              ("Dependency '" ++ dep.service ++ "' schema data not loaded"))
          else
            validateDependenciesGo services service_name rest
              (ws ++ ["Optional dependency '" ++ dep.service ++ "': " ++
                ("Dependency '" ++ dep.service ++ "' schema data not loaded")])
        | some schema =>
          match schema.getField "version" with
          | none =>
            if dep.required then
              .error (.ValidationError
                ("Dependency '" ++ dep.service ++ "' schema missing version field"))
            else
              validateDependenciesGo services service_name rest
                (ws ++ ["Optional dependency '" ++ dep.service ++ "': " ++
                  ("Dependency '" ++ dep.service ++ "' schema missing version field")])
          | some versionJson =>
            match versionJson.asStr with
            | none =>
              if dep.required then
                .error (.ValidationError
                  ("Dependency '" ++ dep.service ++ "' schema has non-string version"))
              else
                validateDependenciesGo services service_name rest
                  (ws ++ ["Optional dependency '" ++ dep.service ++ "': " ++
                    ("Dependency '" ++ dep.service ++ "' schema has non-string version")])
            | some dep_version =>
              match check_version_compatibility dep_version version_constraint with
              | .Compatible => validateDependenciesGo services service_name rest ws
              | .MinorIncompatible =>
                validateDependenciesGo services service_name rest
                  (ws ++ ["Minor version incompatibility for dependency '" ++
                    dep.service ++ "': expected " ++ version_constraint ++
                    " but found " ++ dep_version])
              | .MajorIncompatible =>
                if dep.required then
                  .error (.ValidationError
                    ("Major version incompatibility for dependency '" ++ dep.service ++
                      "': expected " ++ version_constraint ++ " but found " ++ dep_version))
                else
                  validateDependenciesGo services service_name rest
                    (ws ++ ["Optional dependency '" ++ dep.service ++ "': " ++
                      ("Major version incompatibility for dependency '" ++ dep.service ++
                        "': expected " ++ version_constraint ++ " but found " ++
                        dep_version)])

/-- `validate_dependencies`: returns the warnings map, or the first hard
error. -/
def validate_dependencies (services : RegistryServices) (service_name : String) :
    Except AureaCoreError (List (String × List String)) :=
  match assocFind service_name services with
  | none => .error (.Config ("Service '" ++ service_name ++ "' not found"))
  | some service =>
    match service.config.dependencies with
    | none => .ok []
    | some deps => validateDependenciesGo services service_name deps []

/-- The hard-error message a single dependency triggers in
`validate_dependencies`, if any (mirrors the `go` loop's error branches). -/
def depHardError (services : RegistryServices) (dep : Dependency) : Option String :=
  match assocFind dep.service services with
  | none =>
    if dep.required then some ("Required dependency '" ++ dep.service ++ "' not found")
    else none
  | some dep_service =>
    match dep.version_constraint with
    | none => none
    | some version_constraint =>
      match dep_service.schema_data with
      | none =>
        if dep.required then
          some ("Dependency '" ++ dep.service ++ "' schema data not loaded")
        else none
      | some schema =>
        match schema.getField "version" with
        | none =>
          if dep.required then
            some ("Dependency '" ++ dep.service ++ "' schema missing version field")
          else none
        | some versionJson =>
          match versionJson.asStr with
          | none =>
            if dep.required then
              some ("Dependency '" ++ dep.service ++ "' schema has non-string version")
            else none
          | some dep_version =>
            match check_version_compatibility dep_version version_constraint with
            | .MajorIncompatible =>
              if dep.required then
                some ("Major version incompatibility for dependency '" ++ dep.service ++
                  "': expected " ++ version_constraint ++ " but found " ++ dep_version)
              else none
            | _ => none

/-! ### Context validation (`schema/validation.rs`, lines 211-442)

`perform_schema_validation` compiles a JSON schema with the external
`jsonschema` crate and validates the document against it; that external
validator is a parameter `schemaValidate` of the embedding (its result type
`Except (List String) Unit` mirrors `CompiledSchema::validate`).
-/

/-- `CURRENT_SCHEMA_VERSION` (`schema/validation.rs`, line 12). -/
def CURRENT_SCHEMA_VERSION : String := "1.0.0"

/-- `ValidationService::validate_dependencies` (lines 211-236): catalog check
of the raw JSON dependency entries. -/
def validateDependenciesCtx (service_name : String) (config : JsonValue)
    (available_services : List String) : List String :=
  match (config.getField "dependencies").bind JsonValue.asArr with
  | none => []
  | some dependencies =>
    dependencies.filterMap (fun dep =>
      match (dep.getField "service").bind JsonValue.asStr with
      | none => none
      | some name =>
        if name ∈ available_services then none
        else some ("Service '" ++ service_name ++ "' depends on '" ++ name ++
          "', which is not registered in the catalog"))

/-- `ValidationService::validate_service_type` (lines 306-373). -/
def validateServiceType (service_name : String) (config : JsonValue) : List String :=
  match ((config.getField "service_type").bind (·.getField "type")).bind JsonValue.asStr with
  | none => []
  | some service_type =>
    if service_type = "rest" then
      match (config.getField "endpoints").bind JsonValue.asArr with
      | none => []
      | some endpoints =>
        endpoints.enum.filterMap (fun ie =>
          match ie.2.getField "method" with
          | some _ => none
          | none => some ("Service '" ++ service_name ++
              "' is a REST service but endpoint #" ++ toString (ie.1 + 1) ++
              " doesn't specify an HTTP method"))
    else if service_type = "graphql" then
      match (config.getField "metadata").bind (·.getField "graphql_schema") with
      | some _ => []
      | none => ["Service '" ++ service_name ++
          "' is a GraphQL service but doesn't specify a graphql_schema in metadata"]
    else if service_type = "grpc" then
      match (config.getField "metadata").bind (·.getField "proto_files") with
      | some _ => []
      | none => ["Service '" ++ service_name ++
          "' is a gRPC service but doesn't specify proto_files in metadata"]
    else if service_type = "event_driven" then
      match (config.getField "metadata").bind (·.getField "topics") with
      | some _ => []
      | none => ["Service '" ++ service_name ++
          "' is an event-driven service but doesn't specify topics in metadata"]
    else
      match config.getField "description" with
      | some _ => []
      | none => ["Service '" ++ service_name ++ "' uses a custom service type '" ++
          service_type ++ "' but doesn't provide a description"]

/-- `ValidationService::perform_schema_validation` (lines 239-303),
parameterised by the compiled external validator. -/
def performSchemaValidation (schemaValidate : JsonValue → Except (List String) Unit)
    (config : JsonValue) : Except AureaCoreError Unit × Option String :=
  let config_version :=
    ((config.getField "schema_version").bind JsonValue.asStr).getD "1.0.0"
  match check_version_compatibility config_version CURRENT_SCHEMA_VERSION with
  | .Compatible =>
    match schemaValidate config with
    | .ok _ => (.ok (), none)
    | .error errors =>
      (.error (.ValidationError ("Schema validation failed: " ++ joinSep ", " errors)),
        none)
  | .MinorIncompatible =>
    let warning := "Minor schema version incompatibility: config version " ++
      config_version ++ " vs current " ++ CURRENT_SCHEMA_VERSION
    match schemaValidate config with
    | .ok _ => (.ok (), some warning)
    | .error errors =>
      (.error (.ValidationError ("Schema validation failed: " ++ joinSep ", " errors)),
        none)
  | .MajorIncompatible =>
    (.error (.IncompatibleVersion ("Schema version " ++ config_version ++
      " is incompatible with current version " ++ CURRENT_SCHEMA_VERSION)), none)

/-- `ValidationService::validate_service_with_context` (lines 376-442). -/
def validate_service_with_context (schemaValidate : JsonValue → Except (List String) Unit)
    (service_name : String) (config : JsonValue) (available_services : List String) :
    Except AureaCoreError Unit × List String :=
  let config_version :=
    ((config.getField "schema_version").bind JsonValue.asStr).getD "1.0.0"
  match check_version_compatibility config_version CURRENT_SCHEMA_VERSION with
  | .MajorIncompatible =>
    (.error (.IncompatibleVersion ("Schema version " ++ config_version ++
      " is incompatible with current version " ++ CURRENT_SCHEMA_VERSION)), [])
  | compat =>
    let ws0 :=
      match compat with
      | .MinorIncompatible =>
        ["Service '" ++ service_name ++ "' uses schema version " ++ config_version ++
          " which has minor differences from the current version " ++
          CURRENT_SCHEMA_VERSION ++ ". Some features may not be validated correctly."]
      | _ => []
    let ws1 := ws0 ++ validateDependenciesCtx service_name config available_services
    let ws2 := ws1 ++ validateServiceType service_name config
    let (validation_result, schema_warning) := performSchemaValidation schemaValidate config
    let ws3 := ws2 ++ (match schema_warning with | some w => [w] | none => [])
    (validation_result, ws3)

/-! ### `ValidationSummary` (`registry/mod.rs`, lines 465-527) -/

/-- Summary of a registry-wide validation run (timestamp omitted). -/
structure ValidationSummary where
  successful : List String
  failed : List (String × String)
  warnings : List (String × List String)

/-- `warnings.entry(name).or_default().push(w)`. -/
def warnAdd (ws : List (String × List String)) (name w : String) :
    List (String × List String) :=
  match assocFind name ws with
  | some _ => assocModify name (fun l => l ++ [w]) ws
  | none => ws ++ [(name, [w])]

/-- `ValidationSummary::add_warning`. -/
def ValidationSummary.add_warning (s : ValidationSummary) (service_name warning : String) :
    ValidationSummary :=
  { s with warnings := warnAdd s.warnings service_name warning }

/-- The summary records warning `w` for service `y`. -/
def WarnMem (s : ValidationSummary) (y w : String) : Prop :=
  ∃ l, assocFind y s.warnings = some l ∧ w ∈ l

/-! ### `ServiceRegistry::validate_all_services` (`registry/mod.rs`, lines 129-309)

The second pass calls two external collaborators: the compiled JSON-schema
validator (parameter `schemaValidate`, as above) and
`Service::load_schema_data`, which reads the config file from disk
(parameter `loadSchema`, returning the parsed document or an error).
-/

/-- The dependency graph built over the registry: every service is a node, and
every declared dependency on a registered service is an edge carrying the
declaration's metadata.  This is both `build_dependency_graph`
(`registry/mod.rs`, lines 312-336) and the graph built by the first pass of
`validate_all_services` (lines 137-164). -/
def buildDependencyGraphReg (services : RegistryServices) : DependencyGraph :=
  let g0 := services.foldl (fun g e => g.add_node e.1) ⟨[]⟩
  services.foldl (fun g e =>
    match e.2.config.dependencies with
    | none => g
    | some dependencies =>
      dependencies.foldl (fun g dep =>
        if (assocFind dep.service services).isSome then
          g.add_edge e.1 dep.service ⟨dep.required, dep.version_constraint⟩
        else g) g) g0

/-- First-pass state for one service: accumulated
`(service_warnings, has_critical_error, error_message, failed entries)`. -/
abbrev FirstPassState := List String × Bool × String × List (String × String)

/-- One dependency's contribution to the first pass of `validate_all_services`
(lines 154-225). -/
def firstPassDep (services : RegistryServices) (service_name : String)
    (st : FirstPassState) (dep : Dependency) : FirstPassState :=
  match assocFind dep.service services with
  | some dep_service =>
    match dep.version_constraint with
    | none => st
    | some version_constraint =>
      match dep_service.schema_data with
      | none => st
      | some schema =>
        match (schema.getField "version").bind JsonValue.asStr with
        | none => st
        | some version =>
          match check_version_compatibility version version_constraint with
          | .Compatible => st
          | .MinorIncompatible =>
            (st.1 ++ ["Minor version incompatibility for dependency '" ++ dep.service ++
              "': expected " ++ version_constraint ++ " but found " ++ version],
              st.2.1, st.2.2.1, st.2.2.2)
          | .MajorIncompatible =>
            let msg := "Major version incompatibility for dependency '" ++ dep.service ++
              "': expected " ++ version_constraint ++ " but found " ++ version
            if dep.required then
              (st.1, true, msg, st.2.2.2 ++ [(service_name, msg)])
            else
              (st.1 ++ ["Optional dependency '" ++ dep.service ++
                "' has incompatible version: " ++ msg], st.2.1, st.2.2.1, st.2.2.2)
  | none =>
    if dep.required then
      let msg := "Required dependency '" ++ dep.service ++ "' not found"
      (st.1, true, msg, st.2.2.2 ++ [(service_name, msg)])
    else
      (st.1 ++ ["Optional dependency '" ++ dep.service ++ "' not found"],
        st.2.1, st.2.2.1, st.2.2.2)

/-- The whole first-pass loop body for one service (lines 148-237). -/
def firstPassService (services : RegistryServices) (service_name : String)
    (service : Service) : FirstPassState :=
  match service.config.dependencies with
  | none => ([], false, "", [])
  | some dependencies =>
    dependencies.foldl (firstPassDep services service_name) ([], false, "", [])

/-- Second-pass handling of one service whose schema data `d` is at hand
(lines 278-305): returns the updated summary and the updated service. -/
def secondPassItem (schemaValidate : JsonValue → Except (List String) Unit)
    (service_names : List String) (name : String) (svc : Service) (d : JsonValue)
    (summary : ValidationSummary) : ValidationSummary × Service :=
  let rw := validate_service_with_context schemaValidate name d service_names
  let summary' := rw.2.foldl (fun s w => s.add_warning name w) summary
  match rw.1 with
  | .ok _ =>
    ({ summary' with successful := summary'.successful ++ [name] },
      { svc with status := (ServiceStatus.new .Active).with_warnings rw.2 })
  | .error err =>
    ({ summary' with
        failed := summary'.failed ++ [(name, err.toMessage)] },
      { svc with status :=
          ((ServiceStatus.new .Error).with_error err.toMessage).with_warnings rw.2 })

/-- The second pass of `validate_all_services` (lines 266-306): walk the
services, skip those that failed dependency validation, load missing schema
data (aborting everything on a load error), validate the rest. -/
def secondPass (schemaValidate : JsonValue → Except (List String) Unit)
    (loadSchema : Service → Except AureaCoreError JsonValue)
    (service_names : List String) (errSet : List String) :
    List (String × Service) → ValidationSummary → RegistryServices →
      Except AureaCoreError (ValidationSummary × RegistryServices)
  | [], summary, acc => .ok (summary, acc)
  | e :: rest, summary, acc =>
    if e.1 ∈ errSet then
      secondPass schemaValidate loadSchema service_names errSet rest summary (acc ++ [e])
    else
      match e.2.schema_data with
      | some d =>
        let r := secondPassItem schemaValidate service_names e.1 e.2 d summary
        secondPass schemaValidate loadSchema service_names errSet rest r.1
          (acc ++ [(e.1, r.2)])
      | none =>
        match loadSchema e.2 with
        | .error err => .error err
        | .ok d =>
          let svc := { e.2 with schema_data := some d }
          let r := secondPassItem schemaValidate service_names e.1 svc d summary
          secondPass schemaValidate loadSchema service_names errSet rest r.1
            (acc ++ [(e.1, r.2)])

/-- `validate_all_services`: the summary, paired with the registry's service
map as mutated by the run. -/
def validate_all_services (schemaValidate : JsonValue → Except (List String) Unit)
    (loadSchema : Service → Except AureaCoreError JsonValue)
    (services : RegistryServices) :
    Except AureaCoreError (ValidationSummary × RegistryServices) :=
  let service_names := services.map Prod.fst
  let fp := services.map (fun e => (e.1, firstPassService services e.1 e.2))
  let failed₁ := (fp.map (fun r => r.2.2.2.2)).flatten
  let services_with_errors :=
    (fp.filter (fun r => r.2.2.1)).map (fun r => (r.1, r.2.2.2.1))
  let dependency_warnings :=
    (fp.filter (fun r => !r.2.1.isEmpty)).map (fun r => (r.1, r.2.1))
  let graph := buildDependencyGraphReg services
  let summary₀ : ValidationSummary := ⟨[], failed₁, []⟩
  let summary₁ :=
    match detect_cycles graph with
    | some cycle =>
      summary₀.add_warning "system" ("Circular dependency detected: " ++ cycle.description)
    | none => summary₀
  let summary₂ := dependency_warnings.foldl
    (fun s r => r.2.foldl (fun s' w => s'.add_warning r.1 w) s) summary₁
  let services₁ := services.map (fun e =>
    match assocFind e.1 services_with_errors with
    | some msg =>
      (e.1, { e.2 with status := (ServiceStatus.new .Error).with_error msg })
    | none => e)
  let errSet := services_with_errors.map Prod.fst
  secondPass schemaValidate loadSchema service_names errSet services₁ summary₂ []

/-- The per-service first-pass results, in registry order. -/
def fpList (services : RegistryServices) : List (String × FirstPassState) :=
  services.map (fun e => (e.1, firstPassService services e.1 e.2))

/-- All failed entries pushed during the first pass. -/
def failedFirst (services : RegistryServices) : List (String × String) :=
  ((fpList services).map (fun r => r.2.2.2.2)).flatten

/-- `services_with_errors` of the first pass. -/
def servicesWithErrors (services : RegistryServices) : List (String × String) :=
  ((fpList services).filter (fun r => r.2.2.1)).map (fun r => (r.1, r.2.2.2.1))

/-- `dependency_warnings` of the first pass. -/
def dependencyWarnings (services : RegistryServices) : List (String × List String) :=
  ((fpList services).filter (fun r => !r.2.1.isEmpty)).map (fun r => (r.1, r.2.1))

/-- The summary as it stands after the first pass (failed entries, the cycle
warning, the dependency warnings). -/
def summaryFirst (services : RegistryServices) : ValidationSummary :=
  let summary₀ : ValidationSummary := ⟨[], failedFirst services, []⟩
  let summary₁ :=
    match detect_cycles (buildDependencyGraphReg services) with
    | some cycle =>
      summary₀.add_warning "system" ("Circular dependency detected: " ++ cycle.description)
    | none => summary₀
  (dependencyWarnings services).foldl
    (fun s r => r.2.foldl (fun s' w => s'.add_warning r.1 w) s) summary₁

/-- The service map after the first pass's status updates. -/
def servicesFirst (services : RegistryServices) : RegistryServices :=
  services.map (fun e =>
    match assocFind e.1 (servicesWithErrors services) with
    | some msg =>
      (e.1, { e.2 with status := (ServiceStatus.new .Error).with_error msg })
    | none => e)

/-- The names of the services that failed dependency validation. -/
def errSetOf (services : RegistryServices) : List String :=
  (servicesWithErrors services).map Prod.fst

/-! ### Registry-level graph operations (`registry/mod.rs`, lines 338-422) -/

/-- `get_ordered_services` (lines 338-347). -/
def get_ordered_services (services : RegistryServices) (service_names : List String) :
    Except AureaCoreError (List String) :=
  resolve_order (buildDependencyGraphReg services) service_names

/-- `get_impacted_services` (lines 359-365): no registration check on the
target. -/
def get_impacted_services (services : RegistryServices) (service_name : String) :
    Except AureaCoreError (List String) :=
  .ok (find_impact_path (buildDependencyGraphReg services) service_name)

/-- Detailed impact record.  Modelled from the spec: `ImpactInfo` is used by
`registry/mod.rs` but its declaration is not part of the provided
`dependency.rs`; per the spec (§2, §4.4) it carries the service name, the
discovering edge's `required` flag, the accumulated path from the target, and
a description. -/
structure ImpactInfo where
  service_name : String
  is_required : Bool
  impact_path : List String
  description : String
deriving DecidableEq, Repr

/-- Modelled from the spec: inner edge scan of `analyze_impact_details` —
`dfs_reverse_deps` (§4.4 "same traversal"), additionally recording the
discovering edge's metadata and the path taken. -/
def impactDetEdges
    (visitD : String → List String → List String → List ImpactInfo →
      List String × List ImpactInfo)
    (frm node : String) (path : List String) :
    List (String × EdgeMetadata) → List String → List ImpactInfo →
      List String × List ImpactInfo
  | [], vis, infos => (vis, infos)
  | (tgt, m) :: rest, vis, infos =>
    if tgt = node ∧ frm ∉ infos.map ImpactInfo.service_name then
      let path' := path ++ [frm]
      let info : ImpactInfo :=
        ⟨frm, m.required, path', "Impact path: " ++ joinSep " -> " path'⟩
      let step := visitD frm path' vis (infos ++ [info])
      impactDetEdges visitD frm node path rest step.1 step.2
    else impactDetEdges visitD frm node path rest vis infos

/-- Modelled from the spec: outer adjacency scan of `analyze_impact_details`. -/
def impactDetAll
    (visitD : String → List String → List String → List ImpactInfo →
      List String × List ImpactInfo)
    (node : String) (path : List String) :
    List (String × List (String × EdgeMetadata)) → List String → List ImpactInfo →
      List String × List ImpactInfo
  | [], vis, infos => (vis, infos)
  | (frm, edges) :: rest, vis, infos =>
    let step := impactDetEdges visitD frm node path edges vis infos
    impactDetAll visitD node path rest step.1 step.2

/-- Modelled from the spec: the recursive traversal behind
`analyze_impact_details`, a visited-set-guarded reverse DFS that records one
`ImpactInfo` per first-discovered service. -/
def dfsReverseDet (g : DependencyGraph) :
    Nat → String → List String → List String → List ImpactInfo →
      List String × List ImpactInfo
  | 0, _, _, vis, infos => (vis, infos)
  | fuel + 1, node, path, vis, infos =>
    if node ∈ vis then (vis, infos)
    else impactDetAll (dfsReverseDet g fuel) node path g.adjacency_list
      (node :: vis) infos

/-- Modelled from the spec: `analyze_impact_details` (§4.4 `detailedImpact`),
referenced from `registry/mod.rs` lines 368-379 but not part of the provided
`dependency.rs`. -/
def analyze_impact_details (g : DependencyGraph) (service_name : String) :
    List ImpactInfo :=
  (dfsReverseDet g (g.nodes.length + 2) service_name [service_name] [] []).2

/-- `get_detailed_impact` (lines 368-379): rejects unregistered targets. -/
def get_detailed_impact (services : RegistryServices) (service_name : String) :
    Except AureaCoreError (List ImpactInfo) :=
  if (assocFind service_name services).isSome then
    .ok (analyze_impact_details (buildDependencyGraphReg services) service_name)
  else
    .error (.ServiceNotFound service_name)

/-- `get_critical_impacts` (lines 382-393). -/
def get_critical_impacts (services : RegistryServices) (service_name : String) :
    Except AureaCoreError (List String) :=
  match get_detailed_impact services service_name with
  | .error e => .error e
  | .ok impacts =>
    .ok ((impacts.filter (fun impact => impact.is_required)).map
      (fun impact => impact.service_name))

/-- `HashMap::remove`: drop the entry with the given key. -/
def assocRemove {α : Type} (k : String) : List (String × α) → List (String × α)
  | [] => []
  | (k', v) :: rest => if k = k' then rest else (k', v) :: assocRemove k rest

/-- `delete_service` (lines 398-422), parameterised by the external config
store's `remove_config`; returns the result together with the service map
after the call. -/
def delete_service (removeConfig : String → Except AureaCoreError Unit)
    (services : RegistryServices) (name : String) (force : Bool) :
    Except AureaCoreError (List String) × RegistryServices :=
  match get_critical_impacts services name with
  | .error e => (.error e, services)
  | .ok critical_impacts =>
    if force = false ∧ critical_impacts ≠ [] then
      (.error (.ValidationError ("Cannot delete service '" ++ name ++
        "' because it is required by: " ++ joinSep ", " critical_impacts)), services)
    else
      match get_impacted_services services name with
      | .error e => (.error e, services)
      | .ok all_impacts =>
        if (assocFind name services).isSome then
          let services' := assocRemove name services
          match removeConfig name with
          | .error e => (.error e, services')
          | .ok _ => (.ok all_impacts, services')
        else
          (.error (.Config ("Service '" ++ name ++ "' not found")), services)

/-! ### Substring witness checker

Executable check that a character list occurs contiguously inside another;
used to state that an error message does (or does not) mention a name.
-/

/-- `startsWithCL hay pat`: `pat` is an initial segment of `hay`. -/
def startsWithCL : List Char → List Char → Bool
  | _, [] => true
  | [], _ :: _ => false
  | c :: cs, p :: ps => c = p && startsWithCL cs ps

/-- `hasSubCL hay pat`: `pat` occurs contiguously somewhere in `hay`. -/
def hasSubCL : List Char → List Char → Bool
  | [], pat => pat.isEmpty
  | c :: cs, pat => startsWithCL (c :: cs) pat || hasSubCL cs pat

/-! ### Concrete fixtures -/

/-- An acyclic chain `A → B → C → D`. -/
def gChain : DependencyGraph :=
  ⟨[("A", [("B", ⟨true, none⟩)]), ("B", [("C", ⟨true, none⟩)]),
    ("C", [("D", ⟨false, none⟩)]), ("D", [])]⟩

/-- A three-cycle `X → Y → Z → X`. -/
def gCycle3 : DependencyGraph :=
  ⟨[("X", [("Y", ⟨true, none⟩)]), ("Y", [("Z", ⟨true, none⟩)]),
    ("Z", [("X", ⟨true, none⟩)])]⟩

/-- A service `x` with one required dependency on the unregistered `m`. -/
def svcC6x : Service :=
  { name := "x"
    config := { config_path := "x.yaml", schema_version := "1.0.0",
                dependencies := some [⟨"m", none, true⟩] }
    status := ServiceStatus.new .Validating
    schema_data := some (.obj []) }

def regC6 : RegistryServices := [("x", svcC6x)]

/-- A service `x` with required dependencies on the unregistered `m1`, `m2`. -/
def svcC6cx : Service :=
  { name := "x"
    config := { config_path := "x.yaml", schema_version := "1.0.0",
                dependencies := some [⟨"m1", none, true⟩, ⟨"m2", none, true⟩] }
    status := ServiceStatus.new .Validating
    schema_data := some (.obj []) }

def regC6c : RegistryServices := [("x", svcC6cx)]

/-- A registered dependency target whose loaded schema reports version
`2.0.0`. -/
def svcC7t : Service :=
  { name := "t"
    config := { config_path := "t.yaml", schema_version := "1.0.0",
                dependencies := none }
    status := ServiceStatus.new .Active
    schema_data := some (.obj [("version", .str "2.0.0")]) }

/-- A service `y` depending optionally on `t` with constraint `1.0.0`. -/
def svcC7y : Service :=
  { name := "y"
    config := { config_path := "y.yaml", schema_version := "1.0.0",
                dependencies := some [⟨"t", some "1.0.0", false⟩] }
    status := ServiceStatus.new .Validating
    schema_data := some (.obj []) }

def regC7 : RegistryServices := [("y", svcC7y), ("t", svcC7t)]

/-- A service with no dependencies. -/
def svcC8a : Service :=
  { name := "a"
    config := { config_path := "a.yaml", schema_version := "1.0.0",
                dependencies := none }
    status := ServiceStatus.new .Active
    schema_data := none }

/-- A service `b` requiring `a`. -/
def svcC8b : Service :=
  { name := "b"
    config := { config_path := "b.yaml", schema_version := "1.0.0",
                dependencies := some [⟨"a", none, true⟩] }
    status := ServiceStatus.new .Active
    schema_data := none }

def regC8 : RegistryServices := [("a", svcC8a), ("b", svcC8b)]

/-- A service whose dependency list mixes an optional missing dependency (a
warning), then a required missing one (a hard error), then a further required
dependency. -/
def svcC10x : Service :=
  { name := "x"
    config := { config_path := "x.yaml", schema_version := "1.0.0",
                dependencies := some
                  [⟨"w", none, false⟩, ⟨"m", none, true⟩, ⟨"z", some "9.9.9", true⟩] }
    status := ServiceStatus.new .Validating
    schema_data := some (.obj []) }

def regC10 : RegistryServices := [("x", svcC10x)]

/-! ### Basic lemmas about the association-list operations -/

/-- The conclusion of the soundness lemmas: the reported path is an edge chain
ending in a repeated node. -/
def GoodPath (g : DependencyGraph) (p : List String) : Prop :=
  List.Chain' (Edge g) p ∧ ∃ pre x, p = pre ++ [x] ∧ x ∈ pre

/-- The black-node invariant of the cycle-detection DFS. -/
def BlackInv (g : DependencyGraph) (vis ps : List String) : Prop :=
  (∀ u, u ∈ vis → u ∉ ps → ∀ w, Edge g u w → w ∈ vis ∧ w ∉ ps) ∧
  (∀ u, u ∈ vis → u ∉ ps → ¬ Relation.TransGen (Edge g) u u)

/-- Well-formed graph: unique keys and every edge target registered as a node.
Graphs built from the empty graph through `add_node`/`add_edge` — in
particular every subgraph `get_subgraph` produces — are well-formed. -/
def WellFormed (g : DependencyGraph) : Prop :=
  g.nodes.Nodup ∧ ∀ a b, Edge g a b → b ∈ g.nodes

/-- Number of yet-unvisited graph keys; the DFS fuel budget. -/
def unvisitedCount (g : DependencyGraph) (vis : List String) : Nat :=
  (g.nodes.filter (fun k => decide (k ∉ vis))).length

/-- Post-condition of one extraction DFS call from `start`. -/
structure ExtractPost (g : DependencyGraph) (start : String)
    (sub : DependencyGraph) (vis : List String)
    (out : DependencyGraph × List String) : Prop where
  vis_mono : ∀ x ∈ vis, x ∈ out.2
  start_vis : start ∈ out.2
  vis_reach : ∀ x ∈ out.2, x ∈ vis ∨ Reaches g start x
  closure : ∀ x ∈ out.2, x ∉ vis → ∀ w, Edge g x w → Edge out.1 x w ∧ w ∈ out.2
  nodes_mono : ∀ x ∈ sub.nodes, x ∈ out.1.nodes
  nodes_sub : ∀ x ∈ out.1.nodes, x ∈ sub.nodes ∨ x ∈ out.2
  vis_nodes : ∀ x ∈ out.2, x ∉ vis → x ∈ out.1.nodes
  edges_sub : ∀ a b, Edge out.1 a b → Edge sub a b ∨ Edge g a b
  edge_mono : ∀ a b, Edge sub a b → Edge out.1 a b
  wf : WellFormed sub → WellFormed out.1

/-- Post-condition of the edge-scanning fold of the extraction DFS. -/
structure ExtractEdgesPost (g : DependencyGraph) (node : String)
    (es : List (String × EdgeMetadata)) (sub : DependencyGraph)
    (vis : List String) (out : DependencyGraph × List String) : Prop where
  vis_mono : ∀ x ∈ vis, x ∈ out.2
  targets : ∀ t m, (t, m) ∈ es → Edge out.1 node t ∧ t ∈ out.2
  vis_reach : ∀ x ∈ out.2, x ∈ vis ∨ ∃ t m, (t, m) ∈ es ∧ Reaches g t x
  closure : ∀ x ∈ out.2, x ∉ vis → ∀ w, Edge g x w → Edge out.1 x w ∧ w ∈ out.2
  nodes_mono : ∀ x ∈ sub.nodes, x ∈ out.1.nodes
  nodes_sub : ∀ x ∈ out.1.nodes, x ∈ sub.nodes ∨ x ∈ out.2
  vis_nodes : ∀ x ∈ out.2, x ∉ vis → x ∈ out.1.nodes
  edges_sub : ∀ a b, Edge out.1 a b → Edge sub a b ∨ Edge g a b
  edge_mono : ∀ a b, Edge sub a b → Edge out.1 a b
  wf : WellFormed sub → WellFormed out.1

/-- Invariant of the root fold of `get_subgraph`: after processing `processed`
roots, the visited set is exactly the set of nodes reachable from them, the
subgraph's node set equals the visited set, visited nodes have all their
`g`-edges copied, and the subgraph is well-formed with edges from `g` only. -/
structure SubgraphInv (g : DependencyGraph) (processed : List String)
    (st : DependencyGraph × List String) : Prop where
  vis_iff : ∀ x, x ∈ st.2 ↔ ∃ r ∈ processed, Reaches g r x
  nodes_iff : ∀ x, x ∈ st.1.nodes ↔ x ∈ st.2
  closure : ∀ x ∈ st.2, ∀ w, Edge g x w → Edge st.1 x w ∧ w ∈ st.2
  edges_sub : ∀ a b, Edge st.1 a b → Edge g a b
  wf : WellFormed st.1

/-- Number of parallel edges from `u` to `v`. -/
def edgeCnt (g : DependencyGraph) (u v : String) : Nat :=
  ((g.edgeList u).map Prod.fst).count v

/-- Total number of in-edges of `v`. -/
def totalIn (g : DependencyGraph) (v : String) : Nat :=
  (g.adjacency_list.map (fun e => (e.2.map Prod.fst).count v)).sum

/-- Number of in-edges of `v` whose source is in `s`. -/
def procIn (g : DependencyGraph) (s : List String) (v : String) : Nat :=
  (g.adjacency_list.map
    (fun e => if e.1 ∈ s then (e.2.map Prod.fst).count v else 0)).sum

/-- Full characterisation of `processEdges`: degrees drop by the edge
multiplicity, keys are unchanged, and the pushed nodes are exactly those whose
positive degree is consumed down to zero. -/
structure ProcessSpec (es : List (String × EdgeMetadata)) (D : DegMap)
    (out : DegMap × List String) : Prop where
  keys : out.1.map Prod.fst = D.map Prod.fst
  deg : ∀ v d, assocFind v D = some d →
    assocFind v out.1 = some (d - ((es.map Prod.fst).count v : Int))
  deg_none : ∀ v, assocFind v D = none → assocFind v out.1 = none
  push_nodup : out.2.Nodup
  push_iff : ∀ x, x ∈ out.2 ↔
    ∃ d, assocFind x D = some d ∧ 0 < d ∧ d ≤ ((es.map Prod.fst).count x : Int)

/-- Loop invariant of Kahn's algorithm. -/
structure KahnInv (g : DependencyGraph) (s q : List String) (D : DegMap) : Prop where
  keysD : D.map Prod.fst = g.nodes
  deg : ∀ v ∈ g.nodes, assocFind v D = some ((totalIn g v : Int) - (procIn g s v : Int))
  nodup : (s ++ q).Nodup
  subk : ∀ x ∈ s ++ q, x ∈ g.nodes
  qzero : ∀ v ∈ q, assocFind v D = some 0
  before : ∀ u v, v ∈ s → 0 < edgeCnt g u v → u ∈ s ∧ s.indexOf u < s.indexOf v

/-- Post-condition of one reverse DFS call (`dfs_reverse_deps`). -/
structure ImpactPost (g : DependencyGraph) (start : String)
    (vis imp : List String) (out : List String × List String) : Prop where
  vis_mono : ∀ x ∈ vis, x ∈ out.1
  imp_mono : ∀ x ∈ imp, x ∈ out.2
  start_vis : start ∈ out.1
  tg : ∀ x ∈ out.2, x ∉ imp → Relation.TransGen (Edge g) x start
  closure : ∀ x ∈ out.1, x ∉ vis → ∀ u, Edge g u x → u ∈ out.2
  new_imp_vis : ∀ x ∈ out.2, x ∉ imp → x ∈ out.1
  nodup : imp.Nodup → out.2.Nodup

/-- Post-condition of the inner edge scan of the reverse DFS. -/
structure ImpactScanPost (g : DependencyGraph) (node : String)
    (hit : Prop) (frm : String) (vis imp : List String)
    (out : List String × List String) : Prop where
  vis_mono : ∀ x ∈ vis, x ∈ out.1
  imp_mono : ∀ x ∈ imp, x ∈ out.2
  hits : hit → frm ∈ out.2
  tg : ∀ x ∈ out.2, x ∉ imp → Relation.TransGen (Edge g) x node
  closure : ∀ x ∈ out.1, x ∉ vis → ∀ u, Edge g u x → u ∈ out.2
  new_imp_vis : ∀ x ∈ out.2, x ∉ imp → x ∈ out.1
  nodup : imp.Nodup → out.2.Nodup

theorem assocFind_mem {α : Type} {k : String} {v : α} :
    ∀ {l : List (String × α)}, assocFind k l = some v → (k, v) ∈ l := by
  intro l
  induction l with
  | nil => intro h; simp [assocFind] at h
  | cons p rest ih =>
    intro h
    obtain ⟨k', v'⟩ := p
    simp only [assocFind] at h
    by_cases hk : k = k'
    · simp [hk] at h; simp [hk, h]
    · simp [hk] at h; exact List.mem_cons_of_mem _ (ih h)

theorem assocFind_isSome_iff {α : Type} {k : String} :
    ∀ {l : List (String × α)}, (assocFind k l).isSome ↔ k ∈ l.map Prod.fst := by
  intro l
  induction l with
  | nil => simp [assocFind]
  | cons p rest ih =>
    obtain ⟨k', v'⟩ := p
    by_cases hk : k = k' <;> simp [assocFind, hk, ih]

theorem assocFind_eq_none {α : Type} {k : String} {l : List (String × α)}
    (h : k ∉ l.map Prod.fst) : assocFind k l = none := by
  cases hf : assocFind k l with
  | none => rfl
  | some v =>
    exact absurd (assocFind_isSome_iff.mp (by simp [hf])) h

theorem mem_nodes_of_assocFind {g : DependencyGraph} {n : String}
    {es : List (String × EdgeMetadata)}
    (h : assocFind n g.adjacency_list = some es) : n ∈ g.nodes := by
  exact assocFind_isSome_iff.mp (by simp [h])

theorem Edge.mem_nodes {g : DependencyGraph} {a b : String} (h : Edge g a b) :
    a ∈ g.nodes := by
  obtain ⟨m, hm⟩ := h
  unfold DependencyGraph.edgeList at hm
  cases hf : assocFind a g.adjacency_list with
  | none => rw [hf] at hm; simp at hm
  | some es => exact mem_nodes_of_assocFind hf

theorem edge_iff_of_assocFind {g : DependencyGraph} {a : String}
    {es : List (String × EdgeMetadata)}
    (h : assocFind a g.adjacency_list = some es) :
    ∀ b, Edge g a b ↔ ∃ m, (b, m) ∈ es := by
  intro b
  unfold Edge DependencyGraph.edgeList
  rw [h]
  simp

theorem edge_of_none {g : DependencyGraph} {a : String}
    (h : assocFind a g.adjacency_list = none) : ∀ b, ¬ Edge g a b := by
  intro b he
  obtain ⟨m, hm⟩ := he
  unfold DependencyGraph.edgeList at hm
  rw [h] at hm
  simp at hm

/-! ### Chain and transitive-closure helpers -/

theorem chain'_getLast_transGen {r : String → String → Prop} :
    ∀ (l : List String) (a b : String), l ≠ [] →
      List.Chain' r (a :: l) → l.getLast? = some b →
      Relation.TransGen r a b := by
  intro l
  induction l with
  | nil => intro a b h; simp at h
  | cons c rest ih =>
    intro a b _ hch hlast
    rw [List.chain'_cons] at hch
    cases hr : rest with
    | nil =>
      subst hr
      simp at hlast
      subst hlast
      exact Relation.TransGen.single hch.1
    | cons d rest' =>
      have hne : rest ≠ [] := by simp [hr]
      have hlast' : rest.getLast? = some b := by
        rw [hr] at hlast ⊢
        rwa [List.getLast?_cons_cons] at hlast
      exact Relation.TransGen.head hch.1 (ih c b hne hch.2 hlast')

theorem black_closed_reflTransGen {g : DependencyGraph} {B : String → Prop}
    (hcl : ∀ u, B u → ∀ w, Edge g u w → B w) :
    ∀ u w, Relation.ReflTransGen (Edge g) u w → B u → B w := by
  intro u w h
  induction h with
  | refl => exact fun h => h
  | tail _ hstep ih => exact fun hu => hcl _ (ih hu) _ hstep

/-! ### Cycle-detection DFS: soundness of a `true` return

When the DFS reports a cycle, the returned path is a real edge chain whose
last element occurs earlier in the path.
-/

theorem dfsEdgesAux_true
    (g : DependencyGraph)
    (visit : String → List String → List String → List String →
      Bool × List String × List String)
    (Hvisit : ∀ n vis path ps p v, visit n vis path ps = (true, p, v) →
      (∀ x, x ∈ ps ↔ x ∈ path) → List.Chain' (Edge g) path →
      (∀ hne : path ≠ [], Edge g (path.getLast hne) n) →
      GoodPath g p) :
    ∀ (es : List (String × EdgeMetadata)) (vis path ps : List String)
      (p v : List String),
      dfsEdgesAux visit es vis path ps = (true, p, v) →
      (∀ x, x ∈ ps ↔ x ∈ path) → List.Chain' (Edge g) path →
      (∀ (t : String) (m : EdgeMetadata), (t, m) ∈ es →
        ∀ hne : path ≠ [], Edge g (path.getLast hne) t) →
      GoodPath g p := by
  intro es
  induction es with
  | nil => intro vis path ps p v h; simp [dfsEdgesAux] at h
  | cons e rest ih =>
    intro vis path ps p v h hps hch hlink
    obtain ⟨tgt, m⟩ := e
    simp only [dfsEdgesAux] at h
    cases hv : visit tgt vis path ps with
    | mk found pv =>
      obtain ⟨p₁, v₁⟩ := pv
      rw [hv] at h
      cases found with
      | true =>
        simp at h
        obtain ⟨hp, _⟩ := h
        subst hp
        exact Hvisit tgt vis path ps p₁ v₁ hv hps hch
          (fun hne => hlink tgt m (by simp) hne)
      | false =>
        simp at h
        exact ih v₁ path ps p v h hps hch
          (fun t m' hm hne => hlink t m' (by simp [hm]) hne)

theorem dfsVisit_true (g : DependencyGraph) :
    ∀ (fuel : Nat) (node : String) (vis path ps : List String)
      (p v : List String),
      dfsVisit g fuel node vis path ps = (true, p, v) →
      (∀ x, x ∈ ps ↔ x ∈ path) → List.Chain' (Edge g) path →
      (∀ hne : path ≠ [], Edge g (path.getLast hne) node) →
      GoodPath g p := by
  intro fuel
  induction fuel with
  | zero => intro node vis path ps p v h; simp [dfsVisit] at h
  | succ f ih =>
    intro node vis path ps p v h hps hch hlink
    simp only [dfsVisit] at h
    by_cases hinps : node ∈ ps
    · simp [hinps] at h
      obtain ⟨hp, _⟩ := h
      subst hp
      have hinpath : node ∈ path := (hps node).mp hinps
      have hpathne : path ≠ [] := List.ne_nil_of_mem hinpath
      constructor
      · rw [List.chain'_append]
        refine ⟨hch, List.chain'_singleton _, ?_⟩
        intro x hx y hy
        rw [List.getLast?_eq_getLast path hpathne] at hx
        simp at hx hy
        subst hx; subst hy
        exact hlink hpathne
      · exact ⟨path, node, rfl, hinpath⟩
    · simp [hinps] at h
      by_cases hinvis : node ∈ vis
      · simp [hinvis] at h
      · simp [hinvis] at h
        cases hf : assocFind node g.adjacency_list with
        | none => rw [hf] at h; simp at h
        | some edges =>
          rw [hf] at h
          simp only [] at h
          cases hrec : dfsEdgesAux (dfsVisit g f) edges (node :: vis)
              (path ++ [node]) (node :: ps) with
          | mk found pv =>
            obtain ⟨p₁, v₁⟩ := pv
            rw [hrec] at h
            cases found with
            | false => simp at h
            | true =>
              simp at h
              obtain ⟨hp, _⟩ := h
              subst hp
              have hps' : ∀ x, x ∈ node :: ps ↔ x ∈ path ++ [node] := by
                intro x
                simp [hps x, or_comm]
              have hch' : List.Chain' (Edge g) (path ++ [node]) := by
                rw [List.chain'_append]
                refine ⟨hch, List.chain'_singleton _, ?_⟩
                intro x hx y hy
                have hpathne : path ≠ [] := by
                  intro hnil; rw [hnil] at hx; simp at hx
                rw [List.getLast?_eq_getLast path hpathne] at hx
                simp at hx hy
                subst hx; subst hy
                exact hlink hpathne
              refine dfsEdgesAux_true g (dfsVisit g f)
                (fun n vis₂ path₂ ps₂ p₂ v₂ hh a b c => ih n vis₂ path₂ ps₂ p₂ v₂ hh a b c)
                edges (node :: vis) (path ++ [node]) (node :: ps) p₁ v₁ hrec hps' hch' ?_
              intro t m hm hne
              rw [List.getLast_append]
              exact (edge_iff_of_assocFind hf t).mpr ⟨m, hm⟩

/-! ### Cycle-detection DFS: completeness of a `false` return

Invariant: a "black" node (visited and off the current path) only has black
edge-targets, and no black node lies on a cycle.  When the DFS finishes a node
without reporting a cycle, that node is black, so no cycle passes through it.
-/

theorem nodup_subset_length {l keys : List String} (hnd : l.Nodup)
    (hsub : ∀ x ∈ l, x ∈ keys) : l.length ≤ keys.length := by
  calc l.length = l.toFinset.card := (List.toFinset_card_of_nodup hnd).symm
    _ ≤ keys.toFinset.card := by
        apply Finset.card_le_card
        intro x hx
        simp only [List.mem_toFinset] at hx ⊢
        exact hsub x hx
    _ ≤ keys.length := List.toFinset_card_le keys

theorem dfsEdgesAux_false
    (g : DependencyGraph)
    (visit : String → List String → List String → List String →
      Bool × List String × List String)
    (path ps : List String)
    (Hvisit : ∀ n vis p v, visit n vis path ps = (false, p, v) →
      BlackInv g vis ps → (∀ x ∈ vis, x ∈ v) ∧ n ∈ v ∧ n ∉ ps ∧ BlackInv g v ps) :
    ∀ (es : List (String × EdgeMetadata)) (vis : List String)
      (p v : List String),
      dfsEdgesAux visit es vis path ps = (false, p, v) →
      BlackInv g vis ps →
      (∀ x ∈ vis, x ∈ v) ∧ BlackInv g v ps ∧
        ∀ (t : String) (m : EdgeMetadata), (t, m) ∈ es → t ∈ v ∧ t ∉ ps := by
  intro es
  induction es with
  | nil =>
    intro vis p v h hbi
    simp only [dfsEdgesAux, Prod.mk.injEq] at h
    obtain ⟨-, -, hv⟩ := h
    subst hv
    exact ⟨fun x hx => hx, hbi, by simp⟩
  | cons e rest ih =>
    intro vis p v h hbi
    obtain ⟨tgt, m⟩ := e
    simp only [dfsEdgesAux] at h
    cases hv : visit tgt vis path ps with
    | mk found pv =>
      obtain ⟨p₁, v₁⟩ := pv
      rw [hv] at h
      cases found with
      | true => simp at h
      | false =>
        simp only [] at h
        obtain ⟨hsub₁, htgt₁, htgtps, hbi₁⟩ := Hvisit tgt vis p₁ v₁ hv hbi
        obtain ⟨hsub₂, hbi₂, hrest⟩ := ih v₁ p v h hbi₁
        refine ⟨fun x hx => hsub₂ x (hsub₁ x hx), hbi₂, ?_⟩
        intro t m' hm
        rcases List.mem_cons.mp hm with heq | hmem
        · obtain ⟨h1, h2⟩ := Prod.mk.injEq .. ▸ heq
          cases heq
          exact ⟨hsub₂ tgt htgt₁, htgtps⟩
        · exact hrest t m' hmem

theorem dfsVisit_false (g : DependencyGraph) :
    ∀ (fuel : Nat) (node : String) (vis path ps : List String)
      (p v : List String),
      dfsVisit g fuel node vis path ps = (false, p, v) →
      ps.Nodup → (∀ x ∈ ps, x ∈ g.nodes) →
      g.nodes.length - ps.length < fuel →
      BlackInv g vis ps →
      (∀ x ∈ vis, x ∈ v) ∧ node ∈ v ∧ node ∉ ps ∧ BlackInv g v ps := by
  intro fuel
  induction fuel with
  | zero =>
    intro node vis path ps p v _ _ _ hbud
    exact absurd hbud (Nat.not_lt_zero _)
  | succ f ih =>
    intro node vis path ps p v h hnd hsubn hbud hbi
    simp only [dfsVisit] at h
    by_cases hinps : node ∈ ps
    · simp [hinps] at h
    · simp only [hinps, if_false] at h
      by_cases hinvis : node ∈ vis
      · simp only [hinvis, if_true, Prod.mk.injEq] at h
        obtain ⟨-, -, hv⟩ := h
        subst hv
        exact ⟨fun x hx => hx, hinvis, hinps, hbi⟩
      · simp only [hinvis, if_false] at h
        cases hf : assocFind node g.adjacency_list with
        | none =>
          rw [hf] at h
          simp only [Prod.mk.injEq] at h
          obtain ⟨-, -, hv⟩ := h
          subst hv
          refine ⟨fun x hx => by simp [hx], by simp, hinps, ?_, ?_⟩
          · intro u hu hups w hew
            rcases List.mem_cons.mp hu with heq | hmem
            · subst heq
              exact absurd hew (edge_of_none hf w)
            · obtain ⟨hw1, hw2⟩ := hbi.1 u hmem hups w hew
              exact ⟨by simp [hw1], hw2⟩
          · intro u hu hups htg
            rcases List.mem_cons.mp hu with heq | hmem
            · subst heq
              obtain ⟨c, hstep, -⟩ := Relation.TransGen.head'_iff.mp htg
              exact edge_of_none hf _ hstep
            · exact hbi.2 u hmem hups htg
        | some edges =>
          rw [hf] at h
          simp only [] at h
          have hnodemem : node ∈ g.nodes := mem_nodes_of_assocFind hf
          cases hrec : dfsEdgesAux (dfsVisit g f) edges (node :: vis)
              (path ++ [node]) (node :: ps) with
          | mk found pv =>
            obtain ⟨p₁, v₁⟩ := pv
            rw [hrec] at h
            cases found with
            | true => simp at h
            | false =>
              simp only [Prod.mk.injEq] at h
              obtain ⟨-, -, hv⟩ := h
              subst hv
              -- invariants for the extended path set
              have hnd' : (node :: ps).Nodup := by
                simp [List.nodup_cons, hinps, hnd]
              have hsubn' : ∀ x ∈ node :: ps, x ∈ g.nodes := by
                intro x hx
                rcases List.mem_cons.mp hx with heq | hmem
                · subst heq; exact hnodemem
                · exact hsubn x hmem
              have hlen : ps.length + 1 ≤ g.nodes.length := by
                have := nodup_subset_length hnd' hsubn'
                simpa using this
              have hbud' : g.nodes.length - (node :: ps).length < f := by
                simp only [List.length_cons]
                omega
              have hbi' : BlackInv g (node :: vis) (node :: ps) := by
                constructor
                · intro u hu hups w hew
                  have hune : u ≠ node := fun heq => hups (heq ▸ List.mem_cons_self _ _)
                  have humem : u ∈ vis := by
                    rcases List.mem_cons.mp hu with heq | hm
                    · exact absurd heq hune
                    · exact hm
                  have hups' : u ∉ ps := fun hm => hups (List.mem_cons_of_mem _ hm)
                  obtain ⟨hw1, hw2⟩ := hbi.1 u humem hups' w hew
                  have hwne : w ≠ node := fun heq => hinvis (heq ▸ hw1)
                  refine ⟨List.mem_cons_of_mem _ hw1, ?_⟩
                  intro hm
                  rcases List.mem_cons.mp hm with heq | hmm
                  · exact hwne heq
                  · exact hw2 hmm
                · intro u hu hups htg
                  have hune : u ≠ node := fun heq => hups (heq ▸ List.mem_cons_self _ _)
                  have humem : u ∈ vis := by
                    rcases List.mem_cons.mp hu with heq | hm
                    · exact absurd heq hune
                    · exact hm
                  have hups' : u ∉ ps := fun hm => hups (List.mem_cons_of_mem _ hm)
                  exact hbi.2 u humem hups' htg
              have Hvisit : ∀ n vis₂ p₂ v₂,
                  dfsVisit g f n vis₂ (path ++ [node]) (node :: ps) = (false, p₂, v₂) →
                  BlackInv g vis₂ (node :: ps) →
                  (∀ x ∈ vis₂, x ∈ v₂) ∧ n ∈ v₂ ∧ n ∉ node :: ps ∧
                    BlackInv g v₂ (node :: ps) :=
                fun n vis₂ p₂ v₂ hh hbi₂ =>
                  ih n vis₂ (path ++ [node]) (node :: ps) p₂ v₂ hh hnd' hsubn' hbud' hbi₂
              obtain ⟨hsub₁, hbi₁, htgts⟩ :=
                dfsEdgesAux_false g (dfsVisit g f) (path ++ [node]) (node :: ps)
                  Hvisit edges (node :: vis) p₁ v₁ hrec hbi'
              have hnodev : node ∈ v₁ := hsub₁ node (List.mem_cons_self _ _)
              -- the edge-targets of `node` are black for the popped state
              have hstep_black : ∀ w, Edge g node w → w ∈ v₁ ∧ w ∉ node :: ps := by
                intro w hew
                obtain ⟨m, hm⟩ := (edge_iff_of_assocFind hf w).mp hew
                exact htgts w m hm
              -- blacks (for `node :: ps`) are closed under reachability
              have hreach : ∀ a b, Relation.ReflTransGen (Edge g) a b →
                  a ∈ v₁ ∧ a ∉ node :: ps → b ∈ v₁ ∧ b ∉ node :: ps :=
                fun a b hab hb => black_closed_reflTransGen
                  (B := fun x => x ∈ v₁ ∧ x ∉ node :: ps)
                  (fun u hu w hw => hbi₁.1 u hu.1 hu.2 w hw) a b hab hb
              have hnocyc : ¬ Relation.TransGen (Edge g) node node := by
                intro htg
                obtain ⟨c, hstep, hrtg⟩ := Relation.TransGen.head'_iff.mp htg
                have hcb := hstep_black c hstep
                have := hreach c node hrtg hcb
                exact this.2 (List.mem_cons_self _ _)
              refine ⟨fun x hx => hsub₁ x (List.mem_cons_of_mem _ hx), hnodev, hinps,
                ?_, ?_⟩
              · intro u hu hups w hew
                by_cases hun : u = node
                · subst hun
                  obtain ⟨hw1, hw2⟩ := hstep_black w hew
                  exact ⟨hw1, fun hm => hw2 (List.mem_cons_of_mem _ hm)⟩
                · have hups' : u ∉ node :: ps := by
                    intro hm
                    rcases List.mem_cons.mp hm with heq | hmm
                    · exact hun heq
                    · exact hups hmm
                  obtain ⟨hw1, hw2⟩ := hbi₁.1 u hu hups' w hew
                  exact ⟨hw1, fun hm => hw2 (List.mem_cons_of_mem _ hm)⟩
              · intro u hu hups htg
                by_cases hun : u = node
                · subst hun; exact hnocyc htg
                · have hups' : u ∉ node :: ps := by
                    intro hm
                    rcases List.mem_cons.mp hm with heq | hmm
                    · exact hun heq
                    · exact hups hmm
                  exact hbi₁.2 u hu hups' htg

/-! ### Correctness of `detect_cycles` -/

theorem detectLoop_some {g : DependencyGraph} :
    ∀ {l : List String} {p : List String}, detectLoop g l = some p →
      ∃ k v, dfsVisit g (g.nodes.length + 1) k [] [] [] = (true, p, v) := by
  intro l
  induction l with
  | nil => intro p h; simp [detectLoop] at h
  | cons k rest ih =>
    intro p h
    simp only [detectLoop] at h
    cases hk : dfsVisit g (g.nodes.length + 1) k [] [] [] with
    | mk found pv =>
      obtain ⟨p₁, v₁⟩ := pv
      rw [hk] at h
      cases found with
      | true =>
        simp at h
        subst h
        exact ⟨k, v₁, hk⟩
      | false => exact ih h

theorem detectLoop_none {g : DependencyGraph} :
    ∀ {l : List String}, detectLoop g l = none →
      ∀ k ∈ l, ∃ p v, dfsVisit g (g.nodes.length + 1) k [] [] [] = (false, p, v) := by
  intro l
  induction l with
  | nil => intro _ k hk; simp at hk
  | cons k' rest ih =>
    intro h k hk
    simp only [detectLoop] at h
    cases hk' : dfsVisit g (g.nodes.length + 1) k' [] [] [] with
    | mk found pv =>
      obtain ⟨p₁, v₁⟩ := pv
      rw [hk'] at h
      cases found with
      | true => simp at h
      | false =>
        rcases List.mem_cons.mp hk with heq | hmem
        · subst heq; exact ⟨p₁, v₁, hk'⟩
        · exact ih h k hmem

theorem goodPath_hasCycle {g : DependencyGraph} {p : List String}
    (hgp : GoodPath g p) : hasCycle g := by
  obtain ⟨hch, pre, x, hp, hx⟩ := hgp
  obtain ⟨l1, l2, hpre⟩ := List.append_of_mem hx
  subst hp; subst hpre
  have hsuf : (x :: (l2 ++ [x])) <:+ (l1 ++ x :: l2) ++ [x] := by
    refine ⟨l1, ?_⟩
    simp
  have hch' : List.Chain' (Edge g) (x :: (l2 ++ [x])) := hch.suffix hsuf
  refine ⟨x, chain'_getLast_transGen (l2 ++ [x]) x x (by simp) hch' ?_⟩
  exact List.getLast?_concat _

/-- If the DFS from some start reports a cycle, the graph has one. -/
theorem detect_cycles_some_hasCycle {g : DependencyGraph} {info : CycleInfo}
    (h : detect_cycles g = some info) : hasCycle g := by
  unfold detect_cycles at h
  cases hdl : detectLoop g g.nodes with
  | none => rw [hdl] at h; simp at h
  | some p =>
    rw [hdl] at h
    obtain ⟨k, v, hk⟩ := detectLoop_some hdl
    have hgp : GoodPath g p :=
      dfsVisit_true g _ k [] [] [] p v hk (by simp) (by simp) (by simp)
    exact goodPath_hasCycle hgp

/-- If the graph has a cycle, `detect_cycles` reports one. -/
theorem hasCycle_detect_cycles_isSome {g : DependencyGraph}
    (h : hasCycle g) : (detect_cycles g).isSome := by
  obtain ⟨vtx, htg⟩ := h
  obtain ⟨w, hstep, -⟩ := Relation.TransGen.head'_iff.mp htg
  have hvmem : vtx ∈ g.nodes := Edge.mem_nodes hstep
  cases hd : detect_cycles g with
  | some info => simp
  | none =>
    exfalso
    have hdl : detectLoop g g.nodes = none := by
      unfold detect_cycles at hd
      cases hdl : detectLoop g g.nodes with
      | none => rfl
      | some p => rw [hdl] at hd; simp at hd
    obtain ⟨p, v, hfalse⟩ := detectLoop_none hdl vtx hvmem
    have hres := dfsVisit_false g _ vtx [] [] [] p v hfalse
      List.nodup_nil (by simp) (by simp) ⟨by simp, by simp⟩
    exact hres.2.2.2.2 vtx hres.2.1 (by simp) htg

/-- `detect_cycles` finds a cycle exactly when one exists. -/
theorem detect_cycles_isSome_iff (g : DependencyGraph) :
    (detect_cycles g).isSome ↔ hasCycle g := by
  constructor
  · intro h
    cases hd : detect_cycles g with
    | none => rw [hd] at h; simp at h
    | some info => exact detect_cycles_some_hasCycle hd
  · exact hasCycle_detect_cycles_isSome

theorem detect_cycles_eq_none_iff (g : DependencyGraph) :
    detect_cycles g = none ↔ ¬ hasCycle g := by
  rw [← detect_cycles_isSome_iff]
  cases detect_cycles g <;> simp

/-- The reported cycle path starts and ends with the same node. -/
theorem detect_cycles_path_closed {g : DependencyGraph} {info : CycleInfo}
    (h : detect_cycles g = some info) :
    info.cycle_path ≠ [] ∧ info.cycle_path.head? = info.cycle_path.getLast? := by
  unfold detect_cycles at h
  cases hdl : detectLoop g g.nodes with
  | none => rw [hdl] at h; simp at h
  | some p =>
    rw [hdl] at h
    simp only [Option.some.injEq] at h
    obtain ⟨k, v, hk⟩ := detectLoop_some hdl
    have hgp : GoodPath g p :=
      dfsVisit_true g _ k [] [] [] p v hk (by simp) (by simp) (by simp)
    obtain ⟨-, pre, x, hp, hx⟩ := hgp
    have hlast : p.getLast? = some x := by rw [hp]; exact List.getLast?_concat _
    have hlastN : p.getLast?.getD "" = x := by rw [hlast]; rfl
    have hxp : x ∈ p := by rw [hp]; simp
    have hidx : p.indexOf x = pre.indexOf x := by
      rw [hp]; exact List.indexOf_append_of_mem hx
    have hidxlt : pre.indexOf x < pre.length := List.indexOf_lt_length.mpr hx
    have hidxp : p.indexOf x < p.length := List.indexOf_lt_length.mpr hxp
    have hhead : (p.drop (p.indexOf x)).head? = some x := by
      rw [List.head?_drop, List.getElem?_eq_getElem hidxp, List.getElem_indexOf hidxp]
    have hdropeq : p.drop (p.indexOf x) = pre.drop (pre.indexOf x) ++ [x] := by
      rw [hidx, hp]
      exact List.drop_append_of_le_length (Nat.le_of_lt hidxlt)
    have hlastcyc : (p.drop (p.indexOf x)).getLast? = some x := by
      rw [hdropeq]; exact List.getLast?_concat _
    have hne : p.drop (p.indexOf x) ≠ [] := by
      intro hnil
      rw [hnil] at hhead
      simp at hhead
    rw [← h]
    simp only [hlastN]
    exact ⟨hne, by rw [hhead, hlastcyc]⟩

/-! ### Lemmas about `add_node` / `add_edge` -/

theorem assocFind_append {α : Type} (k : String) (l₁ l₂ : List (String × α)) :
    assocFind k (l₁ ++ l₂) =
      match assocFind k l₁ with
      | some v => some v
      | none => assocFind k l₂ := by
  induction l₁ with
  | nil => simp [assocFind]
  | cons p rest ih =>
    obtain ⟨k', v⟩ := p
    by_cases hk : k = k' <;> simp [assocFind, hk, ih]

theorem assocFind_modify_self {α : Type} (k : String) (f : α → α) :
    ∀ l : List (String × α), assocFind k (assocModify k f l) = (assocFind k l).map f := by
  intro l
  induction l with
  | nil => simp [assocFind, assocModify]
  | cons p rest ih =>
    obtain ⟨k', v⟩ := p
    by_cases hk : k = k' <;> simp [assocFind, assocModify, hk, ih]

theorem assocFind_modify_ne {α : Type} {k k' : String} (hne : k ≠ k') (f : α → α) :
    ∀ l : List (String × α), assocFind k (assocModify k' f l) = assocFind k l := by
  intro l
  induction l with
  | nil => simp [assocModify]
  | cons p rest ih =>
    obtain ⟨k'', v⟩ := p
    by_cases hk1 : k' = k''
    · subst hk1
      simp [assocModify, assocFind, hne]
    · by_cases hk2 : k = k'' <;> simp [assocModify, assocFind, hk1, hk2, ih]

theorem assocModify_map_fst {α : Type} (k : String) (f : α → α) :
    ∀ l : List (String × α), (assocModify k f l).map Prod.fst = l.map Prod.fst := by
  intro l
  induction l with
  | nil => simp [assocModify]
  | cons p rest ih =>
    obtain ⟨k', v⟩ := p
    by_cases hk : k = k' <;> simp [assocModify, hk, ih]

namespace DependencyGraph

theorem mem_add_node_nodes {g : DependencyGraph} {n x : String} :
    x ∈ (g.add_node n).nodes ↔ x ∈ g.nodes ∨ x = n := by
  unfold add_node
  by_cases hn : n ∈ g.nodes
  · simp only [hn, if_true]
    constructor
    · exact fun h => Or.inl h
    · rintro (h | rfl)
      · exact h
      · exact hn
  · simp only [hn, if_false]
    show x ∈ (g.adjacency_list ++ [(n, [])]).map Prod.fst ↔ _
    simp [nodes]

theorem add_node_nodup {g : DependencyGraph} {n : String} (h : g.nodes.Nodup) :
    (g.add_node n).nodes.Nodup := by
  unfold add_node
  by_cases hn : n ∈ g.nodes
  · simpa [hn]
  · simp only [hn, if_false]
    show ((g.adjacency_list ++ [(n, [])]).map Prod.fst).Nodup
    rw [List.map_append]
    simp only [List.map_cons, List.map_nil]
    rw [List.nodup_append]
    exact ⟨h, List.nodup_singleton _, by simpa [nodes] using hn⟩

theorem edgeList_add_node {g : DependencyGraph} {n : String} (a : String) :
    (g.add_node n).edgeList a = g.edgeList a := by
  unfold add_node
  by_cases hn : n ∈ g.nodes
  · simp [hn]
  · simp only [hn, if_false]
    show ((assocFind a (g.adjacency_list ++ [(n, [])])).getD []) = _
    rw [assocFind_append]
    cases hf : assocFind a g.adjacency_list with
    | some es => simp [edgeList, hf]
    | none =>
      simp only []
      by_cases han : a = n
      · subst han
        simp [edgeList, hf, assocFind]
      · simp [edgeList, hf, assocFind, han]

theorem edge_add_node {g : DependencyGraph} {n : String} {a b : String} :
    Edge (g.add_node n) a b ↔ Edge g a b := by
  unfold Edge
  rw [edgeList_add_node]

theorem edge_add_edge_self {g : DependencyGraph} {f t : String} {m : EdgeMetadata} :
    Edge (g.add_edge f t m) f t := by
  unfold add_edge
  have hmem : f ∈ ((g.add_node f).add_node t).nodes := by
    rw [mem_add_node_nodes, mem_add_node_nodes]
    tauto
  have hsome : (assocFind f ((g.add_node f).add_node t).adjacency_list).isSome := by
    rw [assocFind_isSome_iff]
    exact hmem
  cases hf : assocFind f ((g.add_node f).add_node t).adjacency_list with
  | none => rw [hf] at hsome; simp at hsome
  | some es =>
    refine ⟨m, ?_⟩
    show (t, m) ∈ (assocFind f (assocModify f _ _)).getD []
    rw [assocFind_modify_self, hf]
    simp

theorem edge_add_edge_mono {g : DependencyGraph} {f t : String} {m : EdgeMetadata}
    {a b : String} (h : Edge g a b) : Edge (g.add_edge f t m) a b := by
  unfold add_edge
  have h' : Edge ((g.add_node f).add_node t) a b := by
    rw [edge_add_node, edge_add_node]; exact h
  by_cases haf : a = f
  · subst haf
    obtain ⟨m', hm'⟩ := h'
    refine ⟨m', ?_⟩
    show (b, m') ∈ (assocFind a (assocModify a _ _)).getD []
    rw [assocFind_modify_self]
    unfold edgeList at hm'
    cases hf : assocFind a ((g.add_node a).add_node t).adjacency_list with
    | none => rw [hf] at hm'; simp at hm'
    | some es =>
      rw [hf] at hm'
      simp only [Option.getD_some] at hm'
      simp [hm']
  · obtain ⟨m', hm'⟩ := h'
    refine ⟨m', ?_⟩
    show (b, m') ∈ (assocFind a (assocModify f _ _)).getD []
    rw [assocFind_modify_ne haf]
    exact hm'

theorem edge_add_edge_inv {g : DependencyGraph} {f t : String} {m : EdgeMetadata}
    {a b : String} (h : Edge (g.add_edge f t m) a b) :
    Edge g a b ∨ (a = f ∧ b = t) := by
  unfold add_edge at h
  by_cases haf : a = f
  · subst haf
    obtain ⟨m', hm'⟩ := h
    have := hm'
    unfold edgeList at this
    rw [assocFind_modify_self] at this
    cases hf : assocFind a ((g.add_node a).add_node t).adjacency_list with
    | none => rw [hf] at this; simp at this
    | some es =>
      rw [hf] at this
      simp only [Option.map_some', Option.getD_some, List.mem_append,
        List.mem_singleton] at this
      rcases this with hmem | heq
      · left
        have : Edge ((g.add_node a).add_node t) a b := by
          refine ⟨m', ?_⟩
          unfold edgeList
          rw [hf]
          simpa using hmem
        rwa [edge_add_node, edge_add_node] at this
      · right
        exact ⟨rfl, (Prod.mk.injEq .. ▸ heq).1⟩
  · obtain ⟨m', hm'⟩ := h
    left
    have : Edge ((g.add_node f).add_node t) a b := by
      refine ⟨m', ?_⟩
      unfold edgeList at hm' ⊢
      rwa [assocFind_modify_ne haf] at hm'
    rwa [edge_add_node, edge_add_node] at this

theorem mem_add_edge_nodes {g : DependencyGraph} {f t : String} {m : EdgeMetadata}
    {x : String} :
    x ∈ (g.add_edge f t m).nodes ↔ x ∈ g.nodes ∨ x = f ∨ x = t := by
  unfold add_edge
  show x ∈ (assocModify f _ ((g.add_node f).add_node t).adjacency_list).map Prod.fst ↔ _
  rw [assocModify_map_fst]
  have hn : (((g.add_node f).add_node t).adjacency_list).map Prod.fst =
      ((g.add_node f).add_node t).nodes := rfl
  rw [hn, mem_add_node_nodes, mem_add_node_nodes]
  tauto

theorem add_edge_nodup {g : DependencyGraph} {f t : String} {m : EdgeMetadata}
    (h : g.nodes.Nodup) : (g.add_edge f t m).nodes.Nodup := by
  unfold add_edge
  show ((assocModify f _ ((g.add_node f).add_node t).adjacency_list).map Prod.fst).Nodup
  rw [assocModify_map_fst]
  exact add_node_nodup (add_node_nodup h)

end DependencyGraph

theorem wellFormed_empty : WellFormed ⟨[]⟩ := by
  constructor
  · simp [DependencyGraph.nodes]
  · intro a b h
    obtain ⟨m, hm⟩ := h
    simp [DependencyGraph.edgeList, assocFind] at hm

theorem WellFormed.add_node {g : DependencyGraph} (h : WellFormed g) (n : String) :
    WellFormed (g.add_node n) := by
  refine ⟨DependencyGraph.add_node_nodup h.1, ?_⟩
  intro a b he
  rw [DependencyGraph.edge_add_node] at he
  rw [DependencyGraph.mem_add_node_nodes]
  exact Or.inl (h.2 a b he)

theorem WellFormed.add_edge {g : DependencyGraph} (h : WellFormed g)
    (f t : String) (m : EdgeMetadata) : WellFormed (g.add_edge f t m) := by
  refine ⟨DependencyGraph.add_edge_nodup h.1, ?_⟩
  intro a b he
  rcases DependencyGraph.edge_add_edge_inv he with he' | ⟨-, rfl⟩
  · rw [DependencyGraph.mem_add_edge_nodes]
    exact Or.inl (h.2 a b he')
  · rw [DependencyGraph.mem_add_edge_nodes]
    tauto

/-! ### Correctness of `get_subgraph`

Post-conditions of the extraction DFS: the visited set grows exactly by the
nodes reachable from the start, every newly visited node has all its
`g`-edges copied into the subgraph, and the subgraph stays well-formed with
edges drawn only from `g`.
-/

theorem filter_not_mem_mono (l : List String) {vis vis' : List String}
    (h : ∀ x ∈ vis, x ∈ vis') :
    (l.filter (fun k => decide (k ∉ vis'))).length ≤
      (l.filter (fun k => decide (k ∉ vis))).length := by
  induction l with
  | nil => simp
  | cons a rest ih =>
    by_cases ha' : a ∈ vis'
    · by_cases hav : a ∈ vis
      · simpa [List.filter_cons, ha', hav] using ih
      · simpa [List.filter_cons, ha', hav] using Nat.le_succ_of_le ih
    · have hav : a ∉ vis := fun hm => ha' (h a hm)
      simpa [List.filter_cons, ha', hav] using Nat.succ_le_succ ih

theorem unvisitedCount_mono {g : DependencyGraph} {vis vis' : List String}
    (h : ∀ x ∈ vis, x ∈ vis') : unvisitedCount g vis' ≤ unvisitedCount g vis :=
  filter_not_mem_mono g.nodes h

theorem filter_not_mem_lt (l : List String) {vis : List String} {node : String}
    (hmem : node ∈ l) (hnv : node ∉ vis) :
    (l.filter (fun k => decide (k ∉ (node :: vis)))).length <
      (l.filter (fun k => decide (k ∉ vis))).length := by
  induction l with
  | nil => simp at hmem
  | cons a rest ih =>
    by_cases han : a = node
    · subst han
      have hle : (rest.filter (fun k => decide (k ∉ (a :: vis)))).length ≤
          (rest.filter (fun k => decide (k ∉ vis))).length :=
        filter_not_mem_mono rest (fun x hx => List.mem_cons_of_mem _ hx)
      simpa [List.filter_cons, hnv] using Nat.lt_succ_of_le hle
    · have hrest : node ∈ rest := by
        rcases List.mem_cons.mp hmem with heq | hm
        · exact absurd heq.symm han
        · exact hm
      by_cases hav : a ∈ vis
      · simpa [List.filter_cons, hav] using ih hrest
      · simpa [List.filter_cons, hav, han] using Nat.succ_lt_succ (ih hrest)

theorem unvisitedCount_lt {g : DependencyGraph} {vis : List String} {node : String}
    (hmem : node ∈ g.nodes) (hnv : node ∉ vis) :
    unvisitedCount g (node :: vis) < unvisitedCount g vis :=
  filter_not_mem_lt g.nodes hmem hnv

theorem extractEdgesAux_post (g : DependencyGraph)
    (visit : String → DependencyGraph → List String → DependencyGraph × List String)
    (node : String) (vis₀ : List String)
    (Hvisit : ∀ n sub vis, (∀ x ∈ vis₀, x ∈ vis) →
      ExtractPost g n sub vis (visit n sub vis)) :
    ∀ (es : List (String × EdgeMetadata)) (sub : DependencyGraph)
      (vis : List String),
      (∀ x ∈ vis₀, x ∈ vis) →
      node ∈ vis → (∀ p ∈ es, p ∈ g.edgeList node) →
      ExtractEdgesPost g node es sub vis (extractEdgesAux visit node es sub vis) := by
  intro es
  induction es with
  | nil =>
    intro sub vis hbase hnode hes
    refine ⟨fun x hx => hx, by simp, fun x hx => Or.inl hx,
      fun x hx hnx => absurd hx hnx, fun x hx => hx, fun x hx => Or.inl hx,
      fun x hx hnx => absurd hx hnx, fun a b hab => Or.inl hab, fun a b hab => hab,
      fun h => h⟩
  | cons e rest ih =>
    intro sub vis hbase hnode hes
    obtain ⟨t, m⟩ := e
    simp only [extractEdgesAux]
    set sub₁ := sub.add_edge node t m with hsub₁
    have hchild := Hvisit t sub₁ vis hbase
    set out₁ := visit t sub₁ vis with hout₁
    have hrest := ih out₁.1 out₁.2
      (fun x hx => hchild.vis_mono x (hbase x hx))
      (hchild.vis_mono node hnode)
      (fun p hp => hes p (List.mem_cons_of_mem _ hp))
    set out₂ := extractEdgesAux visit node rest out₁.1 out₁.2 with hout₂
    have hedge_gt : Edge g node t := by
      refine ⟨m, hes (t, m) (by simp)⟩
    have hedge₁ : Edge sub₁ node t := DependencyGraph.edge_add_edge_self
    refine ⟨?_, ?_, ?_, ?_, ?_, ?_, ?_, ?_, ?_, ?_⟩
    · exact fun x hx => hrest.vis_mono x (hchild.vis_mono x hx)
    · intro t' m' hm
      rcases List.mem_cons.mp hm with heq | hmem
      · obtain ⟨h1, h2⟩ := Prod.mk.injEq .. ▸ heq
        subst h1
        refine ⟨hrest.edge_mono _ _ (hchild.edge_mono _ _ hedge₁), ?_⟩
        exact hrest.vis_mono _ hchild.start_vis
      · exact hrest.targets t' m' hmem
    · intro x hx
      rcases hrest.vis_reach x hx with hx₁ | ⟨t', m', hm', hr⟩
      · rcases hchild.vis_reach x hx₁ with hx₀ | hr
        · exact Or.inl hx₀
        · exact Or.inr ⟨t, m, by simp, hr⟩
      · exact Or.inr ⟨t', m', List.mem_cons_of_mem _ hm', hr⟩
    · intro x hx hnx w hew
      by_cases hx₁ : x ∈ out₁.2
      · obtain ⟨he, hw⟩ := hchild.closure x hx₁ hnx w hew
        exact ⟨hrest.edge_mono _ _ he, hrest.vis_mono _ hw⟩
      · exact hrest.closure x hx hx₁ w hew
    · intro x hx
      refine hrest.nodes_mono x (hchild.nodes_mono x ?_)
      rw [DependencyGraph.mem_add_edge_nodes]
      exact Or.inl hx
    · intro x hx
      rcases hrest.nodes_sub x hx with hx₂ | hx₂
      · rcases hchild.nodes_sub x hx₂ with hx₁ | hx₁
        · rw [DependencyGraph.mem_add_edge_nodes] at hx₁
          rcases hx₁ with hx₀ | rfl | rfl
          · exact Or.inl hx₀
          · exact Or.inr (hrest.vis_mono _ (hchild.vis_mono _ hnode))
          · exact Or.inr (hrest.vis_mono _ hchild.start_vis)
        · exact Or.inr (hrest.vis_mono _ hx₁)
      · exact Or.inr hx₂
    · intro x hx hnx
      by_cases hx₁ : x ∈ out₁.2
      · exact hrest.nodes_mono x (hchild.vis_nodes x hx₁ hnx)
      · exact hrest.vis_nodes x hx hx₁
    · intro a b hab
      rcases hrest.edges_sub a b hab with hab₁ | hab₁
      · rcases hchild.edges_sub a b hab₁ with hab₀ | hab₀
        · rcases DependencyGraph.edge_add_edge_inv hab₀ with hab' | ⟨rfl, rfl⟩
          · exact Or.inl hab'
          · exact Or.inr hedge_gt
        · exact Or.inr hab₀
      · exact Or.inr hab₁
    · intro a b hab
      exact hrest.edge_mono a b (hchild.edge_mono a b
        (DependencyGraph.edge_add_edge_mono hab))
    · intro hwf
      exact hrest.wf (hchild.wf (hwf.add_edge node t m))

theorem extractVisit_post (g : DependencyGraph) :
    ∀ (fuel : Nat) (node : String) (sub : DependencyGraph) (vis : List String),
      unvisitedCount g vis < fuel →
      ExtractPost g node sub vis (extractVisit g fuel node sub vis) := by
  intro fuel
  induction fuel with
  | zero => intro node sub vis hbud; exact absurd hbud (Nat.not_lt_zero _)
  | succ f ih =>
    intro node sub vis hbud
    simp only [extractVisit]
    by_cases hvis : node ∈ vis
    · simp only [hvis, if_true]
      exact ⟨fun x hx => hx, hvis, fun x hx => Or.inl hx,
        fun x hx hnx => absurd hx hnx, fun x hx => hx, fun x hx => Or.inl hx,
        fun x hx hnx => absurd hx hnx, fun a b hab => Or.inl hab,
        fun a b hab => hab, fun h => h⟩
    · simp only [hvis, if_false]
      cases hf : assocFind node g.adjacency_list with
      | none =>
        have hnoedge : ∀ w, ¬ Edge g node w := edge_of_none hf
        refine ⟨fun x hx => List.mem_cons_of_mem _ hx, List.mem_cons_self _ _,
          ?_, ?_, ?_, ?_, ?_, ?_, ?_, ?_⟩
        · intro x hx
          rcases List.mem_cons.mp hx with rfl | hm
          · exact Or.inr Relation.ReflTransGen.refl
          · exact Or.inl hm
        · intro x hx hnx w hew
          rcases List.mem_cons.mp hx with rfl | hm
          · exact absurd hew (hnoedge w)
          · exact absurd hm hnx
        · intro x hx
          rw [DependencyGraph.mem_add_node_nodes]
          exact Or.inl hx
        · intro x hx
          rw [DependencyGraph.mem_add_node_nodes] at hx
          rcases hx with hx | rfl
          · exact Or.inl hx
          · exact Or.inr (List.mem_cons_self _ _)
        · intro x hx hnx
          rcases List.mem_cons.mp hx with rfl | hm
          · rw [DependencyGraph.mem_add_node_nodes]; exact Or.inr rfl
          · exact absurd hm hnx
        · intro a b hab
          rw [DependencyGraph.edge_add_node] at hab
          exact Or.inl hab
        · intro a b hab
          rw [DependencyGraph.edge_add_node]
          exact hab
        · exact fun h => h.add_node node
      | some es =>
        have hmem : node ∈ g.nodes := mem_nodes_of_assocFind hf
        have hbud' : unvisitedCount g (node :: vis) < f := by
          have h1 := unvisitedCount_lt hmem hvis
          omega
        have hes : ∀ p ∈ es, p ∈ g.edgeList node := by
          intro p hp
          unfold DependencyGraph.edgeList
          rw [hf]
          simpa using hp
        have Hvisit : ∀ n sub₂ vis₂, (∀ x ∈ node :: vis, x ∈ vis₂) →
            ExtractPost g n sub₂ vis₂ (extractVisit g f n sub₂ vis₂) := by
          intro n sub₂ vis₂ hsup
          exact ih n sub₂ vis₂
            (Nat.lt_of_le_of_lt (unvisitedCount_mono hsup) hbud')
        have hpost := extractEdgesAux_post g (extractVisit g f) node (node :: vis)
          Hvisit es (sub.add_node node) (node :: vis)
          (fun x hx => hx) (List.mem_cons_self _ _) hes
        set out := extractEdgesAux (extractVisit g f) node es (sub.add_node node)
          (node :: vis) with hout
        refine ⟨?_, ?_, ?_, ?_, ?_, ?_, ?_, ?_, ?_, ?_⟩
        · exact fun x hx => hpost.vis_mono x (List.mem_cons_of_mem _ hx)
        · exact hpost.vis_mono node (List.mem_cons_self _ _)
        · intro x hx
          rcases hpost.vis_reach x hx with hx₁ | ⟨t, m, hm, hr⟩
          · rcases List.mem_cons.mp hx₁ with rfl | hm
            · exact Or.inr Relation.ReflTransGen.refl
            · exact Or.inl hm
          · refine Or.inr (Relation.ReflTransGen.head ⟨m, hes (t, m) hm⟩ hr)
        · intro x hx hnx w hew
          by_cases hxn : x = node
          · subst hxn
            obtain ⟨m, hm⟩ := hew
            have hesEq : g.edgeList x = es := by
              unfold DependencyGraph.edgeList
              rw [hf]
              rfl
            rw [hesEq] at hm
            exact hpost.targets w m hm
          · have hx' : x ∉ node :: vis := by
              intro hm
              rcases List.mem_cons.mp hm with heq | hmm
              · exact hxn heq
              · exact hnx hmm
            exact hpost.closure x hx hx' w hew
        · intro x hx
          refine hpost.nodes_mono x ?_
          rw [DependencyGraph.mem_add_node_nodes]
          exact Or.inl hx
        · intro x hx
          rcases hpost.nodes_sub x hx with hx₁ | hx₁
          · rw [DependencyGraph.mem_add_node_nodes] at hx₁
            rcases hx₁ with hx₀ | rfl
            · exact Or.inl hx₀
            · exact Or.inr (hpost.vis_mono _ (List.mem_cons_self _ _))
          · exact Or.inr hx₁
        · intro x hx hnx
          by_cases hxn : x = node
          · subst hxn
            refine hpost.nodes_mono x ?_
            rw [DependencyGraph.mem_add_node_nodes]
            exact Or.inr rfl
          · have hx' : x ∉ node :: vis := by
              intro hm
              rcases List.mem_cons.mp hm with heq | hmm
              · exact hxn heq
              · exact hnx hmm
            exact hpost.vis_nodes x hx hx'
        · intro a b hab
          rcases hpost.edges_sub a b hab with hab₁ | hab₁
          · rw [DependencyGraph.edge_add_node] at hab₁
            exact Or.inl hab₁
          · exact Or.inr hab₁
        · intro a b hab
          refine hpost.edge_mono a b ?_
          rw [DependencyGraph.edge_add_node]
          exact hab
        · exact fun h => hpost.wf (h.add_node node)

theorem subgraphInv_step (g : DependencyGraph) (processed : List String)
    (root : String) (st : DependencyGraph × List String)
    (h : SubgraphInv g processed st) :
    SubgraphInv g (processed ++ [root])
      (extractVisit g (g.nodes.length + 1) root st.1 st.2) := by
  have hbud : unvisitedCount g st.2 < g.nodes.length + 1 := by
    have : unvisitedCount g st.2 ≤ g.nodes.length := List.length_filter_le _ _
    omega
  have hpost := extractVisit_post g (g.nodes.length + 1) root st.1 st.2 hbud
  set out := extractVisit g (g.nodes.length + 1) root st.1 st.2 with hout
  have hclosure' : ∀ x ∈ out.2, ∀ w, Edge g x w → Edge out.1 x w ∧ w ∈ out.2 := by
    intro x hx w hew
    by_cases hxv : x ∈ st.2
    · obtain ⟨he, hw⟩ := h.closure x hxv w hew
      exact ⟨hpost.edge_mono _ _ he, hpost.vis_mono _ hw⟩
    · exact hpost.closure x hx hxv w hew
  have hreach_vis : ∀ x, Reaches g root x → x ∈ out.2 := by
    intro x hr
    induction hr with
    | refl => exact hpost.start_vis
    | tail _ hstep ih => exact (hclosure' _ ih _ hstep).2
  refine ⟨?_, ?_, hclosure', ?_, ?_⟩
  · intro x
    constructor
    · intro hx
      rcases hpost.vis_reach x hx with hx₁ | hr
      · obtain ⟨r, hrmem, hrr⟩ := (h.vis_iff x).mp hx₁
        exact ⟨r, List.mem_append_left _ hrmem, hrr⟩
      · exact ⟨root, List.mem_append_right _ (by simp), hr⟩
    · rintro ⟨r, hrmem, hrr⟩
      rcases List.mem_append.mp hrmem with hrp | hrl
      · exact hpost.vis_mono x ((h.vis_iff x).mpr ⟨r, hrp, hrr⟩)
      · have : r = root := by simpa using hrl
        subst this
        exact hreach_vis x hrr
  · intro x
    constructor
    · intro hx
      rcases hpost.nodes_sub x hx with hx₁ | hx₁
      · exact hpost.vis_mono x ((h.nodes_iff x).mp hx₁)
      · exact hx₁
    · intro hx
      by_cases hxv : x ∈ st.2
      · exact hpost.nodes_mono x ((h.nodes_iff x).mpr hxv)
      · exact hpost.vis_nodes x hx hxv
  · intro a b hab
    rcases hpost.edges_sub a b hab with hab₁ | hab₁
    · exact h.edges_sub a b hab₁
    · exact hab₁
  · exact hpost.wf h.wf

theorem subgraphInv_fold (g : DependencyGraph) :
    ∀ (roots processed : List String) (st : DependencyGraph × List String),
      SubgraphInv g processed st →
      SubgraphInv g (processed ++ roots)
        (roots.foldl
          (fun acc root => extractVisit g (g.nodes.length + 1) root acc.1 acc.2) st) := by
  intro roots
  induction roots with
  | nil => intro processed st h; simpa using h
  | cons root rest ih =>
    intro processed st h
    have hstep := subgraphInv_step g processed root st h
    have := ih (processed ++ [root]) _ hstep
    simp only [List.foldl_cons]
    have harr : processed ++ [root] ++ rest = processed ++ root :: rest := by simp
    rw [harr] at this
    exact this

theorem get_subgraph_inv (g : DependencyGraph) (roots : List String) :
    SubgraphInv g roots
      (roots.foldl
        (fun acc root => extractVisit g (g.nodes.length + 1) root acc.1 acc.2)
        (⟨[]⟩, [])) := by
  have hinit : SubgraphInv g [] (⟨[]⟩, []) := by
    refine ⟨?_, ?_, ?_, ?_, wellFormed_empty⟩
    · intro x; simp
    · intro x; simp [DependencyGraph.nodes]
    · intro x hx; simp at hx
    · intro a b hab
      obtain ⟨m, hm⟩ := hab
      simp [DependencyGraph.edgeList, assocFind] at hm
  have := subgraphInv_fold g roots [] (⟨[]⟩, []) hinit
  simpa using this

/-- Membership in the extracted subgraph is exactly reachability from a root. -/
theorem mem_get_subgraph_iff (g : DependencyGraph) (roots : List String) (x : String) :
    x ∈ (g.get_subgraph roots).nodes ↔ ∃ r ∈ roots, Reaches g r x := by
  have h := get_subgraph_inv g roots
  unfold DependencyGraph.get_subgraph
  rw [h.nodes_iff x, h.vis_iff x]

/-- Every `g`-edge out of a reachable node is present in the subgraph. -/
theorem edge_get_subgraph_of_reaches {g : DependencyGraph} {roots : List String}
    {u w : String} (hu : ∃ r ∈ roots, Reaches g r u) (he : Edge g u w) :
    Edge (g.get_subgraph roots) u w := by
  have h := get_subgraph_inv g roots
  unfold DependencyGraph.get_subgraph
  exact (h.closure u ((h.vis_iff u).mpr hu) w he).1

/-- Subgraph edges come from `g`. -/
theorem edge_get_subgraph_sub {g : DependencyGraph} {roots : List String}
    {a b : String} (h : Edge (g.get_subgraph roots) a b) : Edge g a b := by
  have hinv := get_subgraph_inv g roots
  exact hinv.edges_sub a b h

theorem get_subgraph_wellFormed (g : DependencyGraph) (roots : List String) :
    WellFormed (g.get_subgraph roots) :=
  (get_subgraph_inv g roots).wf

/-! ### Correctness of `topological_sort`

Kahn's algorithm.  The central invariant: every stored in-degree equals the
total number of in-edges minus those whose source has already been emitted,
the emitted list together with the queue is duplicate-free, queued nodes have
degree zero, and in the emitted list every edge source appears strictly
before its target.
-/

theorem edge_iff_edgeCnt_pos {g : DependencyGraph} {u v : String} :
    Edge g u v ↔ 0 < edgeCnt g u v := by
  unfold Edge edgeCnt
  rw [List.count_pos_iff, List.mem_map]
  constructor
  · rintro ⟨m, hm⟩
    exact ⟨(v, m), hm, rfl⟩
  · rintro ⟨⟨v', m⟩, hm, heq⟩
    cases heq
    exact ⟨m, hm⟩

theorem assocFind_of_mem_nodup {α : Type} {l : List (String × α)}
    (hnd : (l.map Prod.fst).Nodup) {e : String × α} (he : e ∈ l) :
    assocFind e.1 l = some e.2 := by
  induction l with
  | nil => simp at he
  | cons p rest ih =>
    rcases List.mem_cons.mp he with rfl | hmem
    · simp [assocFind]
    · have hne : e.1 ≠ p.1 := by
        intro heq
        have : p.1 ∉ rest.map Prod.fst := (List.nodup_cons.mp (by simpa using hnd)).1
        exact this (heq ▸ List.mem_map_of_mem Prod.fst hmem)
      simp only [assocFind, hne, if_false]
      exact ih (List.nodup_cons.mp (by simpa using hnd)).2 hmem

theorem split_at_key {α : Type} {l : List (String × α)}
    (hnd : (l.map Prod.fst).Nodup) {u : String} (hu : u ∈ l.map Prod.fst) :
    ∃ l₁ es l₂, l = l₁ ++ (u, es) :: l₂ ∧ u ∉ l₁.map Prod.fst ∧
      u ∉ l₂.map Prod.fst := by
  obtain ⟨⟨u', es⟩, hmem, heq⟩ := List.mem_map.mp hu
  cases heq
  obtain ⟨l₁, l₂, rfl⟩ := List.append_of_mem hmem
  refine ⟨l₁, es, l₂, rfl, ?_, ?_⟩
  · intro hmem₁
    rw [List.map_append] at hnd
    have hdisj := (List.nodup_append.mp hnd).2.2
    exact hdisj hmem₁ (by simp)
  · rw [List.map_append] at hnd
    have h2 := (List.nodup_append.mp hnd).2.1
    simp only [List.map_cons] at h2
    exact (List.nodup_cons.mp h2).1

/-- With `u` fresh, appending it to the emitted list adds exactly `u`'s
out-multiplicity to the processed-in count. -/
theorem procIn_append {g : DependencyGraph} (hnd : g.nodes.Nodup)
    {s : List String} {u : String} (hu : u ∉ s) (v : String) :
    procIn g (s ++ [u]) v = procIn g s v + edgeCnt g u v := by
  by_cases hmem : u ∈ g.nodes
  · obtain ⟨l₁, es, l₂, hsplit, hn₁, hn₂⟩ := split_at_key hnd hmem
    have hfind : assocFind u g.adjacency_list = some es := by
      have : ((u, es) : String × List (String × EdgeMetadata)) ∈ g.adjacency_list := by
        rw [hsplit]; simp
      exact assocFind_of_mem_nodup hnd this
    have hcnt : edgeCnt g u v = (es.map Prod.fst).count v := by
      unfold edgeCnt DependencyGraph.edgeList
      rw [hfind]
      rfl
    unfold procIn
    rw [hsplit]
    simp only [List.map_append, List.map_cons, List.sum_append, List.sum_cons]
    have hc₁ : ∀ e ∈ l₁, (if e.1 ∈ s ++ [u] then (e.2.map Prod.fst).count v else 0) =
        (if e.1 ∈ s then (e.2.map Prod.fst).count v else 0) := by
      intro e he
      have hne : e.1 ≠ u := by
        intro heq
        exact hn₁ (heq ▸ List.mem_map_of_mem Prod.fst he)
      by_cases hs : e.1 ∈ s
      · simp [hs, List.mem_append]
      · have : e.1 ∉ s ++ [u] := by
          simp [List.mem_append, hs, hne]
        simp [hs, this]
    have hc₂ : ∀ e ∈ l₂, (if e.1 ∈ s ++ [u] then (e.2.map Prod.fst).count v else 0) =
        (if e.1 ∈ s then (e.2.map Prod.fst).count v else 0) := by
      intro e he
      have hne : e.1 ≠ u := by
        intro heq
        exact hn₂ (heq ▸ List.mem_map_of_mem Prod.fst he)
      by_cases hs : e.1 ∈ s
      · simp [hs, List.mem_append]
      · have : e.1 ∉ s ++ [u] := by
          simp [List.mem_append, hs, hne]
        simp [hs, this]
    rw [List.map_congr_left hc₁, List.map_congr_left hc₂]
    have hu' : (u ∈ s ++ [u]) := by simp
    simp only [hu', if_true, hu, if_false, hcnt]
    ring
  · have hcnt : edgeCnt g u v = 0 := by
      unfold edgeCnt DependencyGraph.edgeList
      rw [assocFind_eq_none hmem]
      rfl
    unfold procIn
    have hc : ∀ e ∈ g.adjacency_list,
        (if e.1 ∈ s ++ [u] then (e.2.map Prod.fst).count v else 0) =
        (if e.1 ∈ s then (e.2.map Prod.fst).count v else 0) := by
      intro e he
      have hne : e.1 ≠ u := by
        intro heq
        exact hmem (heq ▸ List.mem_map_of_mem Prod.fst he)
      by_cases hs : e.1 ∈ s
      · simp [hs, List.mem_append]
      · have : e.1 ∉ s ++ [u] := by simp [List.mem_append, hs, hne]
        simp [hs, this]
    rw [List.map_congr_left hc, hcnt]
    simp

/-- If some in-edge source of `v` is outside `s`, that source's multiplicity
is missing from the processed count. -/
theorem procIn_le_sub {g : DependencyGraph} (hnd : g.nodes.Nodup)
    {s : List String} {u v : String} (hu : u ∉ s) :
    procIn g s v + edgeCnt g u v ≤ totalIn g v := by
  by_cases hmem : u ∈ g.nodes
  · obtain ⟨l₁, es, l₂, hsplit, -, -⟩ := split_at_key hnd hmem
    have hfind : assocFind u g.adjacency_list = some es := by
      have : ((u, es) : String × List (String × EdgeMetadata)) ∈ g.adjacency_list := by
        rw [hsplit]; simp
      exact assocFind_of_mem_nodup hnd this
    have hcnt : edgeCnt g u v = (es.map Prod.fst).count v := by
      unfold edgeCnt DependencyGraph.edgeList
      rw [hfind]
      rfl
    unfold procIn totalIn
    rw [hsplit]
    simp only [List.map_append, List.map_cons, List.sum_append, List.sum_cons, hu,
      if_false, hcnt]
    have h₁ : (l₁.map (fun e => if e.1 ∈ s then (e.2.map Prod.fst).count v else 0)).sum ≤
        (l₁.map (fun e => (e.2.map Prod.fst).count v)).sum := by
      apply List.sum_le_sum
      intro e he
      split <;> omega
    have h₂ : (l₂.map (fun e => if e.1 ∈ s then (e.2.map Prod.fst).count v else 0)).sum ≤
        (l₂.map (fun e => (e.2.map Prod.fst).count v)).sum := by
      apply List.sum_le_sum
      intro e he
      split <;> omega
    omega
  · have hcnt : edgeCnt g u v = 0 := by
      unfold edgeCnt DependencyGraph.edgeList
      rw [assocFind_eq_none hmem]
      rfl
    rw [hcnt]
    unfold procIn totalIn
    have := List.sum_le_sum (l := g.adjacency_list)
      (f := fun e => if e.1 ∈ s then (e.2.map Prod.fst).count v else 0)
      (g := fun e => (e.2.map Prod.fst).count v)
      (fun e _ => by dsimp only; split <;> omega)
    simpa using this

theorem procIn_le_total {g : DependencyGraph} (s : List String) (v : String) :
    procIn g s v ≤ totalIn g v := by
  unfold procIn totalIn
  apply List.sum_le_sum
  intro e _
  split <;> omega

/-- If every in-edge source of `v` is in `s`, the processed count is total. -/
theorem procIn_eq_total {g : DependencyGraph} (hnd : g.nodes.Nodup)
    {s : List String} {v : String}
    (h : ∀ u, 0 < edgeCnt g u v → u ∈ s) : procIn g s v = totalIn g v := by
  unfold procIn totalIn
  congr 1
  apply List.map_congr_left
  intro e he
  by_cases hc : 0 < (e.2.map Prod.fst).count v
  · have hcnt : edgeCnt g e.1 v = (e.2.map Prod.fst).count v := by
      unfold edgeCnt DependencyGraph.edgeList
      rw [assocFind_of_mem_nodup hnd he]
      rfl
    have : e.1 ∈ s := h e.1 (by rw [hcnt]; exact hc)
    simp [this]
  · have : (e.2.map Prod.fst).count v = 0 := by omega
    simp [this]

theorem processEdges_spec : ∀ (es : List (String × EdgeMetadata)) (D : DegMap),
    ProcessSpec es D (processEdges es D) := by
  intro es
  induction es with
  | nil =>
    intro D
    refine ⟨rfl, ?_, fun v h => h, List.nodup_nil, ?_⟩
    · intro v d h
      simpa using h
    · intro x
      simp only [processEdges, List.map_nil, List.count_nil, List.not_mem_nil,
        false_iff, not_exists]
      intro d
      rintro ⟨-, h1, h2⟩
      omega
  | cons e rest ih =>
    intro D
    obtain ⟨t, m⟩ := e
    simp only [processEdges]
    cases hf : assocFind t D with
    | none =>
      have hs := ih D
      refine ⟨hs.keys, ?_, hs.deg_none, hs.push_nodup, ?_⟩
      · intro v d h
        have hvt : v ≠ t := fun heq => by rw [heq, hf] at h; cases h
        have := hs.deg v d h
        simpa [List.count_cons, hvt] using this
      · intro x
        rw [hs.push_iff x]
        by_cases hxt : x = t
        · subst hxt
          simp [hf]
        · simp [List.count_cons, hxt]
    | some d =>
      simp only []
      set D' := assocModify t (fun _ => d - 1) D with hD'
      have hs := ih D'
      have hfindt : assocFind t D' = some (d - 1) := by
        rw [hD', assocFind_modify_self, hf]
        rfl
      have hkeys' : D'.map Prod.fst = D.map Prod.fst := assocModify_map_fst _ _ _
      cases hrec : processEdges rest D' with
      | mk D₁ ps =>
        rw [hrec] at hs
        have hout : (if d - 1 = 0 then ((D₁, ps).1, t :: (D₁, ps).2)
            else ((D₁, ps).1, (D₁, ps).2)) =
            (D₁, if d - 1 = 0 then t :: ps else ps) := by
          split <;> rfl
        rw [hout]
        have hsdeg : ∀ v dv, assocFind v D' = some dv →
            assocFind v D₁ = some (dv - ((rest.map Prod.fst).count v : Int)) := by
          intro v dv h
          have := hs.deg v dv h
          simpa using this
        have hskeys : D₁.map Prod.fst = D'.map Prod.fst := hs.keys
        refine ⟨?_, ?_, ?_, ?_, ?_⟩
        · show D₁.map Prod.fst = D.map Prod.fst
          rw [hskeys, hkeys']
        · intro v dv h
          by_cases hvt : v = t
          · subst hvt
            rw [hf] at h
            obtain rfl := Option.some.inj h
            rw [hsdeg v (d - 1) hfindt]
            congr 1
            simp only [List.map_cons, List.count_cons_self]
            push_cast
            ring
          · have hfind' : assocFind v D' = some dv := by
              rw [hD', assocFind_modify_ne hvt, h]
            rw [hsdeg v dv hfind']
            congr 1
            simp [List.count_cons, hvt]
        · intro v h
          have hvt : v ≠ t := fun heq => by rw [heq, hf] at h; cases h
          exact hs.deg_none v (by rw [hD', assocFind_modify_ne hvt]; exact h)
        · show (if d - 1 = 0 then t :: ps else ps).Nodup
          by_cases hd1 : d - 1 = 0
          · simp only [hd1, if_true]
            refine List.nodup_cons.mpr ⟨?_, hs.push_nodup⟩
            rw [hs.push_iff t]
            rintro ⟨dx, hdx, h1, -⟩
            rw [hfindt] at hdx
            obtain rfl := Option.some.inj hdx
            omega
          · simp only [hd1, if_false]
            exact hs.push_nodup
        · intro x
          show (x ∈ (if d - 1 = 0 then t :: ps else ps)) ↔ _
          by_cases hxt : x = t
          · subst hxt
            by_cases hd1 : d - 1 = 0
            · simp only [hd1, if_true, List.mem_cons, true_or, true_iff]
              refine ⟨d, hf, by omega, ?_⟩
              simp only [List.map_cons, List.count_cons_self]
              push_cast
              omega
            · simp only [hd1, if_false]
              rw [hs.push_iff x]
              constructor
              · rintro ⟨dx, hdx, h1, h2⟩
                rw [hfindt] at hdx
                obtain rfl := Option.some.inj hdx
                refine ⟨d, hf, by omega, ?_⟩
                simp only [List.map_cons, List.count_cons_self]
                push_cast at h2 ⊢
                omega
              · rintro ⟨dx, hdx, h1, h2⟩
                rw [hf] at hdx
                obtain rfl := Option.some.inj hdx
                refine ⟨d - 1, hfindt, by omega, ?_⟩
                simp only [List.map_cons, List.count_cons_self] at h2
                push_cast at h2 ⊢
                omega
          · have hmem : (x ∈ (if d - 1 = 0 then t :: ps else ps)) ↔ x ∈ ps := by
              split
              · simp [hxt]
              · rfl
            rw [hmem, hs.push_iff x, hD', assocFind_modify_ne hxt]
            simp [List.count_cons, hxt]

theorem foldInc_spec :
    ∀ (ts : List (String × EdgeMetadata)) (D : DegMap),
      (∀ p ∈ ts, p.1 ∈ D.map Prod.fst) →
      ((ts.foldl (fun D' p => incEntry p.1 D') D).map Prod.fst = D.map Prod.fst) ∧
      (∀ v d, assocFind v D = some d →
        assocFind v (ts.foldl (fun D' p => incEntry p.1 D') D) =
          some (d + ((ts.map Prod.fst).count v : Int))) := by
  intro ts
  induction ts with
  | nil =>
    intro D hts
    refine ⟨rfl, ?_⟩
    intro v d h
    simpa using h
  | cons p rest ih =>
    intro D hts
    have hp : p.1 ∈ D.map Prod.fst := hts p (by simp)
    have hsome : (assocFind p.1 D).isSome := assocFind_isSome_iff.mpr hp
    cases hf : assocFind p.1 D with
    | none => rw [hf] at hsome; simp at hsome
    | some d₀ =>
      have hinc : incEntry p.1 D = assocModify p.1 (fun x => x + 1) D := by
        unfold incEntry
        rw [hf]
      have hkeys₁ : (incEntry p.1 D).map Prod.fst = D.map Prod.fst := by
        rw [hinc]; exact assocModify_map_fst _ _ _
      have hts' : ∀ q ∈ rest, q.1 ∈ (incEntry p.1 D).map Prod.fst := by
        intro q hq
        rw [hkeys₁]
        exact hts q (List.mem_cons_of_mem _ hq)
      obtain ⟨ihk, ihd⟩ := ih (incEntry p.1 D) hts'
      simp only [List.foldl_cons]
      refine ⟨by rw [ihk, hkeys₁], ?_⟩
      intro v d h
      by_cases hv : v = p.1
      · subst hv
        rw [hf] at h
        obtain rfl := Option.some.inj h
        have hfind₁ : assocFind p.1 (incEntry p.1 D) = some (d₀ + 1) := by
          rw [hinc, assocFind_modify_self, hf]
          rfl
        rw [ihd p.1 (d₀ + 1) hfind₁]
        congr 1
        simp only [List.map_cons, List.count_cons_self]
        push_cast
        ring
      · have hfind₁ : assocFind v (incEntry p.1 D) = some d := by
          rw [hinc, assocFind_modify_ne hv, h]
        rw [ihd v d hfind₁]
        congr 1
        simp [List.count_cons, hv]

theorem buildFold_spec :
    ∀ (l : List (String × List (String × EdgeMetadata))) (D : DegMap),
      (∀ e ∈ l, ∀ p ∈ e.2, p.1 ∈ D.map Prod.fst) →
      ((l.foldl (fun D e => e.2.foldl (fun D' p => incEntry p.1 D') D) D).map Prod.fst =
        D.map Prod.fst) ∧
      (∀ v d, assocFind v D = some d →
        assocFind v (l.foldl (fun D e => e.2.foldl (fun D' p => incEntry p.1 D') D) D) =
          some (d + ((l.map (fun e => (e.2.map Prod.fst).count v)).sum : Int))) := by
  intro l
  induction l with
  | nil =>
    intro D hl
    refine ⟨rfl, ?_⟩
    intro v d h
    simpa using h
  | cons e rest ih =>
    intro D hl
    obtain ⟨hek, hed⟩ := foldInc_spec e.2 D (hl e (by simp))
    set D₁ := e.2.foldl (fun D' p => incEntry p.1 D') D with hD₁
    have hl' : ∀ e' ∈ rest, ∀ p ∈ e'.2, p.1 ∈ D₁.map Prod.fst := by
      intro e' he' p hp
      rw [hek]
      exact hl e' (List.mem_cons_of_mem _ he') p hp
    obtain ⟨ihk, ihd⟩ := ih D₁ hl'
    simp only [List.foldl_cons]
    refine ⟨by rw [ihk, hek], ?_⟩
    intro v d h
    rw [ihd v (d + ((e.2.map Prod.fst).count v : Int)) (hed v d h)]
    congr 1
    simp only [List.map_cons, List.sum_cons]
    ring

/-- `build_in_degree` assigns every node its total in-edge count. -/
theorem buildInDegree_spec (g : DependencyGraph) (hWF : WellFormed g) :
    (buildInDegree g).map Prod.fst = g.nodes ∧
    ∀ v ∈ g.nodes, assocFind v (buildInDegree g) = some (totalIn g v : Int) := by
  have hD₀k : (g.adjacency_list.map
      (fun e => (e.1, (0 : Int)))).map Prod.fst = g.nodes := by
    rw [List.map_map]
    rfl
  have hD₀gen : ∀ (l : List (String × List (String × EdgeMetadata))) (v : String),
      v ∈ l.map Prod.fst → assocFind v (l.map (fun e => (e.1, (0 : Int)))) = some 0 := by
    intro l
    induction l with
    | nil => intro v hv; simp at hv
    | cons e rest ih =>
      intro v hv
      by_cases hve : v = e.1
      · simp [assocFind, hve]
      · simp only [List.map_cons, assocFind, hve, if_false]
        apply ih
        rw [List.map_cons] at hv
        rcases List.mem_cons.mp hv with heq | hm
        · exact absurd heq hve
        · exact hm
  have hD₀find : ∀ v ∈ g.nodes,
      assocFind v (g.adjacency_list.map (fun e => (e.1, (0 : Int)))) = some 0 :=
    fun v hv => hD₀gen g.adjacency_list v hv
  have htgt : ∀ e ∈ g.adjacency_list, ∀ p ∈ e.2,
      p.1 ∈ (g.adjacency_list.map (fun e => (e.1, (0 : Int)))).map Prod.fst := by
    intro e he p hp
    rw [hD₀k]
    have hfind : assocFind e.1 g.adjacency_list = some e.2 :=
      assocFind_of_mem_nodup hWF.1 he
    have hedge : Edge g e.1 p.1 := by
      refine ⟨p.2, ?_⟩
      unfold DependencyGraph.edgeList
      rw [hfind]
      simpa using hp
    exact hWF.2 _ _ hedge
  obtain ⟨hk, hd⟩ := buildFold_spec g.adjacency_list _ htgt
  constructor
  · unfold buildInDegree
    rw [hk, hD₀k]
  · intro v hv
    unfold buildInDegree
    have hcast : ((totalIn g v : Int)) =
        (g.adjacency_list.map (fun e => ((e.2.map Prod.fst).count v : Int))).sum := by
      unfold totalIn
      rw [Nat.cast_list_sum, List.map_map]
      rfl
    rw [hd v 0 (hD₀find v hv), hcast]
    simp

theorem kahnInv_step {g : DependencyGraph} (hWF : WellFormed g)
    {s : List String} {n : String} {rest : List String} {D : DegMap}
    (hinv : KahnInv g s (n :: rest) D)
    {es : List (String × EdgeMetadata)}
    (hfe : assocFind n g.adjacency_list = some es) :
    KahnInv g (s ++ [n]) (rest ++ (processEdges es D).2) (processEdges es D).1 := by
  have hps := processEdges_spec es D
  have hnmem : n ∈ g.nodes := hinv.subk n (by simp)
  have hns : n ∉ s := by
    have := hinv.nodup
    rw [List.nodup_append] at this
    intro hmem
    exact this.2.2 hmem (by simp)
  have hnrest : n ∉ rest := by
    have := hinv.nodup
    rw [List.nodup_append] at this
    have := this.2.1
    exact (List.nodup_cons.mp this).1
  have hcnt : ∀ v, (es.map Prod.fst).count v = edgeCnt g n v := by
    intro v
    unfold edgeCnt DependencyGraph.edgeList
    rw [hfe]
    rfl
  -- facts about pushed nodes
  have hpush : ∀ x ∈ (processEdges es D).2,
      x ∈ g.nodes ∧ x ∉ s ∧ x ≠ n ∧ x ∉ rest ∧
        assocFind x (processEdges es D).1 = some 0 := by
    intro x hx
    obtain ⟨dx, hdx, hpos, hle⟩ := (hps.push_iff x).mp hx
    have hxk : x ∈ g.nodes := by
      rw [← hinv.keysD]
      exact assocFind_isSome_iff.mp (by simp [hdx])
    have hdxval : dx = (totalIn g x : Int) - (procIn g s x : Int) := by
      have := hinv.deg x hxk
      rw [hdx] at this
      exact Option.some.inj this
    have hxs : x ∉ s := by
      intro hmem
      have hall : ∀ u, 0 < edgeCnt g u x → u ∈ s := by
        intro u hu
        exact (hinv.before u x hmem hu).1
      have := procIn_eq_total hWF.1 hall
      omega
    have hxq : x ∉ n :: rest := by
      intro hmem
      have := hinv.qzero x hmem
      rw [hdx] at this
      have := Option.some.inj this
      omega
    have hge : (procIn g s x : Int) + (edgeCnt g n x : Int) ≤ (totalIn g x : Int) := by
      have := procIn_le_sub hWF.1 (v := x) hns
      exact_mod_cast this
    have hdeq : dx = ((es.map Prod.fst).count x : Int) := by
      rw [hcnt x] at hle ⊢
      omega
    refine ⟨hxk, hxs, fun heq => hxq (heq ▸ List.mem_cons_self _ _),
      fun hm => hxq (List.mem_cons_of_mem _ hm), ?_⟩
    rw [hps.deg x dx hdx, hdeq]
    norm_num
  refine ⟨?_, ?_, ?_, ?_, ?_, ?_⟩
  · rw [hps.keys, hinv.keysD]
  · intro v hv
    have := hinv.deg v hv
    rw [hps.deg v _ this, hcnt v]
    rw [procIn_append hWF.1 hns v]
    congr 1
    push_cast
    ring
  · have hnodup_s := (List.nodup_append.mp hinv.nodup).1
    have hrest_nodup : rest.Nodup :=
      (List.nodup_cons.mp (List.nodup_append.mp hinv.nodup).2.1).2
    have hdisj := (List.nodup_append.mp hinv.nodup).2.2
    rw [List.append_assoc, List.nodup_append]
    refine ⟨hnodup_s, ?_, ?_⟩
    · rw [List.singleton_append, List.nodup_cons]
      refine ⟨?_, ?_⟩
      · intro hm
        rcases List.mem_append.mp hm with hm' | hm'
        · exact hnrest hm'
        · exact (hpush n hm').2.2.1 rfl
      · rw [List.nodup_append]
        exact ⟨hrest_nodup, hps.push_nodup,
          fun x hx1 hx2 => (hpush x hx2).2.2.2.1 hx1⟩
    · intro x hx hmem
      rw [List.singleton_append] at hmem
      rcases List.mem_cons.mp hmem with rfl | hmem'
      · exact hdisj hx (by simp)
      · rcases List.mem_append.mp hmem' with hm | hm
        · exact hdisj hx (by simp [hm])
        · exact (hpush x hm).2.1 hx
  · intro x hx
    rcases List.mem_append.mp hx with hx₁ | hx₁
    · rcases List.mem_append.mp hx₁ with hm | hm
      · exact hinv.subk x (by simp [hm])
      · have : x = n := by simpa using hm
        subst this
        exact hnmem
    · rcases List.mem_append.mp hx₁ with hm | hm
      · exact hinv.subk x (by simp [hm])
      · exact (hpush x hm).1
  · intro v hv
    rcases List.mem_append.mp hv with hm | hm
    · have hv0 := hinv.qzero v (List.mem_cons_of_mem _ hm)
      have hvcnt : (es.map Prod.fst).count v = 0 := by
        rw [hcnt v]
        by_contra hne
        have hpos : 0 < edgeCnt g n v := Nat.pos_of_ne_zero hne
        have hvk : v ∈ g.nodes := by
          rw [← hinv.keysD]
          exact assocFind_isSome_iff.mp (by simp [hv0])
        have hdeg := hinv.deg v hvk
        rw [hv0] at hdeg
        have h0 := Option.some.inj hdeg
        have := procIn_le_sub hWF.1 (v := v) hns
        have hcast : (procIn g s v : Int) + (edgeCnt g n v : Int) ≤ (totalIn g v : Int) := by
          exact_mod_cast this
        omega
      rw [hps.deg v 0 hv0, hvcnt]
      norm_num
    · exact (hpush v hm).2.2.2.2
  · intro u v hv hcnt'
    rcases List.mem_append.mp hv with hm | hm
    · obtain ⟨hus, hidx⟩ := hinv.before u v hm hcnt'
      refine ⟨List.mem_append_left _ hus, ?_⟩
      rw [List.indexOf_append_of_mem hus, List.indexOf_append_of_mem hm]
      exact hidx
    · have : v = n := by simpa using hm
      subst this
      have hv0 := hinv.qzero v (by simp)
      have hdeg := hinv.deg v hnmem
      rw [hv0] at hdeg
      have h0 := Option.some.inj hdeg
      have hus : u ∈ s := by
        by_contra hne
        have := procIn_le_sub hWF.1 (v := v) (u := u) hne
        have hcast : (procIn g s v : Int) + (edgeCnt g u v : Int) ≤ (totalIn g v : Int) := by
          exact_mod_cast this
        have : (edgeCnt g u v : Int) ≤ 0 := by omega
        omega
      refine ⟨List.mem_append_left _ hus, ?_⟩
      rw [List.indexOf_append_of_mem hus, List.indexOf_append_of_not_mem hns]
      have h1 : List.indexOf v [v] = 0 := by simp
      rw [h1]
      have := List.indexOf_lt_length.mpr hus
      omega

theorem kahnLoop_spec {g : DependencyGraph} (hWF : WellFormed g) :
    ∀ (fuel : Nat) (q : List String) (D : DegMap) (s : List String),
      KahnInv g s q D →
      (kahnLoop g fuel q D s).Nodup ∧
      (∀ x ∈ kahnLoop g fuel q D s, x ∈ g.nodes) ∧
      (∀ u v, v ∈ kahnLoop g fuel q D s → 0 < edgeCnt g u v →
        u ∈ kahnLoop g fuel q D s ∧
          (kahnLoop g fuel q D s).indexOf u < (kahnLoop g fuel q D s).indexOf v) := by
  intro fuel
  induction fuel with
  | zero =>
    intro q D s hinv
    exact ⟨(List.nodup_append.mp hinv.nodup).1,
      fun x hx => hinv.subk x (List.mem_append_left _ hx),
      fun u v hv hc => hinv.before u v hv hc⟩
  | succ f ih =>
    intro q D s hinv
    cases q with
    | nil =>
      exact ⟨(List.nodup_append.mp hinv.nodup).1,
        fun x hx => hinv.subk x (List.mem_append_left _ hx),
        fun u v hv hc => hinv.before u v hv hc⟩
    | cons n rest =>
      have hnmem : n ∈ g.nodes := hinv.subk n (by simp)
      cases hfe : assocFind n g.adjacency_list with
      | none =>
        exfalso
        have := assocFind_isSome_iff.mpr (show n ∈ g.adjacency_list.map Prod.fst from hnmem)
        rw [hfe] at this
        simp at this
      | some es =>
        simp only [kahnLoop, hfe]
        exact ih (rest ++ (processEdges es D).2) (processEdges es D).1 (s ++ [n])
          (kahnInv_step hWF hinv hfe)

theorem indexOf_reverse_of_nodup {l : List String} (hnd : l.Nodup) {a : String}
    (ha : a ∈ l) : l.reverse.indexOf a = l.length - 1 - l.indexOf a := by
  have hi : l.indexOf a < l.length := List.indexOf_lt_length.mpr ha
  have hj : l.length - 1 - l.indexOf a < l.length := by omega
  have hjr : l.length - 1 - l.indexOf a < l.reverse.length := by simpa using hj
  have hget : getElem l.reverse (l.length - 1 - l.indexOf a) hjr = a := by
    rw [List.getElem_reverse]
    have : l.length - 1 - (l.length - 1 - l.indexOf a) = l.indexOf a := by omega
    simp only [this]
    exact List.getElem_indexOf hi
  have har : a ∈ l.reverse := List.mem_reverse.mpr ha
  have hir : l.reverse.indexOf a < l.reverse.length := List.indexOf_lt_length.mpr har
  have hgetr : getElem l.reverse (l.reverse.indexOf a) hir = a :=
    List.getElem_indexOf hir
  have hndr : l.reverse.Nodup := List.nodup_reverse.mpr hnd
  exact (hndr.getElem_inj_iff).mp (by rw [hgetr, hget])

/-- What a successful `topological_sort` guarantees: the output is a
permutation of the node set in which every edge target comes strictly before
its source (dependencies first). -/
theorem topological_sort_ok_spec {g : DependencyGraph} (hWF : WellFormed g)
    {l : List String} (h : g.topological_sort = .ok l) :
    l.Nodup ∧ (∀ x, x ∈ l ↔ x ∈ g.nodes) ∧
    (∀ u v, Edge g u v → v ∈ l ∧ u ∈ l ∧ l.indexOf v < l.indexOf u) := by
  unfold DependencyGraph.topological_sort at h
  cases hdc : detect_cycles g with
  | some ci => rw [hdc] at h; cases h
  | none =>
    rw [hdc] at h
    simp only [] at h
    obtain ⟨hk, hd⟩ := buildInDegree_spec g hWF
    set D := buildInDegree g with hD
    set q := (D.filter (fun p => p.2 == 0)).map Prod.fst with hq
    set sorted := kahnLoop g (q.length + D.length + 1) q D [] with hsorted
    by_cases hlen : sorted.length ≠ g.adjacency_list.length
    · rw [if_pos hlen] at h
      cases h
    · rw [if_neg hlen] at h
      push_neg at hlen
      have hl : l = sorted.reverse := (Except.ok.inj h).symm
      have hqsub : q.Sublist (D.map Prod.fst) :=
        (List.filter_sublist D).map Prod.fst
      have hndD : (D.map Prod.fst).Nodup := by rw [hk]; exact hWF.1
      have hinv : KahnInv g [] q D := by
        refine ⟨hk, ?_, ?_, ?_, ?_, ?_⟩
        · intro v hv
          have hpnil : procIn g [] v = 0 := by
            unfold procIn
            have : ∀ e ∈ g.adjacency_list,
                (if e.1 ∈ ([] : List String) then (e.2.map Prod.fst).count v else 0) = 0 := by
              intro e he
              simp
            rw [List.map_congr_left this]
            simp
          rw [hd v hv, hpnil]
          norm_num
        · simpa using hqsub.nodup hndD
        · intro x hx
          simp only [List.nil_append] at hx
          rw [← hk]
          exact hqsub.mem hx
        · intro v hv
          obtain ⟨⟨v', dv⟩, hmem, heq⟩ := List.mem_map.mp hv
          cases heq
          have hmem' := List.mem_of_mem_filter hmem
          have hdv : dv = 0 := by
            have := List.of_mem_filter hmem
            simpa using this
          subst hdv
          exact assocFind_of_mem_nodup hndD hmem'
        · intro u v hv
          simp at hv
      obtain ⟨hnd, hsub, hfwd⟩ := kahnLoop_spec hWF (q.length + D.length + 1) q D [] hinv
      rw [← hsorted] at hnd hsub hfwd
      have hlens : sorted.length = g.nodes.length := by
        rw [hlen]
        simp [DependencyGraph.nodes]
      have hmem_iff : ∀ x, x ∈ sorted ↔ x ∈ g.nodes := by
        intro x
        constructor
        · exact hsub x
        · intro hx
          have hcard₁ : sorted.toFinset.card = sorted.length :=
            List.toFinset_card_of_nodup hnd
          have hcard₂ : g.nodes.toFinset.card = g.nodes.length :=
            List.toFinset_card_of_nodup hWF.1
          have hsubf : sorted.toFinset ⊆ g.nodes.toFinset := by
            intro y hy
            rw [List.mem_toFinset] at hy ⊢
            exact hsub y hy
          have : g.nodes.toFinset ⊆ sorted.toFinset := by
            apply Finset.subset_of_eq
            apply (Finset.eq_of_subset_of_card_le hsubf ?_).symm
            rw [hcard₁, hcard₂, hlens]
          rw [← List.mem_toFinset]
          exact this (List.mem_toFinset.mpr hx)
      subst hl
      refine ⟨List.nodup_reverse.mpr hnd, ?_, ?_⟩
      · intro x
        rw [List.mem_reverse]
        exact hmem_iff x
      · intro u v he
        have hcnt : 0 < edgeCnt g u v := edge_iff_edgeCnt_pos.mp he
        have hvn : v ∈ g.nodes := hWF.2 u v he
        have hvs : v ∈ sorted := (hmem_iff v).mpr hvn
        obtain ⟨hus, hidx⟩ := hfwd u v hvs hcnt
        refine ⟨List.mem_reverse.mpr hvs, List.mem_reverse.mpr hus, ?_⟩
        rw [indexOf_reverse_of_nodup hnd hus, indexOf_reverse_of_nodup hnd hvs]
        have h1 := List.indexOf_lt_length.mpr hus
        have h2 := List.indexOf_lt_length.mpr hvs
        omega

/-! ### Correctness of `resolve_order` -/

/-- A successful `resolve_order` returns exactly the transitive closure of the
roots, without duplicates, with every subgraph edge's target placed strictly
before its source. -/
theorem resolve_order_ok_spec {g : DependencyGraph} {roots : List String}
    {l : List String} (h : resolve_order g roots = .ok l) :
    l.Nodup ∧ (∀ x, x ∈ l ↔ ∃ r ∈ roots, Reaches g r x) ∧
    (∀ u v, Edge (g.get_subgraph roots) u v →
      v ∈ l ∧ u ∈ l ∧ l.indexOf v < l.indexOf u) := by
  unfold resolve_order at h
  obtain ⟨hnd, hmem, hfwd⟩ :=
    topological_sort_ok_spec (get_subgraph_wellFormed g roots) h
  refine ⟨hnd, ?_, hfwd⟩
  intro x
  rw [hmem x, mem_get_subgraph_iff]

/-- A cycle in `g` lifts to the subgraph as soon as one of its nodes is
reachable from a root. -/
theorem transGen_subgraph_of_reaches {g : DependencyGraph} {roots : List String}
    {r : String} (hr : r ∈ roots) {a b : String}
    (htg : Relation.TransGen (Edge g) a b) (hra : Reaches g r a) :
    Relation.TransGen (Edge (g.get_subgraph roots)) a b := by
  induction htg using Relation.TransGen.head_induction_on with
  | base hstep =>
    exact Relation.TransGen.single
      (edge_get_subgraph_of_reaches ⟨r, hr, hra⟩ hstep)
  | ih hstep htg' ihc =>
    rename_i a' c
    have hrc : Reaches g r c := Relation.ReflTransGen.tail hra hstep
    exact Relation.TransGen.head
      (edge_get_subgraph_of_reaches ⟨r, hr, hra⟩ hstep) (ihc hrc)

/-- When some root reaches a cycle, `resolve_order` reports a circular
dependency. -/
theorem resolve_order_cycle_error {g : DependencyGraph} {roots : List String}
    (h : ∃ r ∈ roots, ∃ v, Reaches g r v ∧ Relation.TransGen (Edge g) v v) :
    ∃ msg, resolve_order g roots = .error (.CircularDependency msg) := by
  obtain ⟨r, hr, v, hrv, htg⟩ := h
  have hcyc : hasCycle (g.get_subgraph roots) :=
    ⟨v, transGen_subgraph_of_reaches hr htg hrv⟩
  have hsome := hasCycle_detect_cycles_isSome hcyc
  cases hdc : detect_cycles (g.get_subgraph roots) with
  | none => rw [hdc] at hsome; simp at hsome
  | some ci =>
    refine ⟨ci.description, ?_⟩
    unfold resolve_order DependencyGraph.topological_sort
    rw [hdc]

/-! ### Correctness of `find_impact_path`

Reverse-reachability DFS.  Post-conditions: every recorded service strictly
reach the start along edges, recorded services are duplicate-free, and every
visited node has the sources of all its in-edges recorded — which yields
completeness along any dependency chain.
-/

theorem impactScanEdges_post (g : DependencyGraph)
    (impVisit : String → List String → List String → List String × List String)
    (node : String) (vis₀ : List String)
    (Hvisit : ∀ n vis imp, n ∈ g.nodes → (∀ x ∈ vis₀, x ∈ vis) →
      ImpactPost g n vis imp (impVisit n vis imp)) (frm : String) :
    ∀ (es : List (String × EdgeMetadata)) (vis imp : List String),
      (∀ x ∈ vis₀, x ∈ vis) →
      (∀ p ∈ es, p ∈ g.edgeList frm) →
      ImpactScanPost g node (∃ p ∈ es, p.1 = node) frm vis imp
        (impactScanEdges impVisit frm node es vis imp) := by
  intro es
  induction es with
  | nil =>
    intro vis imp hbase hes
    refine ⟨fun x hx => hx, fun x hx => hx, ?_, ?_, ?_, ?_, fun h => h⟩
    · rintro ⟨p, hp, -⟩
      simp at hp
    · intro x hx hnx
      exact absurd hx hnx
    · intro x hx hnx
      exact absurd hx hnx
    · intro x hx hnx
      exact absurd hx hnx
  | cons e rest ih =>
    intro vis imp hbase hes
    obtain ⟨tgt, m⟩ := e
    simp only [impactScanEdges]
    by_cases hcond : tgt = node ∧ frm ∉ imp
    · rw [if_pos hcond]
      obtain ⟨rfl, hfimp⟩ := hcond
      have hedge : Edge g frm tgt := ⟨m, hes (tgt, m) (by simp)⟩
      have hfrmk : frm ∈ g.nodes := Edge.mem_nodes hedge
      have hchild := Hvisit frm vis (imp ++ [frm]) hfrmk hbase
      set out₁ := impVisit frm vis (imp ++ [frm]) with hout₁
      have hrest := ih out₁.1 out₁.2
        (fun x hx => hchild.vis_mono x (hbase x hx))
        (fun p hp => hes p (List.mem_cons_of_mem _ hp))
      set out₂ := impactScanEdges impVisit frm tgt rest out₁.1 out₁.2 with hout₂
      have himp₁ : ∀ x ∈ imp, x ∈ out₁.2 :=
        fun x hx => hchild.imp_mono x (List.mem_append_left _ hx)
      have hfrm₂ : frm ∈ out₂.2 :=
        hrest.imp_mono frm (hchild.imp_mono frm (List.mem_append_right _ (by simp)))
      refine ⟨?_, ?_, ?_, ?_, ?_, ?_, ?_⟩
      · exact fun x hx => hrest.vis_mono x (hchild.vis_mono x hx)
      · exact fun x hx => hrest.imp_mono x (himp₁ x hx)
      · intro _
        exact hfrm₂
      · intro x hx hnx
        by_cases hx₂ : x ∈ out₁.2
        · by_cases hx₁ : x ∈ imp ++ [frm]
          · rcases List.mem_append.mp hx₁ with hm | hm
            · exact absurd hm hnx
            · have : x = frm := by simpa using hm
              subst this
              exact Relation.TransGen.single hedge
          · have := hchild.tg x hx₂ hx₁
            exact Relation.TransGen.trans this (Relation.TransGen.single hedge)
        · exact hrest.tg x hx hx₂
      · intro x hx hnx u hu
        by_cases hx₁ : x ∈ out₁.1
        · exact hrest.imp_mono u (hchild.closure x hx₁ hnx u hu)
        · exact hrest.closure x hx hx₁ u hu
      · intro x hx hnx
        by_cases hx₂ : x ∈ out₁.2
        · by_cases hx₁ : x ∈ imp ++ [frm]
          · rcases List.mem_append.mp hx₁ with hm | hm
            · exact absurd hm hnx
            · have : x = frm := by simpa using hm
              subst this
              exact hrest.vis_mono _ hchild.start_vis
          · exact hrest.vis_mono _ (hchild.new_imp_vis x hx₂ hx₁)
        · exact hrest.new_imp_vis x hx hx₂
      · intro hnd
        refine hrest.nodup (hchild.nodup ?_)
        simp [List.nodup_append, hnd, hfimp]
    · rw [if_neg hcond]
      have hrest := ih vis imp hbase
        (fun p hp => hes p (List.mem_cons_of_mem _ hp))
      refine ⟨hrest.vis_mono, hrest.imp_mono, ?_, hrest.tg, hrest.closure,
        hrest.new_imp_vis, hrest.nodup⟩
      rintro ⟨p, hp, hpn⟩
      rcases List.mem_cons.mp hp with rfl | hm
      · have htn : tgt = node := hpn
        have hfimp : frm ∈ imp := by
          by_contra hni
          exact hcond ⟨htn, hni⟩
        exact hrest.imp_mono frm hfimp
      · exact hrest.hits ⟨p, hm, hpn⟩

theorem impactScanAll_post (g : DependencyGraph) (hnd : g.nodes.Nodup)
    (impVisit : String → List String → List String → List String × List String)
    (node : String) (vis₀ : List String)
    (Hvisit : ∀ n vis imp, n ∈ g.nodes → (∀ x ∈ vis₀, x ∈ vis) →
      ImpactPost g n vis imp (impVisit n vis imp)) :
    ∀ (entries : List (String × List (String × EdgeMetadata)))
      (vis imp : List String),
      (∀ x ∈ vis₀, x ∈ vis) →
      (∀ e ∈ entries, e ∈ g.adjacency_list) →
      ImpactScanPost g node False node vis imp
        (impactScanAll impVisit node entries vis imp) ∧
      (∀ frm es', (frm, es') ∈ entries → (∃ p ∈ es', p.1 = node) →
        frm ∈ (impactScanAll impVisit node entries vis imp).2) := by
  intro entries
  induction entries with
  | nil =>
    intro vis imp hbase hent
    constructor
    · refine ⟨fun x hx => hx, fun x hx => hx, fun h => h.elim, ?_, ?_, ?_, fun h => h⟩
      · intro x hx hnx
        exact absurd hx hnx
      · intro x hx hnx
        exact absurd hx hnx
      · intro x hx hnx
        exact absurd hx hnx
    · intro frm es' hmem
      simp at hmem
  | cons e rest ih =>
    intro vis imp hbase hent
    obtain ⟨frm, es⟩ := e
    simp only [impactScanAll]
    have hmemg : (frm, es) ∈ g.adjacency_list := hent (frm, es) (by simp)
    have hfind : assocFind frm g.adjacency_list = some es :=
      assocFind_of_mem_nodup hnd hmemg
    have hes : ∀ p ∈ es, p ∈ g.edgeList frm := by
      intro p hp
      unfold DependencyGraph.edgeList
      rw [hfind]
      simpa using hp
    have hscan := impactScanEdges_post g impVisit node vis₀ Hvisit frm es vis imp
      hbase hes
    set out₁ := impactScanEdges impVisit frm node es vis imp with hout₁
    obtain ⟨hrest, hresth⟩ := ih out₁.1 out₁.2
      (fun x hx => hscan.vis_mono x (hbase x hx))
      (fun e' he' => hent e' (List.mem_cons_of_mem _ he'))
    set out₂ := impactScanAll impVisit node rest out₁.1 out₁.2 with hout₂
    constructor
    · refine ⟨?_, ?_, ?_, ?_, ?_, ?_, ?_⟩
      · exact fun x hx => hrest.vis_mono x (hscan.vis_mono x hx)
      · exact fun x hx => hrest.imp_mono x (hscan.imp_mono x hx)
      · exact fun h => h.elim
      · intro x hx hnx
        by_cases hx₁ : x ∈ out₁.2
        · exact hscan.tg x hx₁ hnx
        · exact hrest.tg x hx hx₁
      · intro x hx hnx u hu
        by_cases hx₁ : x ∈ out₁.1
        · exact hrest.imp_mono u (hscan.closure x hx₁ hnx u hu)
        · exact hrest.closure x hx hx₁ u hu
      · intro x hx hnx
        by_cases hx₁ : x ∈ out₁.2
        · exact hrest.vis_mono _ (hscan.new_imp_vis x hx₁ hnx)
        · exact hrest.new_imp_vis x hx hx₁
      · exact fun h => hrest.nodup (hscan.nodup h)
    · intro frm' es' hmem hp
      rcases List.mem_cons.mp hmem with heq | hm
      · obtain ⟨h1, h2⟩ := Prod.mk.injEq .. ▸ heq
        subst h1
        subst h2
        exact hrest.imp_mono _ (hscan.hits hp)
      · exact hresth frm' es' hm hp

theorem dfsReverseDeps_post (g : DependencyGraph) (hnd : g.nodes.Nodup) :
    ∀ (fuel : Nat) (node : String) (vis imp : List String),
      node ∈ g.nodes → unvisitedCount g vis < fuel →
      ImpactPost g node vis imp (dfsReverseDeps g fuel node vis imp) := by
  intro fuel
  induction fuel with
  | zero =>
    intro node vis imp hmem hbud
    exact absurd hbud (Nat.not_lt_zero _)
  | succ f ih =>
    intro node vis imp hmem hbud
    simp only [dfsReverseDeps]
    by_cases hvis : node ∈ vis
    · rw [if_pos hvis]
      refine ⟨fun x hx => hx, fun x hx => hx, hvis, ?_, ?_, ?_, fun h => h⟩
      · intro x hx hnx
        exact absurd hx hnx
      · intro x hx hnx
        exact absurd hx hnx
      · intro x hx hnx
        exact absurd hx hnx
    · rw [if_neg hvis]
      have hbud' : unvisitedCount g (node :: vis) < f := by
        have := unvisitedCount_lt hmem hvis
        omega
      have Hvisit : ∀ n vis₂ imp₂, n ∈ g.nodes →
          (∀ x ∈ node :: vis, x ∈ vis₂) →
          ImpactPost g n vis₂ imp₂ (dfsReverseDeps g f n vis₂ imp₂) := by
        intro n vis₂ imp₂ hn hsup
        exact ih n vis₂ imp₂ hn
          (Nat.lt_of_le_of_lt (unvisitedCount_mono hsup) hbud')
      obtain ⟨hscan, hhits⟩ := impactScanAll_post g hnd (dfsReverseDeps g f) node
        (node :: vis) Hvisit g.adjacency_list (node :: vis) imp
        (fun x hx => hx) (fun e he => he)
      refine ⟨?_, hscan.imp_mono, ?_, hscan.tg, ?_, hscan.new_imp_vis, hscan.nodup⟩
      · exact fun x hx => hscan.vis_mono x (List.mem_cons_of_mem _ hx)
      · exact hscan.vis_mono node (List.mem_cons_self _ _)
      · intro x hx hnx u hu
        by_cases hxn : x = node
        · subst hxn
          have humem : u ∈ g.nodes := Edge.mem_nodes hu
          obtain ⟨pu, hmemu, hequ⟩ := List.mem_map.mp humem
          obtain ⟨u'', esu⟩ := pu
          simp only [] at hequ
          subst hequ
          have hesu : assocFind u'' g.adjacency_list = some esu :=
            assocFind_of_mem_nodup hnd hmemu
          obtain ⟨m, hm⟩ := hu
          have hmes : (x, m) ∈ esu := by
            unfold DependencyGraph.edgeList at hm
            rw [hesu] at hm
            simpa using hm
          exact hhits u'' esu hmemu ⟨(x, m), hmes, rfl⟩
        · have hx' : x ∉ node :: vis := by
            intro hm
            rcases List.mem_cons.mp hm with heq | hmm
            · exact hxn heq
            · exact hnx hmm
          exact hscan.closure x hx hx' u hu

/-- `find_impact_path` returns exactly the strict ancestors of the target in
the dependency relation (the services from which the target is reachable in
at least one step), without duplicates. -/
theorem find_impact_path_spec (g : DependencyGraph) (hnd : g.nodes.Nodup)
    (t : String) :
    (find_impact_path g t).Nodup ∧
    ∀ u, u ∈ find_impact_path g t ↔ Relation.TransGen (Edge g) u t := by
  have hmain : ∀ (out : List String × List String),
      out = dfsReverseDeps g (g.nodes.length + 2) t [] [] →
      t ∈ out.1 ∧ (∀ x ∈ out.2, Relation.TransGen (Edge g) x t) ∧
      (∀ x ∈ out.1, ∀ u, Edge g u x → u ∈ out.2) ∧
      (∀ x ∈ out.2, x ∈ out.1) ∧ out.2.Nodup := by
    intro out hout
    by_cases htk : t ∈ g.nodes
    · have hbud : unvisitedCount g [] < g.nodes.length + 2 := by
        have : unvisitedCount g [] ≤ g.nodes.length := List.length_filter_le _ _
        omega
      have hpost := dfsReverseDeps_post g hnd (g.nodes.length + 2) t [] [] htk hbud
      rw [← hout] at hpost
      exact ⟨hpost.start_vis,
        fun x hx => hpost.tg x hx (by simp),
        fun x hx u hu => hpost.closure x hx (by simp) u hu,
        fun x hx => hpost.new_imp_vis x hx (by simp),
        hpost.nodup List.nodup_nil⟩
    · -- the target is not a node: unfold one level by hand
      have hbud' : unvisitedCount g (t :: []) < g.nodes.length + 1 := by
        have : unvisitedCount g (t :: []) ≤ g.nodes.length := List.length_filter_le _ _
        omega
      have Hvisit : ∀ n vis₂ imp₂, n ∈ g.nodes →
          (∀ x ∈ t :: ([] : List String), x ∈ vis₂) →
          ImpactPost g n vis₂ imp₂ (dfsReverseDeps g (g.nodes.length + 1) n vis₂ imp₂) := by
        intro n vis₂ imp₂ hn hsup
        exact dfsReverseDeps_post g hnd (g.nodes.length + 1) n vis₂ imp₂ hn
          (Nat.lt_of_le_of_lt (unvisitedCount_mono hsup) hbud')
      obtain ⟨hscan, hhits⟩ := impactScanAll_post g hnd
        (dfsReverseDeps g (g.nodes.length + 1)) t (t :: []) Hvisit
        g.adjacency_list (t :: []) [] (fun x hx => hx) (fun e he => he)
      have hunf : dfsReverseDeps g (g.nodes.length + 2) t [] [] =
          impactScanAll (dfsReverseDeps g (g.nodes.length + 1)) t
            g.adjacency_list (t :: []) [] := by
        show dfsReverseDeps g (g.nodes.length + 1 + 1) t [] [] = _
        simp only [dfsReverseDeps, List.not_mem_nil, if_false]
      rw [hout, hunf]
      refine ⟨?_, ?_, ?_, ?_, ?_⟩
      · exact hscan.vis_mono t (by simp)
      · exact fun x hx => hscan.tg x hx (by simp)
      · intro x hx u hu
        by_cases hxt : x = t
        · subst hxt
          have humem : u ∈ g.nodes := Edge.mem_nodes hu
          obtain ⟨pu, hmemu, hequ⟩ := List.mem_map.mp humem
          obtain ⟨u'', esu⟩ := pu
          simp only [] at hequ
          subst hequ
          have hesu : assocFind u'' g.adjacency_list = some esu :=
            assocFind_of_mem_nodup hnd hmemu
          obtain ⟨m, hm⟩ := hu
          have hmes : (x, m) ∈ esu := by
            unfold DependencyGraph.edgeList at hm
            rw [hesu] at hm
            simpa using hm
          exact hhits u'' esu hmemu ⟨(x, m), hmes, rfl⟩
        · have hx' : x ∉ t :: ([] : List String) := by
            simp [hxt]
          exact hscan.closure x hx hx' u hu
      · exact fun x hx => hscan.new_imp_vis x hx (by simp)
      · exact hscan.nodup List.nodup_nil
  obtain ⟨hstart, hsound, hclosure, hsubvis, hnodup⟩ :=
    hmain (dfsReverseDeps g (g.nodes.length + 2) t [] []) rfl
  refine ⟨hnodup, ?_⟩
  intro u
  constructor
  · intro hu
    exact hsound u hu
  · intro htg
    unfold find_impact_path
    induction htg using Relation.TransGen.head_induction_on with
    | base hstep =>
      rename_i a
      exact hclosure t hstart a hstep
    | ih hstep htg' ihc =>
      rename_i a c
      exact hclosure c (hsubvis c ihc) a hstep

/-! ### Lemmas: short-circuiting of `DependencyManager::validate_dependencies` -/

/-- A dependency that triggers no hard error only extends the warning list. -/
theorem go_skip_of_no_hard (services : RegistryServices) (n : String) {d : Dependency}
    (h : depHardError services d = none) (rest : List Dependency) (ws : List String) :
    ∃ ws', validateDependenciesGo services n (d :: rest) ws =
      validateDependenciesGo services n rest ws' := by
  cases hf : assocFind d.service services with
  | none =>
    simp only [depHardError, hf] at h
    cases hreq : d.required with
    | true => simp only [hreq] at h; simp at h
    | false =>
      simp only [validateDependenciesGo, hf, hreq, Bool.false_eq_true, if_false]
      exact ⟨_, rfl⟩
  | some ds =>
    simp only [depHardError, hf] at h
    cases hvc : d.version_constraint with
    | none =>
      simp only [validateDependenciesGo, hf, hvc]
      exact ⟨ws, rfl⟩
    | some vc =>
      simp only [hvc] at h
      cases hsd : ds.schema_data with
      | none =>
        simp only [hsd] at h
        cases hreq : d.required with
        | true => simp only [hreq] at h; simp at h
        | false =>
          simp only [validateDependenciesGo, hf, hvc, hsd, hreq, Bool.false_eq_true,
            if_false]
          exact ⟨_, rfl⟩
      | some schema =>
        simp only [hsd] at h
        cases hgf : schema.getField "version" with
        | none =>
          simp only [hgf] at h
          cases hreq : d.required with
          | true => simp only [hreq] at h; simp at h
          | false =>
            simp only [validateDependenciesGo, hf, hvc, hsd, hgf, hreq,
              Bool.false_eq_true, if_false]
            exact ⟨_, rfl⟩
        | some vj =>
          simp only [hgf] at h
          cases ha : vj.asStr with
          | none =>
            simp only [ha] at h
            cases hreq : d.required with
            | true => simp only [hreq] at h; simp at h
            | false =>
              simp only [validateDependenciesGo, hf, hvc, hsd, hgf, ha, hreq,
                Bool.false_eq_true, if_false]
              exact ⟨_, rfl⟩
          | some v =>
            simp only [ha] at h
            cases hc : check_version_compatibility v vc with
            | Compatible =>
              simp only [validateDependenciesGo, hf, hvc, hsd, hgf, ha, hc]
              exact ⟨ws, rfl⟩
            | MinorIncompatible =>
              simp only [validateDependenciesGo, hf, hvc, hsd, hgf, ha, hc]
              exact ⟨_, rfl⟩
            | MajorIncompatible =>
              simp only [hc] at h
              cases hreq : d.required with
              | true => simp only [hreq] at h; simp at h
              | false =>
                simp only [validateDependenciesGo, hf, hvc, hsd, hgf, ha, hc, hreq,
                  Bool.false_eq_true, if_false]
                exact ⟨_, rfl⟩

/-- A prefix of hard-error-free dependencies is skipped (warnings aside). -/
theorem go_pre_skip (services : RegistryServices) (n : String) :
    ∀ pre : List Dependency, (∀ d' ∈ pre, depHardError services d' = none) →
      ∀ (rest : List Dependency) (ws : List String),
        ∃ ws', validateDependenciesGo services n (pre ++ rest) ws =
          validateDependenciesGo services n rest ws' := by
  intro pre
  induction pre with
  | nil => exact fun _ rest ws => ⟨ws, rfl⟩
  | cons d' pre ih =>
    intro h rest ws
    obtain ⟨ws₁, h₁⟩ :=
      go_skip_of_no_hard services n (h d' (List.mem_cons_self d' pre)) (pre ++ rest) ws
    obtain ⟨ws₂, h₂⟩ := ih (fun e he => h e (List.mem_cons_of_mem d' he)) rest ws₁
    exact ⟨ws₂, by rw [List.cons_append, h₁, h₂]⟩

/-- A dependency with a hard error aborts the loop with exactly that error,
whatever warnings have accumulated and whatever dependencies follow. -/
theorem go_error_of_hard (services : RegistryServices) (n : String) {d : Dependency}
    {msg : String} (h : depHardError services d = some msg)
    (rest : List Dependency) (ws : List String) :
    validateDependenciesGo services n (d :: rest) ws =
      .error (.ValidationError msg) := by
  cases hf : assocFind d.service services with
  | none =>
    simp only [depHardError, hf] at h
    cases hreq : d.required with
    | false => simp only [hreq] at h; simp at h
    | true =>
      simp only [hreq] at h
      simp only [if_true] at h
      obtain rfl := Option.some.inj h
      simp only [validateDependenciesGo, hf, hreq, if_true]
  | some ds =>
    simp only [depHardError, hf] at h
    cases hvc : d.version_constraint with
    | none => simp only [hvc] at h; simp at h
    | some vc =>
      simp only [hvc] at h
      cases hsd : ds.schema_data with
      | none =>
        simp only [hsd] at h
        cases hreq : d.required with
        | false => simp only [hreq] at h; simp at h
        | true =>
          simp only [hreq] at h
          simp only [if_true] at h
          obtain rfl := Option.some.inj h
          simp only [validateDependenciesGo, hf, hvc, hsd, hreq, if_true]
      | some schema =>
        simp only [hsd] at h
        cases hgf : schema.getField "version" with
        | none =>
          simp only [hgf] at h
          cases hreq : d.required with
          | false => simp only [hreq] at h; simp at h
          | true =>
            simp only [hreq] at h
            simp only [if_true] at h
            obtain rfl := Option.some.inj h
            simp only [validateDependenciesGo, hf, hvc, hsd, hgf, hreq, if_true]
        | some vj =>
          simp only [hgf] at h
          cases ha : vj.asStr with
          | none =>
            simp only [ha] at h
            cases hreq : d.required with
            | false => simp only [hreq] at h; simp at h
            | true =>
              simp only [hreq] at h
              simp only [if_true] at h
              obtain rfl := Option.some.inj h
              simp only [validateDependenciesGo, hf, hvc, hsd, hgf, ha, hreq, if_true]
          | some v =>
            simp only [ha] at h
            cases hc : check_version_compatibility v vc with
            | Compatible => simp only [hc] at h; simp at h
            | MinorIncompatible => simp only [hc] at h; simp at h
            | MajorIncompatible =>
              simp only [hc] at h
              cases hreq : d.required with
              | false => simp only [hreq] at h; simp at h
              | true =>
                simp only [hreq] at h
                simp only [if_true] at h
                obtain rfl := Option.some.inj h
                simp only [validateDependenciesGo, hf, hvc, hsd, hgf, ha, hc, hreq,
                  if_true]

/-- A required dependency absent from the registry is a hard error with the
exact "not found" message. -/
theorem depHardError_missing_required {services : RegistryServices} {d : Dependency}
    (habs : assocFind d.service services = none) (hreq : d.required = true) :
    depHardError services d =
      some ("Required dependency '" ++ d.service ++ "' not found") := by
  simp [depHardError, habs, hreq]

/-- `validate_dependencies` returns exactly the first hard error in declaration
order: everything before it contributes at most warnings, everything after it
is never reached, and the accumulated warnings are dropped. -/
theorem validate_dependencies_first_error {services : RegistryServices}
    {x : String} {sx : Service} {pre post : List Dependency} {d : Dependency}
    {msg : String}
    (hx : assocFind x services = some sx)
    (hdeps : sx.config.dependencies = some (pre ++ d :: post))
    (hpre : ∀ d' ∈ pre, depHardError services d' = none)
    (hd : depHardError services d = some msg) :
    validate_dependencies services x = .error (.ValidationError msg) := by
  simp only [validate_dependencies, hx, hdeps]
  obtain ⟨ws', hws⟩ := go_pre_skip services x pre hpre (d :: post) []
  rw [hws]
  exact go_error_of_hard services x hd post ws'

/-! ### Lemmas: the first pass of `validate_all_services` -/

/-- Each first-pass dependency step either only appends warnings, or flags a
critical error and appends the matching failed entry. -/
theorem firstPassDep_cases (services : RegistryServices) (n : String)
    (st : FirstPassState) (d : Dependency) :
    (∃ wapp, firstPassDep services n st d = (st.1 ++ wapp, st.2.1, st.2.2.1, st.2.2.2)) ∨
    (∃ msg, firstPassDep services n st d = (st.1, true, msg, st.2.2.2 ++ [(n, msg)])) := by
  unfold firstPassDep
  repeat' split
  all_goals
    first
    | exact Or.inl ⟨_, rfl⟩
    | exact Or.inr ⟨_, rfl⟩
    | exact Or.inl ⟨[], by simp⟩

/-- Shape of the whole first-pass fold: warnings and failed entries only grow,
failed entries carry the service's own name, the critical flag is monotone,
and no failed entry is produced unless the flag ends up set. -/
theorem firstPassFold_shape (services : RegistryServices) (n : String) :
    ∀ (deps : List Dependency) (st : FirstPassState),
      ∃ wapp fapp,
        (deps.foldl (firstPassDep services n) st).1 = st.1 ++ wapp ∧
        (deps.foldl (firstPassDep services n) st).2.2.2 = st.2.2.2 ++ fapp ∧
        (∀ p ∈ fapp, p.1 = n) ∧
        (st.2.1 = true → (deps.foldl (firstPassDep services n) st).2.1 = true) ∧
        ((deps.foldl (firstPassDep services n) st).2.1 = false → fapp = []) := by
  intro deps
  induction deps with
  | nil =>
    intro st
    exact ⟨[], [], by simp, by simp, by simp, fun h => h, fun _ => rfl⟩
  | cons d deps ih =>
    intro st
    rcases firstPassDep_cases services n st d with ⟨w, heq⟩ | ⟨msg, heq⟩
    · obtain ⟨wapp, fapp, hw, hf, hfst, hcrit, hnil⟩ :=
        ih (firstPassDep services n st d)
      refine ⟨w ++ wapp, fapp, ?_, ?_, hfst, ?_, ?_⟩
      · rw [List.foldl_cons, hw, heq]; simp
      · rw [List.foldl_cons, hf, heq]
      · intro h
        rw [List.foldl_cons]
        exact hcrit (by rw [heq]; exact h)
      · intro h
        exact hnil (by rw [List.foldl_cons] at h; exact h)
    · obtain ⟨wapp, fapp, hw, hf, hfst, hcrit, hnil⟩ :=
        ih (firstPassDep services n st d)
      refine ⟨wapp, (n, msg) :: fapp, ?_, ?_, ?_, ?_, ?_⟩
      · rw [List.foldl_cons, hw, heq]
      · rw [List.foldl_cons, hf, heq]; simp
      · intro p hp
        rcases List.mem_cons.1 hp with rfl | hp
        · rfl
        · exact hfst p hp
      · intro _
        rw [List.foldl_cons]
        exact hcrit (by rw [heq])
      · intro h
        rw [List.foldl_cons] at h
        rw [hcrit (by rw [heq])] at h
        cases h

/-- First-pass step for a required dependency that is absent from the
registry (`registry/mod.rs`, lines 213-219). -/
theorem firstPassDep_missing_required {services : RegistryServices} {d : Dependency}
    (habs : assocFind d.service services = none) (hreq : d.required = true)
    (n : String) (st : FirstPassState) :
    firstPassDep services n st d =
      (st.1, true, "Required dependency '" ++ d.service ++ "' not found",
        st.2.2.2 ++ [(n, "Required dependency '" ++ d.service ++ "' not found")]) := by
  simp [firstPassDep, habs, hreq]

/-- First-pass step for an optional dependency whose resolved version is
major-incompatible (`registry/mod.rs`, lines 190-206): a warning, no error. -/
theorem firstPassDep_optional_major {services : RegistryServices} {d : Dependency}
    {ds : Service} {vc : String} {schema : JsonValue} {v : String}
    (hf : assocFind d.service services = some ds)
    (hvc : d.version_constraint = some vc)
    (hsd : ds.schema_data = some schema)
    (hver : (schema.getField "version").bind JsonValue.asStr = some v)
    (hc : check_version_compatibility v vc = .MajorIncompatible)
    (hopt : d.required = false)
    (n : String) (st : FirstPassState) :
    firstPassDep services n st d =
      (st.1 ++ ["Optional dependency '" ++ d.service ++
        "' has incompatible version: " ++
        ("Major version incompatibility for dependency '" ++ d.service ++
          "': expected " ++ vc ++ " but found " ++ v)],
        st.2.1, st.2.2.1, st.2.2.2) := by
  simp [firstPassDep, hf, hvc, hsd, hver, hc, hopt]

/-- A required dependency on an absent service makes the first pass flag the
declaring service critical and record the exact failed entry. -/
theorem firstPassService_missing_required {services : RegistryServices}
    {sv : Service} {deps : List Dependency} {d : Dependency}
    (hdeps : sv.config.dependencies = some deps) (hd : d ∈ deps)
    (habs : assocFind d.service services = none) (hreq : d.required = true)
    (n : String) :
    (firstPassService services n sv).2.1 = true ∧
      (n, "Required dependency '" ++ d.service ++ "' not found") ∈
        (firstPassService services n sv).2.2.2 := by
  unfold firstPassService
  rw [hdeps]
  suffices h : ∀ (l : List Dependency) (st : FirstPassState), d ∈ l →
      (l.foldl (firstPassDep services n) st).2.1 = true ∧
        (n, "Required dependency '" ++ d.service ++ "' not found") ∈
          (l.foldl (firstPassDep services n) st).2.2.2 from
    h deps ([], false, "", []) hd
  intro l
  induction l with
  | nil => intro st h; cases h
  | cons e l ih =>
    intro st hmem
    rcases List.mem_cons.1 hmem with rfl | hmem
    · rw [List.foldl_cons, firstPassDep_missing_required habs hreq n st]
      obtain ⟨wapp, fapp, hw, hf, hfst, hcrit, hnil⟩ :=
        firstPassFold_shape services n l
          (st.1, true, "Required dependency '" ++ d.service ++ "' not found",
            st.2.2.2 ++ [(n, "Required dependency '" ++ d.service ++ "' not found")])
      refine ⟨hcrit rfl, ?_⟩
      rw [hf]
      exact List.mem_append_left _ (List.mem_append_right _ (List.mem_singleton.2 rfl))
    · exact ih (firstPassDep services n st e) hmem

/-- An optional major-incompatible dependency makes the first pass record the
exact warning for the declaring service. -/
theorem firstPassService_optional_major {services : RegistryServices}
    {sv : Service} {deps : List Dependency} {d : Dependency}
    {ds : Service} {vc : String} {schema : JsonValue} {v : String}
    (hdeps : sv.config.dependencies = some deps) (hd : d ∈ deps)
    (hf : assocFind d.service services = some ds)
    (hvc : d.version_constraint = some vc)
    (hsd : ds.schema_data = some schema)
    (hver : (schema.getField "version").bind JsonValue.asStr = some v)
    (hc : check_version_compatibility v vc = .MajorIncompatible)
    (hopt : d.required = false)
    (n : String) :
    ("Optional dependency '" ++ d.service ++ "' has incompatible version: " ++
      ("Major version incompatibility for dependency '" ++ d.service ++
        "': expected " ++ vc ++ " but found " ++ v)) ∈
      (firstPassService services n sv).1 := by
  unfold firstPassService
  rw [hdeps]
  suffices h : ∀ (l : List Dependency) (st : FirstPassState), d ∈ l →
      ("Optional dependency '" ++ d.service ++ "' has incompatible version: " ++
        ("Major version incompatibility for dependency '" ++ d.service ++
          "': expected " ++ vc ++ " but found " ++ v)) ∈
        (l.foldl (firstPassDep services n) st).1 from
    h deps ([], false, "", []) hd
  intro l
  induction l with
  | nil => intro st h; cases h
  | cons e l ih =>
    intro st hmem
    rcases List.mem_cons.1 hmem with rfl | hmem
    · rw [List.foldl_cons, firstPassDep_optional_major hf hvc hsd hver hc hopt n st]
      obtain ⟨wapp, fapp, hw, hfl, hfst, hcrit, hnil⟩ :=
        firstPassFold_shape services n l _
      rw [hw]
      exact List.mem_append_left _ (List.mem_append_right _ (List.mem_singleton.2 rfl))
    · exact ih (firstPassDep services n st e) hmem

/-- If a service's first pass ends without a critical error, it produced no
failed entries. -/
theorem firstPassService_crit_false_failed_nil {services : RegistryServices}
    {sv : Service} {n : String}
    (h : (firstPassService services n sv).2.1 = false) :
    (firstPassService services n sv).2.2.2 = [] := by
  unfold firstPassService at h ⊢
  cases hdeps : sv.config.dependencies with
  | none => rfl
  | some deps =>
    rw [hdeps] at h
    simp only [] at h ⊢
    obtain ⟨wapp, fapp, hw, hf, hfst, hcrit, hnil⟩ :=
      firstPassFold_shape services n deps ([], false, "", [])
    rw [hf, hnil h]
    rfl

/-- Every failed entry the first pass produces names the service itself. -/
theorem firstPassService_failed_fst (services : RegistryServices) (n : String)
    (sv : Service) :
    ∀ p ∈ (firstPassService services n sv).2.2.2, p.1 = n := by
  unfold firstPassService
  cases hdeps : sv.config.dependencies with
  | none => intro p hp; cases hp
  | some deps =>
    obtain ⟨wapp, fapp, hw, hf, hfst, hcrit, hnil⟩ :=
      firstPassFold_shape services n deps ([], false, "", [])
    rw [hf]
    intro p hp
    exact hfst p (by simpa using hp)

/-! ### Lemmas: `ValidationSummary` warnings -/

theorem add_warning_failed (s : ValidationSummary) (n w : String) :
    (s.add_warning n w).failed = s.failed := rfl

theorem add_warning_successful (s : ValidationSummary) (n w : String) :
    (s.add_warning n w).successful = s.successful := rfl

/-- `warnAdd` appends the warning to the key's (possibly fresh) list. -/
theorem warnAdd_self (ws : List (String × List String)) (n w : String) :
    assocFind n (warnAdd ws n w) = some ((assocFind n ws).getD [] ++ [w]) := by
  unfold warnAdd
  cases hf : assocFind n ws with
  | none =>
    simp only []
    rw [assocFind_append, hf]
    simp [assocFind]
  | some l =>
    simp only []
    rw [assocFind_modify_self, hf]
    rfl

/-- `warnAdd` leaves other keys untouched. -/
theorem warnAdd_other {y n : String} (hne : y ≠ n) (ws : List (String × List String))
    (w : String) : assocFind y (warnAdd ws n w) = assocFind y ws := by
  unfold warnAdd
  cases hf : assocFind n ws with
  | none =>
    simp only []
    rw [assocFind_append]
    cases hy : assocFind y ws with
    | some l => rfl
    | none => simp [assocFind, hne]
  | some l =>
    simp only []
    exact assocFind_modify_ne hne _ ws

/-- Recorded warnings survive further `add_warning` calls. -/
theorem warnMem_add {s : ValidationSummary} {y w : String} (h : WarnMem s y w)
    (n w' : String) : WarnMem (s.add_warning n w') y w := by
  obtain ⟨l, hl, hw⟩ := h
  by_cases hy : y = n
  · subst hy
    refine ⟨(assocFind y s.warnings).getD [] ++ [w'], ?_, ?_⟩
    · exact warnAdd_self s.warnings y w'
    · rw [hl]
      exact List.mem_append_left _ hw
  · exact ⟨l, by rw [ValidationSummary.add_warning] at *; exact (warnAdd_other hy _ _).trans hl, hw⟩

/-- `add_warning` indeed records the warning. -/
theorem warnMem_add_self (s : ValidationSummary) (y w : String) :
    WarnMem (s.add_warning y w) y w :=
  ⟨_, warnAdd_self s.warnings y w, List.mem_append_right _ (List.mem_singleton.2 rfl)⟩

/-- Folding `add_warning` preserves recorded warnings. -/
theorem warnMem_fold {y w : String} :
    ∀ (l : List String) (n : String) (s : ValidationSummary), WarnMem s y w →
      WarnMem (l.foldl (fun s' w' => s'.add_warning n w') s) y w := by
  intro l
  induction l with
  | nil => exact fun n s h => h
  | cons a l ih => exact fun n s h => ih n (s.add_warning n a) (warnMem_add h n a)

/-- Folding `add_warning` over a list records each of its members. -/
theorem warnMem_fold_mem {y w : String} :
    ∀ (l : List String), w ∈ l → ∀ s : ValidationSummary,
      WarnMem (l.foldl (fun s' w' => s'.add_warning y w') s) y w := by
  intro l
  induction l with
  | nil => intro h; cases h
  | cons a l ih =>
    intro hmem s
    rcases List.mem_cons.1 hmem with rfl | hmem
    · exact warnMem_fold l y (s.add_warning y w) (warnMem_add_self s y w)
    · exact ih hmem (s.add_warning y a)

/-- Folding `add_warning` never touches `failed` or `successful`. -/
theorem fold_add_warning_failed (n : String) :
    ∀ (l : List String) (s : ValidationSummary),
      ((l.foldl (fun s' w' => s'.add_warning n w') s).failed = s.failed ∧
        (l.foldl (fun s' w' => s'.add_warning n w') s).successful = s.successful) := by
  intro l
  induction l with
  | nil => exact fun s => ⟨rfl, rfl⟩
  | cons a l ih => exact fun s => ih (s.add_warning n a)

/-! ### Lemmas: the second pass of `validate_all_services` -/

/-- `validate_all_services` is the second pass run from the first pass's
summary, statuses and error set. -/
theorem validate_all_services_eq (sv : JsonValue → Except (List String) Unit)
    (ld : Service → Except AureaCoreError JsonValue) (services : RegistryServices) :
    validate_all_services sv ld services =
      secondPass sv ld (services.map Prod.fst) (errSetOf services)
        (servicesFirst services) (summaryFirst services) [] := rfl

/-- `secondPassItem` only appends its own name to `failed`/`successful` and
only adds warnings. -/
theorem secondPassItem_spec (sv : JsonValue → Except (List String) Unit)
    (names : List String) (n : String) (svc : Service) (d : JsonValue)
    (s : ValidationSummary) :
    (∃ fapp, (secondPassItem sv names n svc d s).1.failed = s.failed ++ fapp ∧
      ∀ p ∈ fapp, p.1 = n) ∧
    (∃ sapp, (secondPassItem sv names n svc d s).1.successful = s.successful ++ sapp ∧
      ∀ y ∈ sapp, y = n) ∧
    (∀ y w, WarnMem s y w → WarnMem (secondPassItem sv names n svc d s).1 y w) := by
  unfold secondPassItem
  obtain ⟨hfd, hsc⟩ := fold_add_warning_failed n
    (validate_service_with_context sv n d names).2 s
  cases hr : (validate_service_with_context sv n d names).1 with
  | ok u =>
    simp only [hr]
    refine ⟨⟨[], by simp [hfd], by simp⟩, ⟨[n], by simp [hsc], by simp⟩, ?_⟩
    intro y w h
    exact warnMem_fold _ n s h
  | error err =>
    simp only [hr]
    refine ⟨⟨[(n, err.toMessage)], by simp [hfd], by simp⟩,
      ⟨[], by simp [hsc], by simp⟩, ?_⟩
    intro y w h
    exact warnMem_fold _ n s h

/-- `secondPassItem` on a service whose context validation succeeds: the name
is appended to `successful`, `failed` is untouched, and the service comes back
`Active` carrying the run's warnings. -/
theorem secondPassItem_ok {sv : JsonValue → Except (List String) Unit}
    {names : List String} {n : String} {d : JsonValue}
    (h : (validate_service_with_context sv n d names).1 = .ok ())
    (svc : Service) (s : ValidationSummary) :
    (secondPassItem sv names n svc d s).1.successful = s.successful ++ [n] ∧
    (secondPassItem sv names n svc d s).1.failed = s.failed ∧
    (secondPassItem sv names n svc d s).2 =
      { svc with status := ((ServiceStatus.new .Active).with_warnings
          (validate_service_with_context sv n d names).2) } := by
  unfold secondPassItem
  obtain ⟨hfd, hsc⟩ := fold_add_warning_failed n
    (validate_service_with_context sv n d names).2 s
  simp only [h]
  refine ⟨?_, ?_, ?_⟩
  · simp [hsc]
  · simp [hfd]
  · trivial

/-- Master decomposition of a successful `secondPass` run: `failed` and
`successful` grow only by entries of processed, unskipped services; the
output map appends one entry per input entry with the same key, keeping
skipped entries untouched; recorded warnings persist. -/
theorem secondPass_spec (sv : JsonValue → Except (List String) Unit)
    (ld : Service → Except AureaCoreError JsonValue)
    (names : List String) (errSet : List String) :
    ∀ (items : List (String × Service)) (summary : ValidationSummary)
      (acc : RegistryServices) {s' : ValidationSummary} {acc' : RegistryServices},
      secondPass sv ld names errSet items summary acc = .ok (s', acc') →
      (∃ fapp, s'.failed = summary.failed ++ fapp ∧
        ∀ p ∈ fapp, p.1 ∈ items.map Prod.fst ∧ p.1 ∉ errSet) ∧
      (∃ sapp, s'.successful = summary.successful ++ sapp ∧
        ∀ y ∈ sapp, y ∈ items.map Prod.fst ∧ y ∉ errSet) ∧
      (∃ out, acc' = acc ++ out ∧ out.map Prod.fst = items.map Prod.fst ∧
        ∀ e ∈ items, e.1 ∈ errSet → e ∈ out) ∧
      (∀ y w, WarnMem summary y w → WarnMem s' y w) := by
  intro items
  induction items with
  | nil =>
    intro summary acc s' acc' h
    simp only [secondPass] at h
    obtain ⟨h1, h2⟩ := Prod.mk.injEq .. ▸ Except.ok.inj h
    subst h1; subst h2
    exact ⟨⟨[], by simp, by simp⟩, ⟨[], by simp, by simp⟩,
      ⟨[], by simp, by simp, by simp⟩, fun _ _ h => h⟩
  | cons e items ih =>
    intro summary acc s' acc' h
    rw [secondPass] at h
    by_cases he : e.1 ∈ errSet
    · rw [if_pos he] at h
      obtain ⟨⟨fapp, hf, hfp⟩, ⟨sapp, hs, hsp⟩, ⟨out, hacc, hout, hskip⟩, hwm⟩ :=
        ih summary (acc ++ [e]) h
      refine ⟨⟨fapp, hf, fun p hp => ⟨List.mem_cons_of_mem _ (hfp p hp).1, (hfp p hp).2⟩⟩,
        ⟨sapp, hs, fun y hy => ⟨List.mem_cons_of_mem _ (hsp y hy).1, (hsp y hy).2⟩⟩,
        ⟨e :: out, by rw [hacc]; simp, by simp [hout], ?_⟩, hwm⟩
      intro e' he' _
      rcases List.mem_cons.1 he' with rfl | he'
      · exact List.mem_cons_self _ _
      · exact List.mem_cons_of_mem _ (hskip e' he' ‹e'.1 ∈ errSet›)
    · rw [if_neg he] at h
      have hstep : ∀ (d : JsonValue) (svc : Service),
          secondPass sv ld names errSet items
            (secondPassItem sv names e.1 svc d summary).1
            (acc ++ [(e.1, (secondPassItem sv names e.1 svc d summary).2)]) =
            .ok (s', acc') →
          (∃ fapp, s'.failed = summary.failed ++ fapp ∧
            ∀ p ∈ fapp, p.1 ∈ (e :: items).map Prod.fst ∧ p.1 ∉ errSet) ∧
          (∃ sapp, s'.successful = summary.successful ++ sapp ∧
            ∀ y ∈ sapp, y ∈ (e :: items).map Prod.fst ∧ y ∉ errSet) ∧
          (∃ out, acc' = acc ++ out ∧ out.map Prod.fst = (e :: items).map Prod.fst ∧
            ∀ e' ∈ (e :: items), e'.1 ∈ errSet → e' ∈ out) ∧
          (∀ y w, WarnMem summary y w → WarnMem s' y w) := by
        intro d svc hrun
        obtain ⟨⟨fapp₀, hf₀, hfp₀⟩, ⟨sapp₀, hs₀, hsp₀⟩, hwm₀⟩ :=
          secondPassItem_spec sv names e.1 svc d summary
        obtain ⟨⟨fapp, hf, hfp⟩, ⟨sapp, hs, hsp⟩, ⟨out, hacc, hout, hskip⟩, hwm⟩ :=
          ih _ _ hrun
        refine ⟨⟨fapp₀ ++ fapp, ?_, ?_⟩, ⟨sapp₀ ++ sapp, ?_, ?_⟩,
          ⟨(e.1, (secondPassItem sv names e.1 svc d summary).2) :: out,
            by rw [hacc]; simp, by simp [hout], ?_⟩, ?_⟩
        · rw [hf, hf₀, List.append_assoc]
        · intro p hp
          rcases List.mem_append.1 hp with hp | hp
          · exact ⟨by rw [hfp₀ p hp]; exact List.mem_cons_self _ _,
              by rw [hfp₀ p hp]; exact he⟩
          · exact ⟨List.mem_cons_of_mem _ (hfp p hp).1, (hfp p hp).2⟩
        · rw [hs, hs₀, List.append_assoc]
        · intro y hy
          rcases List.mem_append.1 hy with hy | hy
          · exact ⟨by rw [hsp₀ y hy]; exact List.mem_cons_self _ _,
              by rw [hsp₀ y hy]; exact he⟩
          · exact ⟨List.mem_cons_of_mem _ (hsp y hy).1, (hsp y hy).2⟩
        · intro e' he' herr
          rcases List.mem_cons.1 he' with rfl | he'
          · exact absurd herr he
          · exact List.mem_cons_of_mem _ (hskip e' he' herr)
        · exact fun y w hw => hwm y w (hwm₀ y w hw)
      cases hsd : e.2.schema_data with
      | some d =>
        rw [hsd] at h
        exact hstep d e.2 h
      | none =>
        rw [hsd] at h
        cases hld : ld e.2 with
        | error err => rw [hld] at h; cases h
        | ok d =>
          rw [hld] at h
          exact hstep d { e.2 with schema_data := some d } h

/-- A service that is not skipped, whose schema data is loaded and whose
context validation succeeds, ends a successful `secondPass` run in
`successful`, gains no failed entries of its own, and comes out `Active`. -/
theorem secondPass_item_ok (sv : JsonValue → Except (List String) Unit)
    (ld : Service → Except AureaCoreError JsonValue)
    (names errSet : List String) :
    ∀ (items : List (String × Service)) (summary : ValidationSummary)
      (acc : RegistryServices) {s' : ValidationSummary} {acc' : RegistryServices},
      secondPass sv ld names errSet items summary acc = .ok (s', acc') →
      (items.map Prod.fst).Nodup →
      ∀ {y : String} {sy : Service} {d : JsonValue},
        (y, sy) ∈ items → y ∉ errSet → sy.schema_data = some d →
        (validate_service_with_context sv y d names).1 = .ok () →
        y ∈ s'.successful ∧
        (∀ m, (y, m) ∈ s'.failed → (y, m) ∈ summary.failed) ∧
        (y, { sy with status := ((ServiceStatus.new .Active).with_warnings
          (validate_service_with_context sv y d names).2) }) ∈ acc' := by
  intro items
  induction items with
  | nil =>
    intro summary acc s' acc' h hnd y sy d hmem
    cases hmem
  | cons e items ih =>
    intro summary acc s' acc' h hnd y sy d hmem hyerr hsd hok
    rw [secondPass] at h
    rcases List.mem_cons.1 hmem with heq | hmem
    · obtain rfl : e = (y, sy) := heq.symm
      rw [if_neg hyerr] at h
      simp only [hsd] at h
      obtain ⟨hsucc, hfail, hsvc⟩ := secondPassItem_ok hok sy summary
      obtain ⟨⟨fapp, hf, hfp⟩, ⟨sapp, hs, hsp⟩, ⟨out, hacc, hout, hskip⟩, hwm⟩ :=
        secondPass_spec sv ld names errSet items _ _ h
      refine ⟨?_, ?_, ?_⟩
      · rw [hs, hsucc]
        exact List.mem_append_left _
          (List.mem_append_right _ (List.mem_singleton.2 rfl))
      · intro m hm
        rw [hf, hfail] at hm
        rcases List.mem_append.1 hm with hm | hm
        · exact hm
        · exact absurd ((hfp (y, m) hm).1) (List.nodup_cons.1 hnd).1
      · rw [hacc, ← hsvc]
        exact List.mem_append_left _
          (List.mem_append_right _ (List.mem_singleton.2 rfl))
    · have hyin : y ∈ items.map Prod.fst := List.mem_map.2 ⟨(y, sy), hmem, rfl⟩
      have hyne : e.1 ≠ y := fun hc => (List.nodup_cons.1 hnd).1 (hc ▸ hyin)
      by_cases he : e.1 ∈ errSet
      · rw [if_pos he] at h
        exact ih summary (acc ++ [e]) h (List.nodup_cons.1 hnd).2 hmem hyerr hsd hok
      · rw [if_neg he] at h
        have hmid : ∀ (d₀ : JsonValue) (svc₀ : Service),
            secondPass sv ld names errSet items
              (secondPassItem sv names e.1 svc₀ d₀ summary).1
              (acc ++ [(e.1, (secondPassItem sv names e.1 svc₀ d₀ summary).2)]) =
              .ok (s', acc') →
            y ∈ s'.successful ∧
            (∀ m, (y, m) ∈ s'.failed → (y, m) ∈ summary.failed) ∧
            (y, { sy with status := ((ServiceStatus.new .Active).with_warnings
              (validate_service_with_context sv y d names).2) }) ∈ acc' := by
          intro d₀ svc₀ hrun
          obtain ⟨hsucc, hfailm, hin⟩ :=
            ih _ _ hrun (List.nodup_cons.1 hnd).2 hmem hyerr hsd hok
          refine ⟨hsucc, ?_, hin⟩
          intro m hm
          obtain ⟨⟨fapp₀, hf₀, hfp₀⟩, _, _⟩ :=
            secondPassItem_spec sv names e.1 svc₀ d₀ summary
          have := hfailm m hm
          rw [hf₀] at this
          rcases List.mem_append.1 this with hmm | hmm
          · exact hmm
          · exact absurd (hfp₀ (y, m) hmm).symm hyne
        cases hsd' : e.2.schema_data with
        | some d₀ =>
          rw [hsd'] at h
          exact hmid d₀ e.2 h
        | none =>
          rw [hsd'] at h
          cases hld : ld e.2 with
          | error err => rw [hld] at h; cases h
          | ok d₀ =>
            rw [hld] at h
            exact hmid d₀ { e.2 with schema_data := some d₀ } h

/-! ### Lemmas: assembling the first pass -/

theorem fpList_mem {services : RegistryServices} {x : String} {sx : Service}
    (h : (x, sx) ∈ services) :
    (x, firstPassService services x sx) ∈ fpList services :=
  List.mem_map.2 ⟨(x, sx), h, rfl⟩

/-- With unique keys, the first-pass entry of a registered service is its own
first-pass result. -/
theorem fpList_eq_of_nodup {services : RegistryServices}
    (hnd : (services.map Prod.fst).Nodup) {y : String} {st : FirstPassState}
    (h : (y, st) ∈ fpList services) {sy : Service}
    (hy : assocFind y services = some sy) :
    st = firstPassService services y sy := by
  obtain ⟨e, he, heq⟩ := List.mem_map.1 h
  obtain ⟨h1, h2⟩ := Prod.mk.injEq .. ▸ heq
  subst h2
  have := assocFind_of_mem_nodup hnd he
  rw [h1, hy] at this
  rw [← h1, Option.some.inj this]

theorem errSetOf_mem {services : RegistryServices} {x : String} {st : FirstPassState}
    (hmem : (x, st) ∈ fpList services) (hcrit : st.2.1 = true) :
    x ∈ errSetOf services := by
  unfold errSetOf servicesWithErrors
  exact List.mem_map.2 ⟨(x, st.2.2.1),
    List.mem_map.2 ⟨(x, st), List.mem_filter.2 ⟨hmem, hcrit⟩, rfl⟩, rfl⟩

theorem errSetOf_not_mem {services : RegistryServices}
    (hnd : (services.map Prod.fst).Nodup) {y : String} {sy : Service}
    (hy : assocFind y services = some sy)
    (hcrit : (firstPassService services y sy).2.1 = false) :
    y ∉ errSetOf services := by
  intro hmem
  unfold errSetOf servicesWithErrors at hmem
  obtain ⟨q, hq, hq1⟩ := List.mem_map.1 hmem
  obtain ⟨r, hr, hrq⟩ := List.mem_map.1 hq
  obtain ⟨hrf, hrc⟩ := List.mem_filter.1 hr
  have hr1 : r.1 = y := by rw [← hq1, ← hrq]
  have hrf' : (y, r.2) ∈ fpList services := by rw [← hr1]; exact hrf
  have hfix : r.2 = firstPassService services y sy := fpList_eq_of_nodup hnd hrf' hy
  rw [hfix, hcrit] at hrc
  cases hrc

theorem failedFirst_mem {services : RegistryServices} {x : String}
    {st : FirstPassState} (hmem : (x, st) ∈ fpList services)
    {p : String × String} (hp : p ∈ st.2.2.2) : p ∈ failedFirst services := by
  unfold failedFirst
  exact List.mem_flatten.2 ⟨st.2.2.2, List.mem_map.2 ⟨(x, st), hmem, rfl⟩, hp⟩

/-- A first-pass failed entry for `y` comes from `y`'s own first-pass state. -/
theorem failedFirst_src {services : RegistryServices} {y m : String}
    (h : (y, m) ∈ failedFirst services) :
    ∃ st, (y, st) ∈ fpList services ∧ (y, m) ∈ st.2.2.2 := by
  unfold failedFirst at h
  obtain ⟨l, hl, hmem⟩ := List.mem_flatten.1 h
  obtain ⟨r, hr, rfl⟩ := List.mem_map.1 hl
  obtain ⟨e, he, rfl⟩ := List.mem_map.1 hr
  have h1 : y = e.1 :=
    firstPassService_failed_fst services e.1 e.2 (y, m) hmem
  refine ⟨firstPassService services e.1 e.2, ?_, hmem⟩
  rw [h1]
  exact List.mem_map.2 ⟨e, he, rfl⟩

theorem dependencyWarnings_mem {services : RegistryServices} {x : String}
    {st : FirstPassState} (hmem : (x, st) ∈ fpList services) {w : String}
    (hw : w ∈ st.1) : (x, st.1) ∈ dependencyWarnings services := by
  unfold dependencyWarnings
  have hne : st.1.isEmpty = false := by
    cases hst : st.1 with
    | nil => rw [hst] at hw; cases hw
    | cons a t => rfl
  exact List.mem_map.2 ⟨(x, st), List.mem_filter.2 ⟨hmem, by rw [hne]; rfl⟩, rfl⟩

/-- Folding the per-service warning lists never touches `failed` or
`successful`. -/
theorem fold2_add_warning (l : List (String × List String)) :
    ∀ s : ValidationSummary,
      ((l.foldl (fun s r => r.2.foldl (fun s' w => s'.add_warning r.1 w) s) s).failed =
        s.failed ∧
       (l.foldl (fun s r => r.2.foldl (fun s' w => s'.add_warning r.1 w) s) s).successful =
        s.successful) := by
  induction l with
  | nil => exact fun s => ⟨rfl, rfl⟩
  | cons r l ih =>
    intro s
    obtain ⟨h1, h2⟩ := fold_add_warning_failed r.1 r.2 s
    obtain ⟨h3, h4⟩ := ih (r.2.foldl (fun s' w => s'.add_warning r.1 w) s)
    exact ⟨h3.trans h1, h4.trans h2⟩

/-- Folding the per-service warning lists preserves recorded warnings. -/
theorem warnMem_fold2 {y w : String} (l : List (String × List String)) :
    ∀ {s : ValidationSummary}, WarnMem s y w →
      WarnMem (l.foldl (fun s r => r.2.foldl (fun s' w' => s'.add_warning r.1 w') s) s)
        y w := by
  induction l with
  | nil => exact fun h => h
  | cons r l ih =>
    intro s h
    exact ih (warnMem_fold r.2 r.1 s h)

/-- Folding the per-service warning lists records each listed warning. -/
theorem warnMem_fold2_mem {y w : String} {ws_y : List String} (hw : w ∈ ws_y) :
    ∀ (l : List (String × List String)), (y, ws_y) ∈ l →
      ∀ s : ValidationSummary,
        WarnMem (l.foldl (fun s r => r.2.foldl (fun s' w' => s'.add_warning r.1 w') s) s)
          y w := by
  intro l
  induction l with
  | nil => intro h; cases h
  | cons r l ih =>
    intro hmem s
    rcases List.mem_cons.1 hmem with heq | hmem
    · obtain rfl : r = (y, ws_y) := heq.symm
      exact warnMem_fold2 l (warnMem_fold_mem ws_y hw s)
    · exact ih hmem _

theorem summaryFirst_failed (services : RegistryServices) :
    (summaryFirst services).failed = failedFirst services := by
  unfold summaryFirst
  obtain ⟨h1, _⟩ := fold2_add_warning (dependencyWarnings services) _
  rw [h1]
  cases detect_cycles (buildDependencyGraphReg services) <;> rfl

theorem summaryFirst_successful (services : RegistryServices) :
    (summaryFirst services).successful = [] := by
  unfold summaryFirst
  obtain ⟨_, h2⟩ := fold2_add_warning (dependencyWarnings services) _
  rw [h2]
  cases detect_cycles (buildDependencyGraphReg services) <;> rfl

theorem summaryFirst_warnMem {services : RegistryServices} {y w : String}
    {ws_y : List String} (hentry : (y, ws_y) ∈ dependencyWarnings services)
    (hw : w ∈ ws_y) : WarnMem (summaryFirst services) y w := by
  unfold summaryFirst
  exact warnMem_fold2_mem hw (dependencyWarnings services) hentry _

/-- A service flagged by the first pass appears in `servicesFirst` with an
`Error` status. -/
theorem servicesFirst_mem_err {services : RegistryServices} {x : String}
    {sx : Service} (hx : (x, sx) ∈ services) (herr : x ∈ errSetOf services) :
    ∃ msg, (x, { sx with status := ((ServiceStatus.new .Error).with_error msg) }) ∈
      servicesFirst services := by
  have hsome : (assocFind x (servicesWithErrors services)).isSome :=
    assocFind_isSome_iff.2 herr
  obtain ⟨msg, hmsg⟩ := Option.isSome_iff_exists.1 hsome
  refine ⟨msg, List.mem_map.2 ⟨(x, sx), hx, ?_⟩⟩
  simp only [hmsg]

/-- A service not flagged by the first pass appears unchanged in
`servicesFirst`. -/
theorem servicesFirst_mem_ok {services : RegistryServices} {y : String}
    {sy : Service} (hy : (y, sy) ∈ services) (hok : y ∉ errSetOf services) :
    (y, sy) ∈ servicesFirst services := by
  have hnone : assocFind y (servicesWithErrors services) = none :=
    assocFind_eq_none hok
  refine List.mem_map.2 ⟨(y, sy), hy, ?_⟩
  simp only [hnone]

theorem servicesFirst_map_fst (services : RegistryServices) :
    (servicesFirst services).map Prod.fst = services.map Prod.fst := by
  unfold servicesFirst
  rw [List.map_map]
  apply List.map_congr_left
  intro e he
  cases h : assocFind e.1 (servicesWithErrors services) <;> simp [h]

/-! ### Lemmas: substring checker -/

theorem startsWithCL_append (pat rest : List Char) :
    startsWithCL (pat ++ rest) pat = true := by
  induction pat with
  | nil => cases rest <;> rfl
  | cons p ps ih => simp [startsWithCL, ih]

theorem hasSubCL_cons (c : Char) (cs pat : List Char) :
    hasSubCL (c :: cs) pat = (startsWithCL (c :: cs) pat || hasSubCL cs pat) := rfl

/-- A contiguous occurrence makes `hasSubCL` true. -/
theorem hasSubCL_of_append : ∀ (a pat b : List Char),
    hasSubCL (a ++ pat ++ b) pat = true := by
  intro a pat b
  induction a with
  | nil =>
    simp only [List.nil_append]
    cases pat with
    | nil =>
      cases b with
      | nil => rfl
      | cons c cs => rw [List.nil_append, hasSubCL_cons]; simp [startsWithCL]
    | cons p ps =>
      rw [show (p :: ps) ++ b = p :: (ps ++ b) from rfl, hasSubCL_cons,
        show p :: (ps ++ b) = (p :: ps) ++ b from rfl, startsWithCL_append]
      simp
  | cons c a ih =>
    simp only [List.cons_append]
    rw [hasSubCL_cons, ih]
    simp

/-- Removing a key from a unique-key association list makes it unfindable. -/
theorem assocFind_assocRemove_self {α : Type} {k : String} :
    ∀ {l : List (String × α)}, (l.map Prod.fst).Nodup →
      assocFind k (assocRemove k l) = none := by
  intro l
  induction l with
  | nil => intro _; rfl
  | cons e rest ih =>
    obtain ⟨k', v⟩ := e
    intro hnd
    unfold assocRemove
    by_cases hk : k = k'
    · rw [if_pos hk]
      apply assocFind_eq_none
      rw [hk]
      exact (List.nodup_cons.1 (by simpa using hnd)).1
    · rw [if_neg hk]
      unfold assocFind
      rw [if_neg hk]
      exact ih (List.nodup_cons.1 (by simpa using hnd)).2

/-! ### The claims -/

/-- C1: whenever `resolve_order` returns an order (in particular on every
acyclic graph and root set), every edge of the reachable subgraph from a
dependent `u` to a dependency `v` places the dependency at a strictly smaller
position of the returned list: dependencies come first. -/
theorem C1_resolve_order_dependencies_first {g : DependencyGraph}
    {roots l : List String} (h : resolve_order g roots = .ok l) :
    ∀ u v, Edge (g.get_subgraph roots) u v →
      v ∈ l ∧ u ∈ l ∧ l.indexOf v < l.indexOf u :=
  (resolve_order_ok_spec h).2.2

theorem C1_witness :
    ("C" : String) ∈ ["D", "C", "B", "A"] ∧ ("B" : String) ∈ ["D", "C", "B", "A"] ∧
      (["D", "C", "B", "A"] : List String).indexOf "C" <
        (["D", "C", "B", "A"] : List String).indexOf "B" := by
  have h := @C1_resolve_order_dependencies_first gChain ["A"] ["D", "C", "B", "A"] rfl
  have he : Edge (gChain.get_subgraph ["A"]) "B" "C" := ⟨⟨true, none⟩, by decide⟩
  exact h "B" "C" he

/-- C2: `detect_cycles` returns `some` exactly when the graph has a directed
cycle; the reported cycle path is nonempty and closed (its head equals its
last element); and `resolve_order` over a root set from which a cycle is
reachable fails with a circular-dependency error. -/
theorem C2_detect_cycles_iff_and_cycle_error (g : DependencyGraph) :
    ((detect_cycles g).isSome ↔ hasCycle g) ∧
    (∀ info, detect_cycles g = some info →
      info.cycle_path ≠ [] ∧ info.cycle_path.head? = info.cycle_path.getLast?) ∧
    (∀ roots, (∃ r ∈ roots, ∃ v, Reaches g r v ∧ Relation.TransGen (Edge g) v v) →
      ∃ msg, resolve_order g roots = .error (.CircularDependency msg)) :=
  ⟨detect_cycles_isSome_iff g, fun _ h => detect_cycles_path_closed h,
    fun _ h => resolve_order_cycle_error h⟩

theorem C2_witness :
    hasCycle gCycle3 ∧
    ((["X", "Y", "Z", "X"] : List String) ≠ [] ∧
      (["X", "Y", "Z", "X"] : List String).head? =
        (["X", "Y", "Z", "X"] : List String).getLast?) ∧
    ∃ msg, resolve_order gCycle3 ["X"] = .error (.CircularDependency msg) := by
  have h := C2_detect_cycles_iff_and_cycle_error gCycle3
  have e1 : Edge gCycle3 "X" "Y" := ⟨⟨true, none⟩, by decide⟩
  have e2 : Edge gCycle3 "Y" "Z" := ⟨⟨true, none⟩, by decide⟩
  have e3 : Edge gCycle3 "Z" "X" := ⟨⟨true, none⟩, by decide⟩
  have htg : Relation.TransGen (Edge gCycle3) "X" "X" :=
    Relation.TransGen.head e1 (Relation.TransGen.head e2 (Relation.TransGen.single e3))
  exact ⟨h.1.mp (by rfl), h.2.1 _ rfl,
    h.2.2 ["X"] ⟨"X", by decide, "X", Relation.ReflTransGen.refl, htg⟩⟩

/-- C3: whenever `resolve_order` succeeds, the returned names are exactly the
transitive closure of the roots under outgoing edges, without duplicates; on
the empty root list it returns `[]`; and on a single registered node with no
outgoing edges it returns exactly that node. -/
theorem C3_resolve_order_closure (g : DependencyGraph) :
    (∀ roots l, resolve_order g roots = .ok l →
      l.Nodup ∧ ∀ x, x ∈ l ↔ ∃ r ∈ roots, Reaches g r x) ∧
    resolve_order g [] = .ok [] ∧
    (∀ v, assocFind v g.adjacency_list = some [] →
      resolve_order g [v] = .ok [v]) := by
  refine ⟨fun roots l h => ⟨(resolve_order_ok_spec h).1, (resolve_order_ok_spec h).2.1⟩,
    rfl, ?_⟩
  intro v hv
  have hsub : g.get_subgraph [v] = ⟨[(v, [])]⟩ := by
    unfold DependencyGraph.get_subgraph
    simp only [List.foldl_cons, List.foldl_nil]
    rw [extractVisit]
    simp [hv, DependencyGraph.add_node, DependencyGraph.nodes, extractEdgesAux]
  have hnocyc : detect_cycles (⟨[(v, [])]⟩ : DependencyGraph) = none := by
    rw [detect_cycles_eq_none_iff]
    rintro ⟨w, htg⟩
    obtain ⟨b, hb, -⟩ := (Relation.TransGen.head'_iff).1 htg
    obtain ⟨m, hm⟩ := hb
    unfold DependencyGraph.edgeList at hm
    by_cases hwv : w = v <;> simp [assocFind, hwv] at hm
  unfold resolve_order
  rw [hsub]
  unfold DependencyGraph.topological_sort
  rw [hnocyc]
  simp [buildInDegree, kahnLoop, processEdges, assocFind,
    DependencyGraph.node_count, DependencyGraph.nodes]

theorem C3_witness :
    ((["D", "C", "B", "A"] : List String).Nodup ∧
      (("D" : String) ∈ ["D", "C", "B", "A"] ↔
        ∃ r ∈ ["A"], Reaches gChain r "D")) ∧
    resolve_order gChain [] = .ok [] ∧
    resolve_order gChain ["D"] = .ok ["D"] := by
  have h := C3_resolve_order_closure gChain
  exact ⟨⟨(h.1 ["A"] ["D", "C", "B", "A"] rfl).1,
    (h.1 ["A"] ["D", "C", "B", "A"] rfl).2 "D"⟩, h.2.1, h.2.2 "D" rfl⟩

/-- C4: `find_impact_path` returns, without duplicates, exactly the set of
services from which the target is reachable by following edges — the
ancestors of the target in the depends-on relation — on any graph (with
unique node keys), including graphs containing cycles. -/
theorem C4_find_impact_path_ancestors (g : DependencyGraph)
    (hnd : g.nodes.Nodup) (t : String) :
    (find_impact_path g t).Nodup ∧
    ∀ u, u ∈ find_impact_path g t ↔ Relation.TransGen (Edge g) u t :=
  find_impact_path_spec g hnd t

theorem C4_witness :
    (find_impact_path gCycle3 "X").Nodup ∧
    (("Y" : String) ∈ find_impact_path gCycle3 "X" ↔
      Relation.TransGen (Edge gCycle3) "Y" "X") := by
  have h := C4_find_impact_path_ancestors gCycle3 (by decide) "X"
  exact ⟨h.1, h.2 "Y"⟩

/-- C5: version classification — unparsable input on either side yields
`MajorIncompatible`; for parsable versions the result is `MajorIncompatible`
when the majors differ, `MinorIncompatible` when the majors agree but the
minors differ, and `Compatible` otherwise; the patch component is ignored and
any version is compatible with itself. -/
theorem C5_check_version_compatibility_classification :
    (∀ a c, (SemVer.parse a = none ∨ SemVer.parse c = none) →
      check_version_compatibility a c = .MajorIncompatible) ∧
    (∀ a c v1 v2, SemVer.parse a = some v1 → SemVer.parse c = some v2 →
      check_version_compatibility a c =
        (if v1.major ≠ v2.major then .MajorIncompatible
         else if v1.minor ≠ v2.minor then .MinorIncompatible
         else .Compatible)) ∧
    check_version_compatibility "1.0.1" "1.0.0" = .Compatible ∧
    (∀ a v, SemVer.parse a = some v →
      check_version_compatibility a a = .Compatible) := by
  refine ⟨?_, ?_, rfl, ?_⟩
  · intro a c h
    unfold check_version_compatibility
    rcases h with h | h
    · rw [h]
    · rw [h]
      cases SemVer.parse a <;> rfl
  · intro a c v1 v2 h1 h2
    unfold check_version_compatibility
    rw [h1, h2]
  · intro a v h
    unfold check_version_compatibility
    rw [h]
    simp

theorem C5_witness :
    check_version_compatibility "not-a-version" "1.0.0" = .MajorIncompatible ∧
    check_version_compatibility "2.0.0" "1.0.0" = .MajorIncompatible ∧
    check_version_compatibility "1.1.0" "1.0.0" = .MinorIncompatible ∧
    check_version_compatibility "1.0.1" "1.0.0" = .Compatible ∧
    check_version_compatibility "1.2.3" "1.2.3" = .Compatible := by
  have h := C5_check_version_compatibility_classification
  refine ⟨h.1 "not-a-version" "1.0.0" (Or.inl (by decide)), ?_, ?_, h.2.2.1,
    h.2.2.2 "1.2.3" ⟨1, 2, 3⟩ (by decide)⟩
  · rw [h.2.1 "2.0.0" "1.0.0" ⟨2, 0, 0⟩ ⟨1, 0, 0⟩ (by decide) (by decide)]
    decide
  · rw [h.2.1 "1.1.0" "1.0.0" ⟨1, 1, 0⟩ ⟨1, 0, 0⟩ (by decide) (by decide)]
    decide

/-- C6 (amended): a required dependency on an unregistered target is a hard
error.  `validate_dependencies` reports it — with a message containing the
dependency's name — when it is the first hard-failing dependency in
declaration order (earlier ones short-circuit first, see the counterexample);
and a catalog validation pass always records the exact failed entry for the
declaring service, excludes it from `successful`, and leaves its status state
`Error`. -/
theorem C6_missing_required_dependency {services : RegistryServices}
    {x : String} {sx : Service} {deps : List Dependency} {d : Dependency}
    {schemaValidate : JsonValue → Except (List String) Unit}
    {loadSchema : Service → Except AureaCoreError JsonValue}
    {summary : ValidationSummary} {services' : RegistryServices}
    (hnd : (services.map Prod.fst).Nodup)
    (hx : assocFind x services = some sx)
    (hdeps : sx.config.dependencies = some deps)
    (hdmem : d ∈ deps)
    (hreq : d.required = true)
    (habs : assocFind d.service services = none)
    (hrun : validate_all_services schemaValidate loadSchema services =
      .ok (summary, services')) :
    ((∃ pre post, deps = pre ++ d :: post ∧
        ∀ d' ∈ pre, depHardError services d' = none) →
      validate_dependencies services x = .error (.ValidationError
        ("Required dependency '" ++ d.service ++ "' not found")) ∧
      ∃ p s, ("Required dependency '" ++ d.service ++ "' not found" : String) =
        p ++ d.service ++ s) ∧
    (x, "Required dependency '" ++ d.service ++ "' not found") ∈ summary.failed ∧
    x ∉ summary.successful ∧
    ∃ sx', assocFind x services' = some sx' ∧ sx'.status.state = .Error := by
  have part1 : (∃ pre post, deps = pre ++ d :: post ∧
      ∀ d' ∈ pre, depHardError services d' = none) →
      validate_dependencies services x = .error (.ValidationError
        ("Required dependency '" ++ d.service ++ "' not found")) ∧
      ∃ p s, ("Required dependency '" ++ d.service ++ "' not found" : String) =
        p ++ d.service ++ s := by
    rintro ⟨pre, post, rfl, hpre⟩
    exact ⟨validate_dependencies_first_error hx hdeps hpre
        (depHardError_missing_required habs hreq),
      ⟨"Required dependency '", "' not found", rfl⟩⟩
  have hxm : (x, sx) ∈ services := assocFind_mem hx
  have hfp := firstPassService_missing_required hdeps hdmem habs hreq x
  have hfpl := fpList_mem hxm
  have herr : x ∈ errSetOf services := errSetOf_mem hfpl hfp.1
  have hfail : (x, "Required dependency '" ++ d.service ++ "' not found") ∈
      failedFirst services := failedFirst_mem hfpl hfp.2
  rw [validate_all_services_eq] at hrun
  obtain ⟨⟨fapp, hfq, hfp'⟩, ⟨sapp, hs, hsp⟩, ⟨out, hacc, hout, hskip⟩, hwm⟩ :=
    secondPass_spec _ _ _ _ _ _ _ hrun
  refine ⟨part1, ?_, ?_, ?_⟩
  · rw [hfq, summaryFirst_failed]
    exact List.mem_append_left _ hfail
  · intro hxs
    rw [hs, summaryFirst_successful, List.nil_append] at hxs
    exact (hsp x hxs).2 herr
  · obtain ⟨msg', hmem'⟩ := servicesFirst_mem_err hxm herr
    have hout' := hskip _ hmem' herr
    have hserv : services' = out := by rw [hacc, List.nil_append]
    refine ⟨{ sx with status := ((ServiceStatus.new .Error).with_error msg') },
      ?_, rfl⟩
    rw [hserv]
    exact assocFind_of_mem_nodup
      (by rw [hout, servicesFirst_map_fst]; exact hnd) hout'

theorem C6_witness : ∃ summary services',
    validate_all_services (fun _ => .ok ()) (fun _ => .ok (.obj [])) regC6 =
      .ok (summary, services') ∧
    validate_dependencies regC6 "x" =
      .error (.ValidationError "Required dependency 'm' not found") ∧
    ("x", "Required dependency 'm' not found") ∈ summary.failed ∧
    ("x" : String) ∉ summary.successful ∧
    ∃ sx', assocFind "x" services' = some sx' ∧ sx'.status.state = .Error := by
  refine ⟨_, _, rfl, ?_⟩
  have h := @C6_missing_required_dependency regC6 "x" svcC6x
    [⟨"m", none, true⟩] ⟨"m", none, true⟩
    (fun _ => .ok ()) (fun _ => .ok (.obj [])) _ _
    (by decide) rfl rfl (by decide) rfl rfl rfl
  exact ⟨(h.1 ⟨[], [], rfl, by simp⟩).1, h.2.1, h.2.2.1, h.2.2.2⟩

/-- C6, counterexample to the unamended universal reading: with two required
missing dependencies `m1, m2`, the scenario premises hold for `m2`, yet
`validate_dependencies` reports only the first hard error — its message does
not contain `m2`. -/
theorem C6_counterexample :
    svcC6cx.config.dependencies =
      some [⟨"m1", none, true⟩, ⟨"m2", none, true⟩] ∧
    (⟨"m2", none, true⟩ : Dependency).required = true ∧
    assocFind "m2" regC6c = none ∧
    validate_dependencies regC6c "x" =
      .error (.ValidationError "Required dependency 'm1' not found") ∧
    ¬ ∃ p s : String,
      ("Required dependency 'm1' not found" : String) = p ++ "m2" ++ s := by
  refine ⟨rfl, rfl, rfl, rfl, ?_⟩
  rintro ⟨p, s, h⟩
  have hd := congrArg String.data h
  rw [String.data_append, String.data_append] at hd
  have hsub : hasSubCL ("Required dependency 'm1' not found" : String).data
      ("m2" : String).data = true := by
    rw [hd]
    exact hasSubCL_of_append p.data ("m2" : String).data s.data
  exact absurd hsub (by decide)

/-- C7: an optional dependency whose resolved version is major-incompatible
with its constraint yields a recorded warning rather than a hard error, and —
provided the service has no critical first-pass error and its own context
validation succeeds — the service ends the pass in `successful` with state
`Active`. -/
theorem C7_optional_major_incompatibility_warns {services : RegistryServices}
    {y : String} {sy ds : Service} {deps : List Dependency} {d : Dependency}
    {vc v : String} {schema dy : JsonValue}
    {schemaValidate : JsonValue → Except (List String) Unit}
    {loadSchema : Service → Except AureaCoreError JsonValue}
    {summary : ValidationSummary} {services' : RegistryServices}
    (hnd : (services.map Prod.fst).Nodup)
    (hy : assocFind y services = some sy)
    (hdeps : sy.config.dependencies = some deps)
    (hdmem : d ∈ deps)
    (hopt : d.required = false)
    (hvc : d.version_constraint = some vc)
    (ht : assocFind d.service services = some ds)
    (hsch : ds.schema_data = some schema)
    (hver : (schema.getField "version").bind JsonValue.asStr = some v)
    (hmaj : check_version_compatibility v vc = .MajorIncompatible)
    (hcrit : (firstPassService services y sy).2.1 = false)
    (hsd : sy.schema_data = some dy)
    (hok : (validate_service_with_context schemaValidate y dy
      (services.map Prod.fst)).1 = .ok ())
    (hrun : validate_all_services schemaValidate loadSchema services =
      .ok (summary, services')) :
    WarnMem summary y ("Optional dependency '" ++ d.service ++
      "' has incompatible version: " ++
      ("Major version incompatibility for dependency '" ++ d.service ++
        "': expected " ++ vc ++ " but found " ++ v)) ∧
    (∀ m, (y, m) ∉ summary.failed) ∧
    y ∈ summary.successful ∧
    ∃ sy', assocFind y services' = some sy' ∧ sy'.status.state = .Active := by
  have hym : (y, sy) ∈ services := assocFind_mem hy
  have hfpl := fpList_mem hym
  have hw := firstPassService_optional_major hdeps hdmem ht hvc hsch hver hmaj hopt y
  have hdw := dependencyWarnings_mem hfpl hw
  have hwm1 := summaryFirst_warnMem hdw hw
  have herr : y ∉ errSetOf services := errSetOf_not_mem hnd hy hcrit
  have hsf : (y, sy) ∈ servicesFirst services := servicesFirst_mem_ok hym herr
  rw [validate_all_services_eq] at hrun
  have hndsf : ((servicesFirst services).map Prod.fst).Nodup := by
    rw [servicesFirst_map_fst]; exact hnd
  obtain ⟨hsucc, hfailm, hin⟩ :=
    secondPass_item_ok _ _ _ _ _ _ _ hrun hndsf hsf herr hsd hok
  obtain ⟨_, _, ⟨out, hacc, hout, -⟩, hwm⟩ :=
    secondPass_spec _ _ _ _ _ _ _ hrun
  refine ⟨hwm _ _ hwm1, ?_, hsucc, ?_⟩
  · intro m hm
    have hm' := hfailm m hm
    rw [summaryFirst_failed] at hm'
    obtain ⟨st, hst, hmem⟩ := failedFirst_src hm'
    rw [fpList_eq_of_nodup hnd hst hy,
      firstPassService_crit_false_failed_nil hcrit] at hmem
    cases hmem
  · refine ⟨{ sy with status := ((ServiceStatus.new .Active).with_warnings
      (validate_service_with_context schemaValidate y dy (services.map Prod.fst)).2) },
      ?_, rfl⟩
    have hserv : services' = out := by rw [hacc, List.nil_append]
    rw [hserv] at hin ⊢
    exact assocFind_of_mem_nodup
      (by rw [hout, servicesFirst_map_fst]; exact hnd) hin

theorem C7_witness : ∃ summary services',
    validate_all_services (fun _ => .ok ()) (fun _ => .ok (.obj [])) regC7 =
      .ok (summary, services') ∧
    WarnMem summary "y" ("Optional dependency 't' has incompatible version: " ++
      "Major version incompatibility for dependency 't': " ++
      "expected 1.0.0 but found 2.0.0") ∧
    (∀ m, ("y", m) ∉ summary.failed) ∧
    ("y" : String) ∈ summary.successful ∧
    ∃ sy', assocFind "y" services' = some sy' ∧ sy'.status.state = .Active := by
  refine ⟨_, _, rfl, ?_⟩
  have h := @C7_optional_major_incompatibility_warns regC7 "y" svcC7y svcC7t
    [⟨"t", some "1.0.0", false⟩] ⟨"t", some "1.0.0", false⟩
    "1.0.0" "2.0.0" (.obj [("version", .str "2.0.0")]) (.obj [])
    (fun _ => .ok ()) (fun _ => .ok (.obj [])) _ _
    (by decide) rfl rfl (by decide) rfl rfl rfl rfl rfl (by decide) rfl rfl rfl rfl
  exact h

/-- C8: on a registered service (with the external config store succeeding),
`delete_service` without `force` fails with an error naming the blocking
dependents whenever the critical-impact set is non-empty, leaving the map
unchanged; with `force` it succeeds, removes the record, and returns the full
unfiltered impact list. -/
theorem C8_delete_service_force_semantics {services : RegistryServices}
    {name : String} {svc : Service} {criticals : List String}
    {removeConfig : String → Except AureaCoreError Unit}
    (hnd : (services.map Prod.fst).Nodup)
    (hreg : assocFind name services = some svc)
    (hcrit : get_critical_impacts services name = .ok criticals)
    (hstore : removeConfig name = .ok ()) :
    (criticals ≠ [] →
      delete_service removeConfig services name false =
        (.error (.ValidationError ("Cannot delete service '" ++ name ++
          "' because it is required by: " ++ joinSep ", " criticals)), services)) ∧
    delete_service removeConfig services name true =
      (.ok (find_impact_path (buildDependencyGraphReg services) name),
        assocRemove name services) ∧
    assocFind name (assocRemove name services) = none := by
  refine ⟨?_, ?_, assocFind_assocRemove_self hnd⟩
  · intro hne
    unfold delete_service
    rw [hcrit]
    simp [hne]
  · unfold delete_service
    rw [hcrit]
    simp [get_impacted_services, hreg, hstore]

theorem C8_witness :
    ((["b"] : List String) ≠ [] →
      delete_service (fun _ => .ok ()) regC8 "a" false =
        (.error (.ValidationError
          "Cannot delete service 'a' because it is required by: b"), regC8)) ∧
    delete_service (fun _ => .ok ()) regC8 "a" true =
      (.ok (find_impact_path (buildDependencyGraphReg regC8) "a"),
        assocRemove "a" regC8) ∧
    assocFind "a" (assocRemove "a" regC8) = none :=
  @C8_delete_service_force_semantics regC8 "a" svcC8a ["b"] (fun _ => .ok ())
    (by decide) rfl rfl rfl

/-- C9 (amended): only the detailed-impact path checks registration:
`get_detailed_impact` on an unregistered target fails with
`ServiceNotFound`, and `get_critical_impacts` and `delete_service` propagate
that error.  (`resolve_order` and `get_impacted_services` do not perform this
check — see the counterexample.) -/
theorem C9_service_not_found {services : RegistryServices} {name : String}
    (habs : assocFind name services = none) :
    get_detailed_impact services name = .error (.ServiceNotFound name) ∧
    get_critical_impacts services name = .error (.ServiceNotFound name) ∧
    ∀ (removeConfig : String → Except AureaCoreError Unit) (force : Bool),
      (delete_service removeConfig services name force).1 =
        .error (.ServiceNotFound name) := by
  have h1 : get_detailed_impact services name = .error (.ServiceNotFound name) := by
    unfold get_detailed_impact
    rw [habs]
    rfl
  have h2 : get_critical_impacts services name = .error (.ServiceNotFound name) := by
    unfold get_critical_impacts
    rw [h1]
  refine ⟨h1, h2, ?_⟩
  intro removeConfig force
  unfold delete_service
  rw [h2]

theorem C9_witness :
    get_detailed_impact regC8 "ghost" = .error (.ServiceNotFound "ghost") ∧
    get_critical_impacts regC8 "ghost" = .error (.ServiceNotFound "ghost") ∧
    (delete_service (fun _ => .ok ()) regC8 "ghost" false).1 =
      .error (.ServiceNotFound "ghost") := by
  have h := @C9_service_not_found regC8 "ghost" rfl
  exact ⟨h.1, h.2.1, h.2.2 (fun _ => .ok ()) false⟩

/-- C9, counterexample to the unamended claim: an ordering request over an
unregistered root succeeds and even returns an order containing that root,
and `get_impacted_services` on an unregistered target succeeds as well. -/
theorem C9_counterexample :
    assocFind "ghost" regC8 = none ∧
    resolve_order (buildDependencyGraphReg regC8) ["ghost"] = .ok ["ghost"] ∧
    ("ghost" : String) ∈ ["ghost"] ∧
    get_ordered_services regC8 ["ghost"] = .ok ["ghost"] ∧
    get_impacted_services regC8 "ghost" = .ok [] :=
  ⟨rfl, rfl, by decide, rfl, rfl⟩

/-- C10: as soon as a dependency triggers a hard error (with every earlier
declared dependency hard-error-free), `validate_dependencies` returns exactly
that error: the dependencies declared after it are never examined (the result
does not depend on them), and the warnings accumulated before it are
discarded. -/
theorem C10_validate_dependencies_short_circuit {services : RegistryServices}
    {x : String} {sx : Service} {pre post : List Dependency} {d : Dependency}
    {msg : String}
    (hx : assocFind x services = some sx)
    (hdeps : sx.config.dependencies = some (pre ++ d :: post))
    (hpre : ∀ d' ∈ pre, depHardError services d' = none)
    (hd : depHardError services d = some msg) :
    validate_dependencies services x = .error (.ValidationError msg) :=
  validate_dependencies_first_error hx hdeps hpre hd

theorem C10_witness :
    validate_dependencies regC10 "x" =
      .error (.ValidationError "Required dependency 'm' not found") :=
  @C10_validate_dependencies_short_circuit regC10 "x" svcC10x
    [⟨"w", none, false⟩] [⟨"z", some "9.9.9", true⟩] ⟨"m", none, true⟩
    "Required dependency 'm' not found" rfl rfl (by decide) rfl

end AureaCore
